import Mathlib

/-!
# Serverless log client: proof builder and log state tracker

A shallow embedding of `serverless/internal/client/client.go`.

* Go byte slices are lists of octets, `uint64` values are natural numbers.
* Go `error` results are values of `Error`; a call that returns `(v, err)` is an `Except`.
* The fetcher is the only source of effects.  It is a function over an explicit store `σ`
  (so it may answer differently on every call), and every call is recorded in a trace.
* Maps (`map[K]V`) are functions into `Option`; a missing key reads as `none` (Go `nil`).
-/

set_option autoImplicit false

namespace Serverless

/-! ## Data model -/

/-- Go `[]byte`: a list of octets. -/
abbrev Bytes := List Nat

/-- Go `error` values that the client creates or passes on.
`wrap ctx e` is `fmt.Errorf("ctx: %w", e)`, `notExist` is `os.ErrNotExist`,
`inconsistency` is the `ErrInconsistency` struct of `client.go`. -/
inductive Error where
  | notExist : Error
  | other (msg : String) : Error
  | wrap (context : String) (inner : Error) : Error
  | nodeUnknown (level index : Nat) : Error
  | invalidCheckpoint (hash expected : Bytes) : Error
  | inconsistency (SmallerRaw LargerRaw : Bytes) (Proof : List Bytes) (Wrapped : Error) : Error
  deriving DecidableEq, Repr

deriving instance DecidableEq for Except

/-- The `Unwrap` method: `ErrInconsistency.Unwrap` returns `Wrapped`, and an error made with
`%w` unwraps to the error it wraps. -/
def Error.Unwrap : Error → Option Error
  | .wrap _ inner => some inner
  | .inconsistency _ _ _ wrapped => some wrapped
  | _ => none

/-- Go `errors.Is(err, target)`: walks the `Unwrap` chain of `err`. -/
def Error.is : Error → Error → Bool
  | .wrap c inner, target => decide (Error.wrap c inner = target) || Error.is inner target
  | .inconsistency s l p wrapped, target =>
      decide (Error.inconsistency s l p wrapped = target) || Error.is wrapped target
  | e, target => decide (e = target)

/-- Modelled from the spec: the `log.Checkpoint` type of `formats/log` (not under `src/`):
"(origin string, tree-size N, root-hash Hash, optional signatures)". -/
structure Checkpoint where
  Origin : String
  Size : Nat
  Hash : Bytes
  Signatures : List Bytes
  deriving DecidableEq, Repr

/-- The zero value `log.Checkpoint{}`. -/
def Checkpoint.zero : Checkpoint := ⟨"", 0, [], []⟩

/-- Go `compact.NodeID`: level 0 is the leaves, level `k` covers `2^k` leaves. -/
structure NodeID where
  Level : Nat
  Index : Nat
  deriving DecidableEq, Repr

/-- Go `merkle.NodeFetch`: a node address plus the rehash flag (which the client never reads). -/
structure NodeFetch where
  ID : NodeID
  Rehash : Bool
  deriving DecidableEq, Repr

/-- Modelled from the spec: the `api.Tile` type (not under `src/`): "a mapping from in-tile
node key → hash", serialised as "a sequence of records `(in-tile-key, hash)`". -/
structure Tile where
  Nodes : List (Nat × Bytes)
  deriving DecidableEq, Repr

/-- The map read `t.Nodes[key]`: a key that is absent reads as `none` (Go `nil`). -/
def Tile.node (t : Tile) (key : Nat) : Option Bytes := t.Nodes.lookup key

/-- Go `compact.HashFn`: the interior-node hash `(left, right) → hash`. -/
abbrev HashFn := Bytes → Bytes → Bytes

/-- Go `hashers.LogHasher`: the capability the tracker borrows. -/
structure LogHasher where
  EmptyRoot : Bytes
  HashLeaf : Bytes → Bytes
  HashChildren : HashFn

/-- Go conversion `int64(x)` of a `uint64`: values from `2^63` on wrap to negative numbers. -/
def toInt64 (n : Nat) : Int :=
  if n % 2 ^ 64 < 2 ^ 63 then ((n % 2 ^ 64 : Nat) : Int) else ((n % 2 ^ 64 : Nat) : Int) - 2 ^ 64

/-- Go `logverifier.LogVerifier` as the tracker uses it: a pure function that accepts (`ok`) or
rejects a consistency proof. -/
structure LogVerifier where
  VerifyConsistencyProof : Int → Int → Bytes → Bytes → List Bytes → Except Error Unit

/-! ## Effects: the fetcher and its trace -/

/-- What the client does to the outside world: fetches, and consultations of the verifier. -/
inductive Event where
  | fetch (path : String) : Event
  | verifyConsistency (size1 size2 : Int) (root1 root2 : Bytes) (proof : List Bytes) : Event
  deriving DecidableEq, Repr

/-- The world a call runs in: the fetcher's own store and the trace of events so far. -/
structure World (σ : Type) where
  store : σ
  trace : List Event

/-- Go `FetcherFunc`: retrieves a file of the log's storage by relative path.  The store lets a
fetcher answer differently from one call to the next. -/
abbrev FetcherFunc (σ : Type) := String → σ → Except Error Bytes × σ

/-- One invocation `f(path)`, recorded in the trace. -/
def callFetcher {σ : Type} (f : FetcherFunc σ) (path : String) (w : World σ) :
    Except Error Bytes × World σ :=
  ((f path w.store).1, ⟨(f path w.store).2, w.trace ++ [Event.fetch path]⟩)

/-- One invocation of `Verifier.VerifyConsistencyProof`, recorded in the trace. -/
def callVerifier {σ : Type} (v : LogVerifier) (size1 size2 : Int) (root1 root2 : Bytes)
    (proof : List Bytes) (w : World σ) : Except Error Unit × World σ :=
  (v.VerifyConsistencyProof size1 size2 root1 root2 proof,
    ⟨w.store, w.trace ++ [Event.verifyConsistency size1 size2 root1 root2 proof]⟩)

/-- The paths fetched in a trace, in order. -/
def fetchedPaths : List Event → List String
  | [] => []
  | Event.fetch p :: rest => p :: fetchedPaths rest
  | Event.verifyConsistency _ _ _ _ _ :: rest => fetchedPaths rest

/-- The number of times the verifier was consulted in a trace. -/
def verifierCalls : List Event → Nat
  | [] => 0
  | Event.fetch _ :: rest => verifierCalls rest
  | Event.verifyConsistency _ _ _ _ _ :: rest => verifierCalls rest + 1

/-- The collaborators of the client whose code is not under `src/`: the checkpoint and tile
parsers and the consistency-proof address calculation of the Merkle library. -/
structure Env where
  unmarshalCheckpoint : Bytes → Except Error Checkpoint
  unmarshalTile : Bytes → Except Error Tile
  CalcConsistencyProofNodeAddresses : Int → Int → Int → Except Error (List NodeFetch)

/-! ## Checkpoint format -/

/-- The bytes of an ASCII string. -/
def bytesOf (s : String) : Bytes := s.toList.map Char.toNat

/-- The string whose characters are the given octets (Go `string(b)`). -/
def stringOf (b : Bytes) : String := String.mk (b.map Char.ofNat)

/-- Splits at every line feed (Go `bytes.Split(data, "\n")`): the piece after the last line
feed is there even when it is empty. -/
def splitLines : Bytes → List Bytes
  | [] => [[]]
  | b :: rest =>
    if b = 10 then [] :: splitLines rest
    else
      match splitLines rest with
      | [] => [[b]]
      | line :: lines => (b :: line) :: lines

/-- The value of a string of decimal digits read after the value `acc`; `none` when a byte is
not a digit. -/
def parseDecimal : Bytes → Nat → Option Nat
  | [], acc => some acc
  | b :: rest, acc => if 48 ≤ b ∧ b ≤ 57 then parseDecimal rest (acc * 10 + (b - 48)) else none

/-- Go `strconv.ParseUint(s, 10, 64)`: a non-empty string of digits whose value fits 64 bits. -/
def parseUint10 (s : Bytes) : Option Nat :=
  if s = [] then none
  else
    match parseDecimal s 0 with
    | some v => if v < 2 ^ 64 then some v else none
    | none => none

/-- The value of one character of the standard base64 alphabet. -/
def base64Value (b : Nat) : Option Nat :=
  if 65 ≤ b ∧ b ≤ 90 then some (b - 65)
  else if 97 ≤ b ∧ b ≤ 122 then some (b - 71)
  else if 48 ≤ b ∧ b ≤ 57 then some (b + 4)
  else if b = 43 then some 62
  else if b = 47 then some 63
  else none

/-- Standard padded base64 decoding, four characters at a time. -/
def base64Decode : Bytes → Option Bytes
  | [] => some []
  | [a, b, 61, 61] =>
    match base64Value a, base64Value b with
    | some x, some y => some [(x * 64 + y) / 16]
    | _, _ => none
  | [a, b, c, 61] =>
    match base64Value a, base64Value b, base64Value c with
    | some x, some y, some z => some [(x * 4096 + y * 64 + z) / 1024, (x * 4096 + y * 64 + z) / 4 % 256]
    | _, _, _ => none
  | a :: b :: c :: d :: rest =>
    match base64Value a, base64Value b, base64Value c, base64Value d, base64Decode rest with
    | some x, some y, some z, some u, some tail =>
      some ((x * 262144 + y * 4096 + z * 64 + u) / 65536
        :: (x * 262144 + y * 4096 + z * 64 + u) / 256 % 256
        :: (x * 262144 + y * 4096 + z * 64 + u) % 256 :: tail)
    | _, _, _, _, _ => none
  | _ => none

/-- A signature line is "— name base64": an em dash (three octets), a space, a name without
spaces, a space and a base64 string. -/
def isSignatureLine (line : Bytes) : Bool :=
  match line with
  | 226 :: 128 :: 148 :: 32 :: rest =>
    match rest.splitOn 32 with
    | [name, sig] => name ≠ [] && sig ≠ [] && (base64Decode sig).isSome
    | _ => false
  | _ => false

/-- Modelled from the spec: `Checkpoint.Unmarshal` of `formats/log` (not under `src/`):
"origin line, decimal size line, base64 root hash line, blank line, then signature lines";
"Blank line after the root hash is mandatory; at least zero signature lines follow.  Trailing
data after the last signature line is rejected". -/
def Checkpoint.Unmarshal (data : Bytes) : Except Error Checkpoint :=
  match splitLines data with
  | origin :: size :: root :: [] :: rest =>
    match parseUint10 size, base64Decode root with
    | some n, some h =>
      if rest.getLast? = some [] ∧ rest.dropLast.all isSignatureLine then
        .ok ⟨stringOf origin, n, h, rest.dropLast⟩
      else .error (.other "invalid checkpoint - bad signature lines")
    | none, _ => .error (.other "invalid checkpoint - size invalid")
    | _, none => .error (.other "invalid checkpoint - invalid hash")
  | _ => .error (.other "invalid checkpoint - too few newlines")

/-! ## Tile format -/

/-- The value of one lowercase hexadecimal digit. -/
def hexValue (b : Nat) : Option Nat :=
  if 48 ≤ b ∧ b ≤ 57 then some (b - 48)
  else if 97 ≤ b ∧ b ≤ 102 then some (b - 87)
  else none

/-- The value of a string of hexadecimal digits read after the value `acc`. -/
def parseHex : Bytes → Nat → Option Nat
  | [], acc => some acc
  | b :: rest, acc =>
    match hexValue b with
    | some v => parseHex rest (acc * 16 + v)
    | none => none

/-- The octets written as pairs of hexadecimal digits. -/
def parseHexBytes : Bytes → Option Bytes
  | [] => some []
  | a :: b :: rest =>
    match hexValue a, hexValue b, parseHexBytes rest with
    | some x, some y, some tail => some ((x * 16 + y) :: tail)
    | _, _, _ => none
  | _ => none

/-- One record "hex-key hex-hash": a non-empty key and a hash of 32 octets. -/
def parseTileRecord (line : Bytes) : Option (Nat × Bytes) :=
  match line.splitOn 32 with
  | [key, hash] =>
    if key = [] then none
    else
      match parseHex key 0, parseHexBytes hash with
      | some k, some h => if h.length = 32 then some (k, h) else none
      | _, _ => none
  | _ => none

/-- All the records, or `none` when one line is not a record. -/
def parseTileRecords : List Bytes → Option (List (Nat × Bytes))
  | [] => some []
  | line :: rest =>
    match parseTileRecord line, parseTileRecords rest with
    | some r, some rs => some (r :: rs)
    | _, _ => none

/-- Strictly ascending keys: sorted and without duplicates. -/
def keysAscending : List (Nat × Bytes) → Bool
  | [] => true
  | [_] => true
  | a :: b :: rest => decide (a.1 < b.1) && keysAscending (b :: rest)

/-- Modelled from the spec: `Tile.UnmarshalText` of the `api` package (not under `src/`):
"records `<hex key> <hex hash>\n`, sorted ascending by key.  EOF terminates.  Parser rejects
duplicate keys or any line not matching the grammar"; "parsers MUST reject duplicate keys,
malformed hex, and hashes of wrong length". -/
def Tile.UnmarshalText (data : Bytes) : Except Error Tile :=
  if (splitLines data).getLast? ≠ some [] then .error (.other "invalid tile - unterminated record")
  else
    match parseTileRecords (splitLines data).dropLast with
    | none => .error (.other "invalid tile - malformed record")
    | some records =>
      if keysAscending records then .ok ⟨records⟩
      else .error (.other "invalid tile - keys not ascending")

/-! ## Path layout -/

/-- Tile height `H = 8`. -/
def tileHeight : Nat := 8

/-- Go `layout.CheckpointPath`. -/
def CheckpointPath : String := "checkpoint"

/-- One lowercase hexadecimal digit. -/
def hexDigit (d : Nat) : Char :=
  if d < 10 then Char.ofNat (48 + d) else Char.ofNat (87 + d)

/-- The hexadecimal digits of `v`, most significant first, at least `width` of them
(`fmt.Sprintf("%0<width>x", v)`). -/
def hexDigits : Nat → Nat → List Char
  | 0, _ => []
  | width + 1, v => hexDigits width (v / 16) ++ [hexDigit (v % 16)]

/-- The number of hexadecimal digits of `v` (at least one), for values below `16^fuel`. -/
def hexLen : Nat → Nat → Nat
  | 0, _ => 1
  | fuel + 1, v => if v < 16 then 1 else hexLen fuel (v / 16) + 1

/-- Lowercase hex of a 64-bit `v`, zero-padded to `width` digits; wider values keep all their
digits. -/
def hexPad (width v : Nat) : String :=
  String.mk (hexDigits (max width (hexLen 16 v)) v)

/-- Go `filepath.Join` on the clean components the layout produces: empty elements are dropped
and the others are joined with a slash. -/
def filepathJoin (elems : List String) : String :=
  "/".intercalate (elems.filter (fun e => e ≠ ""))

/-- Modelled from the spec: `layout.TilePath` (not under `src/`):
"`<root>/tile/<LL>/<IIII>/<II>/<II>/<II>[.<PP>]` — tile level as 2 hex digits, then tile index
as 10 hex digits split 4/2/2/2, with an optional `.<PP>` suffix giving the partial size when
non-zero".  Returns the directory and the file name. -/
def TilePath (root : String) (level index tileSize : Nat) : String × String :=
  let suffix := if tileSize > 0 then "." ++ hexPad 2 tileSize else ""
  (filepathJoin [root, "tile", hexPad 2 level, hexPad 4 (index >>> 24),
      hexPad 2 ((index >>> 16) % 256), hexPad 2 ((index >>> 8) % 256)],
    hexPad 2 (index % 256) ++ suffix)

/-- Modelled from the spec: `layout.PartialTileSize` (not under `src/`): "returns 0 if the
tile is complete for `logSize`, else the number of leaves covered from the tile's left edge". -/
def PartialTileSize (level index logSize : Nat) : Nat :=
  let sizeAtLevel := logSize >>> (level * tileHeight)
  let fullTiles := sizeAtLevel / 2 ^ tileHeight
  if index < fullTiles then 0 else sizeAtLevel % 2 ^ tileHeight

/-- Modelled from the spec: `layout.NodeCoordsToTileAddress` (not under `src/`):
"`tileLevel = L div H`, `tileIndex = I / 2^(H − (L mod H))`, and
`(nodeLevel, nodeIndex) = (L mod H, I mod 2^(H − (L mod H)))`". -/
def NodeCoordsToTileAddress (treeLevel treeIndex : Nat) : Nat × Nat × Nat × Nat :=
  let tileRowWidth := 2 ^ (tileHeight - treeLevel % tileHeight)
  (treeLevel / tileHeight, treeIndex / tileRowWidth, treeLevel % tileHeight,
    treeIndex % tileRowWidth)

/-- Modelled from the spec: `api.TileNodeKey` (not under `src/`):
"`TileNodeKey(nodeLevel, nodeIndex) = nodeLevel · 2^H + nodeIndex`". -/
def TileNodeKey (nodeLevel nodeIndex : Nat) : Nat :=
  nodeLevel * 2 ^ tileHeight + nodeIndex

/-- Modelled from the spec: `layout.SeqPath` (not under `src/`, exercised by `TestSeqPath`):
"`<root>/seq/<b3>/<b2>/<b1>/<b0>/<b−1>` where bytes are the big-endian hex digits of the
40-bit sequence number, grouped into 2-hex-digit directories then a 2-hex-digit file".
Returns the directory and the file name. -/
def SeqPath (root : String) (seq : Nat) : String × String :=
  (filepathJoin [root, "seq", hexPad 2 (seq >>> 32), hexPad 2 ((seq >>> 24) % 256),
      hexPad 2 ((seq >>> 16) % 256), hexPad 2 ((seq >>> 8) % 256)],
    hexPad 2 (seq % 256))

/-- The octet written by two lowercase hexadecimal digits. -/
def hexByte (hi lo : Char) : Option Nat :=
  match hexValue hi.toNat, hexValue lo.toNat with
  | some x, some y => some (x * 16 + y)
  | _, _ => none

/-- Modelled from the spec: `layout.SeqFromPath` (not under `src/`, exercised by
`TestSeqFromPath`), the inverse of `SeqPath`: "for any valid `seq`,
`SeqFromPath(root, join(SeqPath(root, seq))) == seq`".  The path must be the sequence
directory of `root`, a slash, and five groups of two hexadecimal digits separated by
slashes; any other path gives an error, with sequence number 0. -/
def SeqFromPath (root seqPath : String) : Nat × Option Error :=
  if ((filepathJoin [root, "seq"]).toList ++ ['/']).isPrefixOf seqPath.toList then
    match seqPath.toList.drop ((filepathJoin [root, "seq"]).toList.length + 1) with
    | [a1, a0, s1, b1, b0, s2, c1, c0, s3, d1, d0, s4, e1, e0] =>
      if s1 = '/' ∧ s2 = '/' ∧ s3 = '/' ∧ s4 = '/' then
        match hexByte a1 a0, hexByte b1 b0, hexByte c1 c0, hexByte d1 d0, hexByte e1 e0 with
        | some a, some b, some c, some d, some e =>
          (a * 2 ^ 32 + b * 2 ^ 24 + c * 2 ^ 16 + d * 2 ^ 8 + e, none)
        | _, _, _, _, _ => (0, some (.other "invalid sequence path: not hexadecimal"))
      else (0, some (.other "invalid sequence path: format"))
    | _ => (0, some (.other "invalid sequence path: format"))
  else (0, some (.other "invalid sequence path: not under the sequence directory"))

/-- Go `fmt.Sprintf("%x", b)` for a byte slice: two lowercase hexadecimal digits per octet. -/
def hexOfBytes (b : Bytes) : String :=
  String.mk (b.flatMap (fun x => [hexDigit (x / 16 % 16), hexDigit (x % 16)]))

/-- Modelled from the spec: `layout.LeafPath` (not under `src/`, exercised by
`TestLeafPath`): "`<root>/leaves/<h[0]>/<h[1]>/<h[2]>/<h[3..]>` where `h` is lowercase hex of
the leaf hash", one directory per octet for the first three octets.  Returns the directory
and the file name; `none` is the Go panic on a hash of fewer than three octets. -/
def LeafPath (root : String) (leafhash : Bytes) : Option (String × String) :=
  match leafhash with
  | h0 :: h1 :: h2 :: rest =>
    some (filepathJoin [root, "leaves", hexPad 2 h0, hexPad 2 h1, hexPad 2 h2], hexOfBytes rest)
  | _ => none

/-! ## Node cache -/

/-- Go `GetTileFunc`: fetches the tile at `(level, index)` for a log of size `logSize`. -/
abbrev GetTileFunc (σ : Type) := Nat → Nat → Nat → World σ → Except Error Tile × World σ

/-- Go `NodeCache`: the ephemeral-node table, the tiles seen so far (keyed by
`tileKey{tileLevel, tileIndex}`) and the tile fetcher. -/
structure NodeCache (σ : Type) where
  ephemeral : NodeID → Option Bytes
  tiles : Nat × Nat → Option Tile
  getTile : GetTileFunc σ

/-- Go `NewNodeCache`: both maps start empty. -/
def NewNodeCache {σ : Type} (f : GetTileFunc σ) : NodeCache σ :=
  { ephemeral := fun _ => none, tiles := fun _ => none, getTile := f }

/-- Go `NodeCache.SetEphemeralNode`: `n.ephemeral[id] = h`. -/
def NodeCache.SetEphemeralNode {σ : Type} (id : NodeID) (h : Bytes) (n : NodeCache σ) :
    NodeCache σ :=
  { n with ephemeral := fun j => if j = id then some h else n.ephemeral j }

/-- Go `NodeCache.GetNode`: an ephemeral node of non-zero length wins; otherwise the node is
looked up in its tile, which is fetched and cached when it has not been seen. -/
def NodeCache.GetNode {σ : Type} (n : NodeCache σ) (id : NodeID) (logSize : Nat) (w : World σ) :
    Except Error Bytes × NodeCache σ × World σ :=
  let e := (n.ephemeral id).getD []
  if e.length ≠ 0 then (.ok e, n, w)
  else
    let tileLevel := (NodeCoordsToTileAddress id.Level id.Index).1
    let tileIndex := (NodeCoordsToTileAddress id.Level id.Index).2.1
    let nodeLevel := (NodeCoordsToTileAddress id.Level id.Index).2.2.1
    let nodeIndex := (NodeCoordsToTileAddress id.Level id.Index).2.2.2
    match n.tiles (tileLevel, tileIndex) with
    | some t =>
      match t.node (TileNodeKey nodeLevel nodeIndex) with
      | none => (.error (.nodeUnknown id.Level id.Index), n, w)
      | some node => (.ok node, n, w)
    | none =>
      match n.getTile tileLevel tileIndex logSize w with
      | (.error err, w1) => (.error (.wrap "failed to fetch tile" err), n, w1)
      | (.ok tile, w1) =>
        let n1 : NodeCache σ :=
          { n with tiles := fun k => if k = (tileLevel, tileIndex) then some tile else n.tiles k }
        match tile.node (TileNodeKey nodeLevel nodeIndex) with
        | none => (.error (.nodeUnknown id.Level id.Index), n1, w1)
        | some node => (.ok node, n1, w1)

/-- Go `newTileFetcher`: the `GetTileFunc` that fetches the tile file at its (possibly partial)
path and parses it.  A failed fetch is returned at once; only its wrapping depends on
whether it is `os.ErrNotExist`. -/
def newTileFetcher {σ : Type} (env : Env) (f : FetcherFunc σ) : GetTileFunc σ :=
  fun level index logSize w =>
    let tileSize := PartialTileSize level index logSize
    let p := filepathJoin [(TilePath "" level index tileSize).1, (TilePath "" level index tileSize).2]
    match callFetcher f p w with
    | (.error err, w1) =>
      if !(err.is Error.notExist) then (.error (.wrap "failed to read tile" err), w1)
      else (.error err, w1)
    | (.ok t, w1) =>
      match env.unmarshalTile t with
      | .error err => (.error (.wrap "failed to parse tile" err), w1)
      | .ok tile => (.ok tile, w1)

/-- The loop `for _, n := range ids { h, err := nc.GetNode(n, size); ... append }` shared by
`FetchRangeNodes`, `InclusionProof` and `ConsistencyProof`; `wrapErr` is what the caller does
to a `GetNode` error. -/
def getNodes {σ : Type} (wrapErr : Error → Error) (logSize : Nat) :
    List NodeID → NodeCache σ → World σ → Except Error (List Bytes) × NodeCache σ × World σ
  | [], nc, w => (.ok [], nc, w)
  | id :: rest, nc, w =>
    match nc.GetNode id logSize w with
    | (.error err, nc1, w1) => (.error (wrapErr err), nc1, w1)
    | (.ok h, nc1, w1) =>
      match getNodes wrapErr logSize rest nc1 w1 with
      | (.error err, nc2, w2) => (.error err, nc2, w2)
      | (.ok hs, nc2, w2) => (.ok (h :: hs), nc2, w2)

/-- Go `lower(c)` of `strconv`: `c | ('x' - 'X')`. -/
def lower (c : Nat) : Nat := c ||| 32

/-- The digit `strconv.ParseUint` reads in an octet: `c - '0'` for a decimal digit,
`lower(c) - 'a' + 10` for a letter; `none` is the `default` case (a syntax error). -/
def digitOf (c : Nat) : Option Nat :=
  if 48 ≤ c ∧ c ≤ 57 then some (c - 48)
  else if 97 ≤ lower c ∧ lower c ≤ 122 then some (lower c - 97 + 10)
  else none

/-- The loop of Go `strconv.ParseUint(s, base, 64)` over the octets of `s`, for an explicit
base from 2 to 36, with `n` the value read so far: a digit not below the base is a syntax
error (value 0); when `n` has reached the cutoff `maxUint64/base + 1`, or the sum wraps, the
result is a range error (value `maxUint64`). -/
def parseUintLoop (base : Nat) : Bytes → Nat → Nat × Option Error
  | [], n => (n, none)
  | c :: rest, n =>
    match digitOf c with
    | none => (0, some (.other "strconv.ParseUint: invalid syntax"))
    | some d =>
      if d ≥ base then (0, some (.other "strconv.ParseUint: invalid syntax"))
      else if n ≥ (2 ^ 64 - 1) / base + 1 then
        (2 ^ 64 - 1, some (.other "strconv.ParseUint: value out of range"))
      else if (n * base % 2 ^ 64 + d) % 2 ^ 64 < n * base % 2 ^ 64
          ∨ (n * base % 2 ^ 64 + d) % 2 ^ 64 > 2 ^ 64 - 1 then
        (2 ^ 64 - 1, some (.other "strconv.ParseUint: value out of range"))
      else parseUintLoop base rest ((n * base % 2 ^ 64 + d) % 2 ^ 64)

/-- Go `strconv.ParseUint(s, base, 64)` of the standard library, for an explicit base from 2
to 36: the empty string is a syntax error. -/
def ParseUint (s : Bytes) (base : Nat) : Nat × Option Error :=
  if s = [] then (0, some (.other "strconv.ParseUint: invalid syntax"))
  else parseUintLoop base s 0

/-- Go `LookupIndex`: fetches the file at `LeafPath("", lh)` and parses its whole contents as
a base-16 numeral of 64 bits.  Returns the value, the error and the world; `none` is the Go
panic of `LeafPath` on a hash of fewer than three octets. -/
def LookupIndex {σ : Type} (f : FetcherFunc σ) (lh : Bytes) (w : World σ) :
    Option ((Nat × Option Error) × World σ) :=
  match LeafPath "" lh with
  | none => none
  | some (dir, file) =>
    match callFetcher f (filepathJoin [dir, file]) w with
    | (.error err, w1) =>
      if err.is Error.notExist then some ((0, some (.wrap "leafhash unknown" err)), w1)
      else some ((0, some (.wrap "failed to fetch leafhash->seq file" err)), w1)
    | (.ok sRaw, w1) => some (ParseUint sRaw 16, w1)

/-! ## Compact range (Merkle library) -/

/-- Go `bits.OnesCount64`, by scanning the 64 bits. -/
def onesCountAux : Nat → Nat → Nat
  | 0, _ => 0
  | fuel + 1, x => x % 2 + onesCountAux fuel (x / 2)

/-- Go `bits.OnesCount64`. -/
def onesCount64 (x : Nat) : Nat := onesCountAux 64 x

/-- The perfect subtrees of `[pos, pos + (size mod 2^bit))`, highest first: one node per set
bit of `size` below `bit`, each at the index of the leaves it covers. -/
def rangeNodesFrom : Nat → Nat → Nat → List NodeID
  | 0, _, _ => []
  | bit + 1, pos, size =>
    if size.testBit bit then ⟨bit, pos >>> bit⟩ :: rangeNodesFrom bit (pos + 2 ^ bit) size
    else rangeNodesFrom bit pos size

/-- Modelled from the spec: `compact.RangeNodes(0, s)` of the Merkle library (not under
`src/`): "for each set bit k in `cp.size`, the node `(k, index)` covering those 2^k leaves,
ordered highest-k first". -/
def RangeNodes (s : Nat) : List NodeID := rangeNodesFrom 64 0 s

/-- Go `compact.Range`: the hashes of the perfect subtrees covering `[begin, end)`. -/
structure Range where
  hash : HashFn
  begin : Nat
  stop : Nat
  hashes : List Bytes

/-- Modelled from the spec: `RangeFactory.NewRange(begin, end, hashes)` of the Merkle library
(not under `src/`), for the ranges the client builds, which begin at 0: "Invariant: length
equals popcount(N)".  A range given another number of hashes, or ending before it begins, is
refused. -/
def NewRange (h : HashFn) (begin stop : Nat) (hashes : List Bytes) : Except Error Range :=
  if stop < begin then .error (.other "invalid range")
  else if hashes.length ≠ onesCount64 (stop - begin) then .error (.other "invalid hashes")
  else .ok ⟨h, begin, stop, hashes⟩

/-- The right-to-left fold of `GetRootHash` over the perfect subtrees (node and hash) of a
tree of `size` leaves: the last hash starts the accumulator; each preceding hash at level `k`
gives `acc = HashChildren(hash, acc)`, and the combined node, at level `k + 1` and at the
index of its base leaf, is handed to `visit` when it is ephemeral. -/
def foldRange {α : Type} (hash : HashFn) (visit : NodeID → Bytes → α → α) (size : Nat) :
    List (NodeID × Bytes) → α → Bytes × α
  | [], a => ([], a)
  | [(_, h)], a => (h, a)
  | (id, h) :: rest, a =>
    let acc := hash h (foldRange hash visit size rest a).1
    let base := id.Index * 2 ^ id.Level
    let index := base >>> (id.Level + 1)
    (acc,
      if index * 2 ^ (id.Level + 1) + 2 ^ (id.Level + 1) > size then
        visit ⟨id.Level + 1, index⟩ acc (foldRange hash visit size rest a).2
      else (foldRange hash visit size rest a).2)

/-- Modelled from the spec: `compact.Range.GetRootHash` of the Merkle library (not under
`src/`): "folds right-to-left: let `acc = hashes[last]` at level `k_last`; for each preceding
hash at level k, `acc = HashChildren(hashes[i], acc)` and, if the combined node is ephemeral
(i.e., its index·2^(k+1) + 2^(k+1) > N), record `(level=k+1, index=…) → acc` via
`emitEphemeral`; ephemeral-node indices are derived by tracking the combined subtree's base
leaf index; terminal acc is the root".  The range must begin at 0; the root of the empty
range is the empty (nil) slice. -/
def Range.GetRootHash {α : Type} (r : Range) (visit : NodeID → Bytes → α → α) (a : α) :
    Except Error Bytes × α :=
  if r.begin ≠ 0 then (.error (.other "begin, want 0"), a)
  else
    (.ok (foldRange r.hash visit r.stop ((RangeNodes r.stop).zip r.hashes) a).1,
      (foldRange r.hash visit r.stop ((RangeNodes r.stop).zip r.hashes) a).2)

/-! ## Proof node addresses and verification (Merkle library) -/

/-- Go `bits.Len64`, by scanning the 64 bits: the number of bits needed to write `x`. -/
def bitLenAux : Nat → Nat → Nat
  | 0, _ => 0
  | fuel + 1, x => if x = 0 then 0 else bitLenAux fuel (x / 2) + 1

/-- Go `bits.Len64`. -/
def len64 (x : Nat) : Nat := bitLenAux 64 x

/-- The level of the root of a subtree of `n` leaves: the least `L` with `n ≤ 2^L`. -/
def subtreeLevel (n : Nat) : Nat := len64 (n - 1)

/-- The largest power of two strictly below `n`, for `n ≥ 2` (RFC 6962: "k the largest power
of two smaller than n"). -/
def splitPoint (n : Nat) : Nat := 2 ^ (subtreeLevel n - 1)

/-- The node that is the root of the subtree over the leaves `[start, start + n)`. -/
def subtreeID (start n : Nat) : NodeID := ⟨subtreeLevel n, start >>> subtreeLevel n⟩

/-- RFC 6962 §2.1.1, `PATH(m, D[n])`, as node addresses, for the subtree over the leaves
`[start, start + n)`: `PATH(m, D[n]) = PATH(m, D[0:k]) : MTH(D[k:n])` for `m < k` and
`PATH(m - k, D[k:n]) : MTH(D[0:k])` for `m ≥ k`. -/
def inclusionPath : Nat → Nat → Nat → Nat → List NodeID
  | 0, _, _, _ => []
  | fuel + 1, start, m, n =>
    if n ≤ 1 then []
    else if m < splitPoint n then
      inclusionPath fuel start m (splitPoint n) ++
        [subtreeID (start + splitPoint n) (n - splitPoint n)]
    else
      inclusionPath fuel (start + splitPoint n) (m - splitPoint n) (n - splitPoint n) ++
        [subtreeID start (splitPoint n)]

/-- Modelled from the spec: `merkle.CalcInclusionProofNodeAddresses(size, index, size)` of the
Merkle library (not under `src/`): "Compute the RFC 6962 inclusion-proof node-ID list for
leaf `index` in a tree of size `cp.size`", "node-ID computation follows the Merkle Audit Path
algorithm of RFC 6962 §2.1 verbatim".  The arguments are `int64`; an index outside the tree
is refused. -/
def CalcInclusionProofNodeAddresses (snapshot index treeSize : Int) :
    Except Error (List NodeFetch) :=
  if snapshot > treeSize ∨ index ≥ snapshot ∨ index < 0 ∨ snapshot < 1 ∨ treeSize < 1 then
    .error (.other "invalid parameter for inclusion proof")
  else .ok ((inclusionPath 64 0 index.toNat snapshot.toNat).map (fun id => ⟨id, false⟩))

/-- RFC 6962 §2.1.2, `SUBPROOF(m, D[n], b)`, as node addresses, for the subtree over the
leaves `[start, start + n)`. -/
def consistencySubproof : Nat → Nat → Nat → Nat → Bool → List NodeID
  | 0, _, _, _, _ => []
  | fuel + 1, start, m, n, b =>
    if m = n then (if b then [] else [subtreeID start n])
    else if m ≤ splitPoint n then
      consistencySubproof fuel start m (splitPoint n) b ++
        [subtreeID (start + splitPoint n) (n - splitPoint n)]
    else
      consistencySubproof fuel (start + splitPoint n) (m - splitPoint n) (n - splitPoint n)
        false ++ [subtreeID start (splitPoint n)]

/-- The nodes the Merkle library returns for the subtree over the leaves `[start, start + n)`
at the right border of the second snapshot.  When the tree that is read has the size of the
snapshot (`rehash` is false), or the subtree is perfect, it is the node of the subtree itself.
Otherwise the node is not complete in the snapshot and the larger tree holds another hash
under its address: the library returns the perfect subtrees that cover the leaves, lowest
first, each marked for rehashing. -/
def borderNodes (rehash : Bool) (start n : Nat) : List NodeFetch :=
  if rehash = true ∧ n ≠ 2 ^ subtreeLevel n then
    (rangeNodesFrom 64 start n).reverse.map (fun id => ⟨id, true⟩)
  else [⟨subtreeID start n, false⟩]

/-- The node list of the consistency proof: RFC 6962 §2.1.2, `SUBPROOF(m, D[n], b)`, for the
subtree over the leaves `[start, start + n)`, where `rehash` says that this subtree ends at
the second snapshot and that the tree read is larger than that snapshot. -/
def consistencyNodes : Nat → Nat → Nat → Nat → Bool → Bool → List NodeFetch
  | 0, _, _, _, _, _ => []
  | fuel + 1, start, m, n, b, rehash =>
    if m = n then (if b then [] else [⟨subtreeID start n, false⟩])
    else if m ≤ splitPoint n then
      consistencyNodes fuel start m (splitPoint n) b false ++
        borderNodes rehash (start + splitPoint n) (n - splitPoint n)
    else
      consistencyNodes fuel (start + splitPoint n) (m - splitPoint n) (n - splitPoint n)
        false rehash ++ [⟨subtreeID start (splitPoint n), false⟩]

/-- Modelled from the spec: `merkle.CalcConsistencyProofNodeAddresses(snapshot1, snapshot2,
treeSize)` of the Merkle library (not under `src/`): "compute the RFC 6962 consistency-proof
node-ID list", with two departures from the spec's words where the library is known to
differ.  The library refuses a snapshot below 1 (so `smaller == 0` is an error, not the empty
proof), a first snapshot above the second and a snapshot above the tree size; equal snapshots
give the empty list.  When the second snapshot is below the tree size, the node of the proof
that is not complete in the snapshot is replaced by the complete nodes below it, marked for
rehashing (`borderNodes`). -/
def CalcConsistencyProofNodeAddresses (snapshot1 snapshot2 treeSize : Int) :
    Except Error (List NodeFetch) :=
  if snapshot1 > snapshot2 ∨ snapshot1 > treeSize ∨ snapshot2 > treeSize ∨ snapshot1 < 1
      ∨ snapshot2 < 1 then
    .error (.other "invalid parameter for consistency proof")
  else if snapshot1 = snapshot2 then .ok []
  else
    .ok (consistencyNodes 64 0 snapshot1.toNat snapshot2.toNat true
      (decide (snapshot2 < treeSize)))

/-- Step of the inclusion verifier: "right-shift both `fn` and `sn` equally until either
LSB(`fn`) is set or `fn` is 0". -/
def shiftUntilOdd : Nat → Nat → Nat → Nat × Nat
  | 0, fn, sn => (fn, sn)
  | fuel + 1, fn, sn =>
    if fn % 2 = 1 ∨ fn = 0 then (fn, sn) else shiftUntilOdd fuel (fn / 2) (sn / 2)

/-- The fold of the inclusion verifier over the proof: `fn` is the running index, `sn` the
index of the last node of the level, `r` the running hash.  `none` is a proof that is too
long. -/
def verifyInclusionLoop (hash : HashFn) :
    List Bytes → Nat → Nat → Bytes → Option (Nat × Nat × Bytes)
  | [], fn, sn, r => some (fn, sn, r)
  | p :: rest, fn, sn, r =>
    if sn = 0 then none
    else if fn % 2 = 1 ∨ fn = sn then
      verifyInclusionLoop hash rest ((shiftUntilOdd 64 fn sn).1 / 2) ((shiftUntilOdd 64 fn sn).2 / 2)
        (hash p r)
    else verifyInclusionLoop hash rest (fn / 2) (sn / 2) (hash r p)

/-- Modelled from the spec: `VerifyInclusion(leafIndex, treeSize, proof, root, leafHash)` (the
verifier of the Merkle library, not under `src/`): "fold `leafHash` with proof hashes per the
RFC 6962 audit-path rules (using parity of the running index to decide left/right).  Compare
to `root`.  Fail with `InvalidProof` on mismatch or on wrong proof length". -/
def VerifyInclusion (h : LogHasher) (leafIndex treeSize : Nat) (proof : List Bytes)
    (root leafHash : Bytes) : Except Error Unit :=
  if leafIndex ≥ treeSize then .error (.other "invalid proof: index beyond tree size")
  else
    match verifyInclusionLoop h.HashChildren proof leafIndex (treeSize - 1) leafHash with
    | none => .error (.other "invalid proof: wrong proof length")
    | some (_, sn, r) =>
      if sn ≠ 0 then .error (.other "invalid proof: wrong proof length")
      else if r ≠ root then .error (.other "invalid proof: root mismatch")
      else .ok ()

/-- Step 4 of the consistency verifier: "if LSB(`fn`) is set, then right-shift both `fn` and
`sn` equally until LSB(`fn`) is not set". -/
def shiftWhileOdd : Nat → Nat → Nat → Nat × Nat
  | 0, fn, sn => (fn, sn)
  | fuel + 1, fn, sn => if fn % 2 = 1 then shiftWhileOdd fuel (fn / 2) (sn / 2) else (fn, sn)

/-- The fold of the consistency verifier over the proof after its first hash: `fr` and `sr`
are the running roots of the old and the new tree.  `none` is a proof that is too long. -/
def verifyConsistencyLoop (hash : HashFn) :
    List Bytes → Nat → Nat → Bytes → Bytes → Option (Nat × Bytes × Bytes)
  | [], _, sn, fr, sr => some (sn, fr, sr)
  | c :: rest, fn, sn, fr, sr =>
    if sn = 0 then none
    else if fn % 2 = 1 ∨ fn = sn then
      verifyConsistencyLoop hash rest ((shiftUntilOdd 64 fn sn).1 / 2)
        ((shiftUntilOdd 64 fn sn).2 / 2) (hash c fr) (hash c sr)
    else verifyConsistencyLoop hash rest (fn / 2) (sn / 2) fr (hash sr c)

/-- Modelled from the spec: `VerifyConsistency(oldSize, newSize, oldRoot, newRoot, proof)`
(the verifier of the Merkle library, not under `src/`): "if `oldSize == 0`, accept with empty
proof; if `oldSize == newSize` and `oldRoot == newRoot`, accept with empty proof; else apply
RFC 6962 §2.1.2 reconstruction to derive both roots from the proof and compare".  The sizes
are `int64`. -/
def VerifyConsistency (h : LogHasher) (oldSize newSize : Int) (oldRoot newRoot : Bytes)
    (proof : List Bytes) : Except Error Unit :=
  if oldSize < 0 ∨ newSize < oldSize then .error (.other "invalid proof: sizes")
  else if oldSize = 0 then
    (if proof = [] then .ok () else .error (.other "invalid proof: not empty"))
  else if oldSize = newSize then
    (if oldRoot = newRoot ∧ proof = [] then .ok () else .error (.other "invalid proof: roots"))
  else
    match (if 2 ^ (len64 oldSize.toNat - 1) = oldSize.toNat then oldRoot :: proof else proof) with
    | [] => .error (.other "invalid proof: empty")
    | first :: rest =>
      match verifyConsistencyLoop h.HashChildren rest
          (shiftWhileOdd 64 (oldSize.toNat - 1) (newSize.toNat - 1)).1
          (shiftWhileOdd 64 (oldSize.toNat - 1) (newSize.toNat - 1)).2 first first with
      | none => .error (.other "invalid proof: wrong proof length")
      | some (sn, fr, sr) =>
        if sn = 0 ∧ fr = oldRoot ∧ sr = newRoot then .ok ()
        else .error (.other "invalid proof: root mismatch")

/-- Go `logverifier.New(h)`: the verifier for a hasher. -/
def logverifierNew (h : LogHasher) : LogVerifier := ⟨VerifyConsistency h⟩

/-- The collaborators as the spec describes them. -/
def specEnv : Env := ⟨Checkpoint.Unmarshal, Tile.UnmarshalText, CalcConsistencyProofNodeAddresses⟩

/-- RFC 6962 §2.1, the Merkle Tree Hash of a list of leaves: the empty root for no leaf, the
leaf hash for one, and `HashChildren(MTH(D[0:k]), MTH(D[k:n]))` otherwise.  The fuel bounds
the depth; the number of leaves is always enough. -/
def merkleTreeHashAux (h : LogHasher) : Nat → List Bytes → Bytes
  | 0, _ => h.EmptyRoot
  | _ + 1, [] => h.EmptyRoot
  | _ + 1, [d] => h.HashLeaf d
  | fuel + 1, d :: e :: rest =>
    h.HashChildren
      (merkleTreeHashAux h fuel ((d :: e :: rest).take (splitPoint (rest.length + 2))))
      (merkleTreeHashAux h fuel ((d :: e :: rest).drop (splitPoint (rest.length + 2))))

/-- RFC 6962 §2.1: `MTH(D[n])`. -/
def merkleTreeHash (h : LogHasher) (leaves : List Bytes) : Bytes :=
  merkleTreeHashAux h leaves.length leaves

/-- The leaves `[start, start + n)` of a log. -/
def leafRange (leaves : List Bytes) (start n : Nat) : List Bytes := (leaves.drop start).take n

/-! ## Proof builder -/

/-- Go `FetchRangeNodes`: the hashes of the compact range covering a log of size `s`. -/
def FetchRangeNodes {σ : Type} (s : Nat) (nc : NodeCache σ) (w : World σ) :
    Except Error (List Bytes) × NodeCache σ × World σ :=
  getNodes (fun err => err) s (RangeNodes s) nc w

/-- Go `ProofBuilder`: the checkpoint, the node cache it owns and the interior hash. -/
structure ProofBuilder (σ : Type) where
  cp : Checkpoint
  nodeCache : NodeCache σ
  h : HashFn

/-- Go `NewProofBuilder`: fetches the compact range of `cp.Size`, recomputes the root (which
stores the ephemeral nodes in the cache) and refuses a checkpoint whose hash differs. -/
def NewProofBuilder {σ : Type} (env : Env) (cp : Checkpoint) (h : HashFn) (f : FetcherFunc σ)
    (w : World σ) : Except Error (ProofBuilder σ) × World σ :=
  match FetchRangeNodes cp.Size (NewNodeCache (newTileFetcher env f)) w with
  | (.error err, _, w1) => (.error (.wrap "failed to fetch range nodes" err), w1)
  | (.ok hashes, nc1, w1) =>
    match NewRange h 0 cp.Size hashes with
    | .error err => (.error err, w1)
    | .ok r =>
      match r.GetRootHash NodeCache.SetEphemeralNode nc1 with
      | (.error err, _) => (.error err, w1)
      | (.ok sr, nc2) =>
        if cp.Hash ≠ sr then (.error (.invalidCheckpoint cp.Hash sr), w1)
        else (.ok ⟨cp, nc2, h⟩, w1)

/-- Go `ProofBuilder.ConsistencyProof`: the hashes of the nodes of the consistency proof between
the two sizes, resolved through the cache (which may grow). -/
def ProofBuilder.ConsistencyProof {σ : Type} (env : Env) (pb : ProofBuilder σ)
    (smaller larger : Nat) (w : World σ) :
    Except Error (List Bytes) × ProofBuilder σ × World σ :=
  match env.CalcConsistencyProofNodeAddresses (toInt64 smaller) (toInt64 larger)
      (toInt64 pb.cp.Size) with
  | .error err => (.error (.wrap "failed to calculate consistency proof node list" err), pb, w)
  | .ok nodes =>
    match getNodes (fun err => .wrap "failed to get node" err) pb.cp.Size
        (nodes.map (fun n => n.ID)) pb.nodeCache w with
    | (.error err, nc1, w1) => (.error err, { pb with nodeCache := nc1 }, w1)
    | (.ok hashes, nc1, w1) => (.ok hashes, { pb with nodeCache := nc1 }, w1)

/-- Go `ProofBuilder.InclusionProof`: the hashes of the nodes of the inclusion proof of the leaf
at `index`, resolved through the cache (which may grow). -/
def ProofBuilder.InclusionProof {σ : Type} (pb : ProofBuilder σ) (index : Nat) (w : World σ) :
    Except Error (List Bytes) × ProofBuilder σ × World σ :=
  match CalcInclusionProofNodeAddresses (toInt64 pb.cp.Size) (toInt64 index)
      (toInt64 pb.cp.Size) with
  | .error err => (.error (.wrap "failed to calculate inclusion proof node list" err), pb, w)
  | .ok nodes =>
    match getNodes (fun err => .wrap "failed to get node" err) pb.cp.Size
        (nodes.map (fun n => n.ID)) pb.nodeCache w with
    | (.error err, nc1, w1) => (.error err, { pb with nodeCache := nc1 }, w1)
    | (.ok hashes, nc1, w1) => (.ok hashes, { pb with nodeCache := nc1 }, w1)

/-! ## Log state tracker -/

/-- Go `fetchCheckpointAndParse`: fetches the checkpoint file and parses it; returns the
checkpoint with its raw bytes. -/
def fetchCheckpointAndParse {σ : Type} (env : Env) (f : FetcherFunc σ) (w : World σ) :
    Except Error (Checkpoint × Bytes) × World σ :=
  match callFetcher f CheckpointPath w with
  | (.error err, w1) => (.error err, w1)
  | (.ok cpRaw, w1) =>
    match env.unmarshalCheckpoint cpRaw with
    | .error err => (.error (.wrap "failed to unmarshal checkpoint" err), w1)
    | .ok cp => (.ok (cp, cpRaw), w1)

/-- Go `LogStateTracker`: a client-side view of the log's state. -/
structure LogStateTracker (σ : Type) where
  Hasher : LogHasher
  Verifier : LogVerifier
  Fetcher : FetcherFunc σ
  LatestConsistentRaw : Bytes
  LatestConsistent : Checkpoint

/-- Go `LogStateTracker.Update`: returns the error (`none` is Go `nil`), the tracker after the
call and the world after the call. -/
def LogStateTracker.Update {σ : Type} (env : Env) (lst : LogStateTracker σ) (w : World σ) :
    Option Error × LogStateTracker σ × World σ :=
  match fetchCheckpointAndParse env lst.Fetcher w with
  | (.error err, w1) => (some err, lst, w1)
  | (.ok (c, cRaw), w1) =>
    if lst.LatestConsistent.Size > 0 ∧ c.Size > lst.LatestConsistent.Size then
      match NewProofBuilder env c lst.Hasher.HashChildren lst.Fetcher w1 with
      | (.error err, w2) => (some (.wrap "failed to create proof builder" err), lst, w2)
      | (.ok builder, w2) =>
        match builder.ConsistencyProof env lst.LatestConsistent.Size c.Size w2 with
        | (.error err, _, w3) => (some err, lst, w3)
        | (.ok p, _, w3) =>
          match callVerifier lst.Verifier (toInt64 lst.LatestConsistent.Size) (toInt64 c.Size)
              lst.LatestConsistent.Hash c.Hash p w3 with
          | (.error err, w4) =>
            (some (.inconsistency lst.LatestConsistentRaw cRaw p err), lst, w4)
          | (.ok _, w4) =>
            (none, { lst with LatestConsistentRaw := cRaw, LatestConsistent := c }, w4)
    else (none, { lst with LatestConsistentRaw := cRaw, LatestConsistent := c }, w1)

/-- Go `NewLogStateTracker`: a tracker over the fetcher and the hasher, with the verifier of
that hasher.  A non-empty `checkpointRaw` is stored and parsed into `LatestConsistent` (which
keeps its zero value when the parse fails); otherwise the result is `ret, ret.Update()`, where
the call is made before `ret` is read, as the Go compiler orders a call before the reads of
the variables it may change.  Returns the tracker, the error and the world. -/
def NewLogStateTracker {σ : Type} (env : Env) (f : FetcherFunc σ) (h : LogHasher)
    (checkpointRaw : Bytes) (w : World σ) : LogStateTracker σ × Option Error × World σ :=
  if checkpointRaw.length > 0 then
    match env.unmarshalCheckpoint checkpointRaw with
    | .error err => (⟨h, logverifierNew h, f, checkpointRaw, Checkpoint.zero⟩, some err, w)
    | .ok cp => (⟨h, logverifierNew h, f, checkpointRaw, cp⟩, none, w)
  else
    ((LogStateTracker.Update env ⟨h, logverifierNew h, f, [], Checkpoint.zero⟩ w).2.1,
      (LogStateTracker.Update env ⟨h, logverifierNew h, f, [], Checkpoint.zero⟩ w).1,
      (LogStateTracker.Update env ⟨h, logverifierNew h, f, [], Checkpoint.zero⟩ w).2.2)

/-! ## Firmware transparency client -/

/-- Go `api.LogCheckpoint` of the firmware API (declared outside `src/`): the fields
`AwaitInclusion` reads. -/
structure api.LogCheckpoint where
  TreeSize : Nat
  RootHash : Bytes
  deriving DecidableEq, Repr

/-- Go `api.ConsistencyProof` of the firmware API (declared outside `src/`): the field
`AwaitInclusion` reads. -/
structure api.ConsistencyProof where
  Proof : List Bytes
  deriving DecidableEq, Repr

/-- Go `api.InclusionProof` of the firmware API (declared outside `src/`): the fields
`AwaitInclusion` reads. -/
structure api.InclusionProof where
  LeafIndex : Nat
  Proof : List Bytes
  deriving DecidableEq, Repr

/-- Go `Client` of the firmware client package (declared outside `src/`), as `AwaitInclusion`
uses it: three requests to the personality, whose state `σ` lets it answer differently from
one request to the next. -/
structure Client (σ : Type) where
  GetCheckpoint : σ → Except Error api.LogCheckpoint × σ
  GetConsistencyProof : Nat → Nat → σ → Except Error api.ConsistencyProof × σ
  GetInclusion : Bytes → api.LogCheckpoint → σ → Except Error api.InclusionProof × σ

/-- The `verify` package of the firmware client (declared outside `src/`), as `AwaitInclusion`
uses it: `verify.HashLeaf` and the two checks of `verify.NewLogVerifier()`. -/
structure Verify where
  HashLeaf : Bytes → Bytes
  VerifyConsistencyProof : Int → Int → Bytes → Bytes → List Bytes → Except Error Unit
  VerifyInclusionProof : Int → Int → List Bytes → Bytes → Bytes → Except Error Unit

/-- What `AwaitInclusion` returns: checkpoint, consistency proof, inclusion proof and error
(`none` is Go `nil`). -/
abbrev AwaitResult := api.LogCheckpoint × api.ConsistencyProof × api.InclusionProof × Option Error

/-- The second half of one round of `AwaitInclusion`, from `cp = *newCP` on: the inclusion
proof is fetched under the new checkpoint; a failed fetch starts the next round (`again`) with
the new checkpoint as `cp`, a proof that does not verify is returned with the error, a proof
that verifies is returned with `nil`. -/
def awaitInclusionProof {σ : Type} (c : Client σ) (v : Verify) (s : Bytes)
    (again : api.LogCheckpoint → σ → Option (AwaitResult × σ))
    (cp : api.LogCheckpoint) (consistency : api.ConsistencyProof) (st : σ) :
    Option (AwaitResult × σ) :=
  match c.GetInclusion s cp st with
  | (.error _, st1) => again cp st1
  | (.ok ip, st1) =>
    match v.VerifyInclusionProof (toInt64 ip.LeafIndex) (toInt64 cp.TreeSize) ip.Proof
        cp.RootHash (v.HashLeaf s) with
    | .error err => some ((cp, consistency, ip, some (.wrap "invalid inclusion proof received" err)), st1)
    | .ok _ => some ((cp, consistency, ip, none), st1)

/-- Go `AwaitInclusion(ctx, c, cp, s)`.  Every round of the loop first waits (`ctx` answers
`none` when the timer fires and the context's error when the context is done), then asks for
the latest checkpoint.  The fuel is the number of rounds; `none` means that the loop is still
running when the fuel is spent. -/
def AwaitInclusion {σ : Type} (ctx : σ → Option Error × σ) (c : Client σ) (v : Verify) :
    Nat → api.LogCheckpoint → Bytes → σ → Option (AwaitResult × σ)
  | 0, _, _, _ => none
  | fuel + 1, cp, s, st =>
    match ctx st with
    | (some err, st1) => some ((⟨0, []⟩, ⟨[]⟩, ⟨0, []⟩, some err), st1)
    | (none, st1) =>
      match c.GetCheckpoint st1 with
      | (.error err, st2) => some ((⟨0, []⟩, ⟨[]⟩, ⟨0, []⟩, some err), st2)
      | (.ok newCP, st2) =>
        if newCP.TreeSize ≤ cp.TreeSize then AwaitInclusion ctx c v fuel cp s st2
        else if cp.TreeSize > 0 then
          match c.GetConsistencyProof cp.TreeSize newCP.TreeSize st2 with
          | (.error _, st3) => AwaitInclusion ctx c v fuel cp s st3
          | (.ok consistency, st3) =>
            match v.VerifyConsistencyProof (toInt64 cp.TreeSize) (toInt64 newCP.TreeSize)
                cp.RootHash newCP.RootHash consistency.Proof with
            | .error err =>
              some ((cp, consistency, ⟨0, []⟩,
                some (.wrap "invalid inclusion proof received" err)), st3)
            | .ok _ =>
              awaitInclusionProof c v s (fun cp1 st4 => AwaitInclusion ctx c v fuel cp1 s st4)
                newCP consistency st3
        else
          awaitInclusionProof c v s (fun cp1 st4 => AwaitInclusion ctx c v fuel cp1 s st4)
            newCP ⟨[]⟩ st2

/-! ## Specification vocabulary -/

/-- The root of a compact range in the words of the spec: "hashing them right-to-left under
RFC 6962 interior rule yields the tree root". -/
def rangeRoot (h : HashFn) : List Bytes → Bytes
  | [] => []
  | [x] => x
  | x :: y :: rest => h x (rangeRoot h (y :: rest))

/-- The hash of the node `id` of a log: the Merkle tree hash of the leaves below it, that is
of `[index · 2^level, (index + 1) · 2^level)` cut at the end of the log. -/
def nodeHash (h : LogHasher) (leaves : List Bytes) (id : NodeID) : Bytes :=
  merkleTreeHash h (leafRange leaves (id.Index * 2 ^ id.Level) (2 ^ id.Level))

/-- The subtrees that RFC 6962 cuts a log of `N` leaves into: the leaves `[start, start + n)`
with `start` a multiple of the subtree's width, and the subtree either perfect or reaching
the end of the log. -/
def LegalSubtree (N start n : Nat) : Prop :=
  1 ≤ n ∧ start + n ≤ N ∧ 2 ^ subtreeLevel n ∣ start ∧ (n = 2 ^ subtreeLevel n ∨ start + n = N)

/-- The path at which the tile fetcher asks for the tile `(level, index)` of a log of size
`logSize`. -/
def tileFilePath (level index logSize : Nat) : String :=
  filepathJoin [(TilePath "" level index (PartialTileSize level index logSize)).1,
    (TilePath "" level index (PartialTileSize level index logSize)).2]

/-- A tile is correct for a log when, for every complete node of the log that lies in the
tile (a node `(level, index)` with `(index + 1) · 2^level ≤ N`), the tile holds under the
node's key the Merkle tree hash of the leaves below the node. -/
def TileCorrect (h : LogHasher) (leaves : List Bytes) (tileLevel tileIndex : Nat) (t : Tile) :
    Prop :=
  ∀ level index : Nat, (index + 1) * 2 ^ level ≤ leaves.length →
    (NodeCoordsToTileAddress level index).1 = tileLevel →
    (NodeCoordsToTileAddress level index).2.1 = tileIndex →
    t.node (TileNodeKey (NodeCoordsToTileAddress level index).2.2.1
      (NodeCoordsToTileAddress level index).2.2.2) = some (nodeHash h leaves ⟨level, index⟩)

/-- A log is correctly tiled when every tile that holds a complete node is served by the
fetcher at the tile's path (whatever the fetcher's store), parses, and is correct. -/
def CorrectlyTiled {σ : Type} (env : Env) (h : LogHasher) (f : FetcherFunc σ)
    (leaves : List Bytes) : Prop :=
  ∀ (level index : Nat) (s : σ), (index + 1) * 2 ^ level ≤ leaves.length →
    ∃ raw t,
      (f (tileFilePath (NodeCoordsToTileAddress level index).1
        (NodeCoordsToTileAddress level index).2.1 leaves.length) s).1 = .ok raw ∧
      env.unmarshalTile raw = .ok t ∧
      TileCorrect h leaves (NodeCoordsToTileAddress level index).1
        (NodeCoordsToTileAddress level index).2.1 t

/-- The invariant of a node cache over a correctly tiled log: it fetches with the tile
fetcher, every cached tile is correct, and every ephemeral node it holds has the hash of
that node. -/
structure CacheOK {σ : Type} (env : Env) (h : LogHasher) (f : FetcherFunc σ)
    (leaves : List Bytes) (nc : NodeCache σ) : Prop where
  getTile : nc.getTile = newTileFetcher env f
  tiles : ∀ tl ti t, nc.tiles (tl, ti) = some t → TileCorrect h leaves tl ti t
  ephemeral : ∀ id e, nc.ephemeral id = some e → e = nodeHash h leaves id

/-- A node the cache can resolve: a complete node, or an ephemeral node it holds with a
non-empty hash. -/
def Available {σ : Type} (nc : NodeCache σ) (N : Nat) (id : NodeID) : Prop :=
  (id.Index + 1) * 2 ^ id.Level ≤ N ∨ ∃ e, nc.ephemeral id = some e ∧ e ≠ []

/-- The ephemeral nodes of a log of `N` leaves are in the cache: for every set bit `b` of `N`
above another set bit, the last node of level `b + 1`, with its hash. -/
def FrontierCached {σ : Type} (h : LogHasher) (leaves : List Bytes) (nc : NodeCache σ) : Prop :=
  ∀ b, b < 64 → leaves.length.testBit b = true → leaves.length % 2 ^ b ≠ 0 →
    nc.ephemeral ⟨b + 1, leaves.length / 2 ^ (b + 1)⟩
      = some (nodeHash h leaves ⟨b + 1, leaves.length / 2 ^ (b + 1)⟩)

/-- Lowercase hex of `v` in exactly `width` digits (the low `width` digits of `v`). -/
def hexFixed (width v : Nat) : String := String.mk (hexDigits width v)

/-- The root joined with a relative path: the relative path itself under the empty root. -/
def underRoot (root rel : String) : String := if root = "" then rel else root ++ "/" ++ rel

/-- A path lies under the sequence directory of `root` when it is that directory
(`root/seq`, or `seq` under the empty root), a slash, and a rest. -/
def UnderSeqDir (root p : String) : Prop :=
  ∃ rest : String, p = underRoot root "seq" ++ "/" ++ rest

/-- A sequence of `Update` calls on one tracker, each made in a world of its own: whatever
happened to the log, the store and the trace between two calls. -/
def updateCalls {σ : Type} (env : Env) : List (World σ) → LogStateTracker σ → LogStateTracker σ
  | [], lst => lst
  | w :: rest, lst => updateCalls env rest (lst.Update env w).2.1

/-- A sequence of `GetNode` calls on one cache, each for its own node and with its own log
size: the cache and the world go from one call to the next. -/
def getNodeCalls {σ : Type} :
    List (NodeID × Nat) → NodeCache σ → World σ → NodeCache σ × World σ
  | [], n, w => (n, w)
  | (id, logSize) :: rest, n, w =>
    getNodeCalls rest (n.GetNode id logSize w).2.1 (n.GetNode id logSize w).2.2

/-- The invocations of a tile-fetch function: the tile key asked for, and whether a tile was
returned. -/
abbrev TileLog := List ((Nat × Nat) × Bool)

/-- The tile-fetch function `g` made to keep, next to its store, the log of its invocations. -/
def recordTiles {σ : Type} (g : GetTileFunc σ) : GetTileFunc (σ × TileLog) :=
  fun level index logSize w =>
    match g level index logSize ⟨w.store.1, w.trace⟩ with
    | (.ok tile, w1) =>
      (.ok tile, ⟨(w1.store, w.store.2 ++ [((level, index), true)]), w1.trace⟩)
    | (.error err, w1) =>
      (.error err, ⟨(w1.store, w.store.2 ++ [((level, index), false)]), w1.trace⟩)

/-- The keys of the tiles that were returned, in the order of the invocations. -/
def tilesReturned (log : TileLog) : List (Nat × Nat) :=
  (log.filter (fun e => e.2)).map (fun e => e.1)

/-- The key of the tile that holds a node. -/
def tileKeyOf (id : NodeID) : Nat × Nat :=
  ((NodeCoordsToTileAddress id.Level id.Index).1, (NodeCoordsToTileAddress id.Level id.Index).2.1)

/-- The answer of `GetNode` from a tile: the node under its in-tile key, or the error of an
unknown node. -/
def nodeFromTile (t : Tile) (id : NodeID) : Except Error Bytes :=
  match t.node (TileNodeKey (NodeCoordsToTileAddress id.Level id.Index).2.2.1
      (NodeCoordsToTileAddress id.Level id.Index).2.2.2) with
  | none => .error (.nodeUnknown id.Level id.Index)
  | some node => .ok node

/-- The value of a hexadecimal digit, of either case. -/
def hexDigitValue (c : Nat) : Option Nat :=
  if 48 ≤ c ∧ c ≤ 57 then some (c - 48)
  else if 97 ≤ c ∧ c ≤ 102 then some (c - 87)
  else if 65 ≤ c ∧ c ≤ 70 then some (c - 55)
  else none

/-- The number written in base 16 by the octets, read after the value `acc`, without any
bound; `none` when an octet is not a hexadecimal digit. -/
def hexNumeralFrom : Bytes → Nat → Option Nat
  | [], acc => some acc
  | c :: rest, acc =>
    match hexDigitValue c with
    | none => none
    | some d => hexNumeralFrom rest (acc * 16 + d)

/-- The whole contents read as a base-16 numeral: `none` when they are empty or hold an octet
that is not a hexadecimal digit. -/
def hexNumeral (s : Bytes) : Option Nat :=
  if s = [] then none else hexNumeralFrom s 0

/-! ## Sample logs -/

/-- Pads or cuts to 32 octets. -/
def pad32 (b : Bytes) : Bytes := (b ++ List.replicate 32 0).take 32

/-- A stand-in for the SHA-256 hasher with outputs of 32 octets (it is not collision
resistant): the leaf hash starts with 0 and the interior hash with 1. -/
def sampleHasher : LogHasher :=
  ⟨pad32 [], fun d => pad32 (0 :: d), fun l r => pad32 (1 :: (l.take 15 ++ r.take 16))⟩

/-- A store-less fetcher that serves the given files and reports every other path missing. -/
def filesFetcher (files : List (String × Bytes)) : FetcherFunc Unit :=
  fun path s =>
    (match files.lookup path with
      | some content => .ok content
      | none => .error Error.notExist, s)

/-- The world before any call. -/
def freshWorld : World Unit := ⟨(), []⟩

/-- A tracker over the sample hasher that holds the given checkpoint. -/
def sampleTracker (f : FetcherFunc Unit) (raw : Bytes) (cp : Checkpoint) : LogStateTracker Unit :=
  ⟨sampleHasher, logverifierNew sampleHasher, f, raw, cp⟩

/-- A checkpoint of size 5. -/
def rawSize5 : Bytes := bytesOf "log\n5\nAQEBAGEAAAAAAAAAAAAAAABlAAAAAAAAAAAAAAAAAAA=\n\n"

/-- The same size and root hash as `rawSize5` under another origin. -/
def rawSize5Reissued : Bytes := bytesOf "gol\n5\nAQEBAGEAAAAAAAAAAAAAAABlAAAAAAAAAAAAAAAAAAA=\n\n"

/-- A checkpoint of size 5 with another root hash than `rawSize5`. -/
def rawSize5Fork : Bytes := bytesOf "log\n5\nAQEBAGEAAAAAAAAAAAAAAABmAAAAAAAAAAAAAAAAAAA=\n\n"

/-- A checkpoint of size 3. -/
def rawSize3 : Bytes := bytesOf "log\n3\nAQEAYQAAAAAAAAAAAAAAAABjAAAAAAAAAAAAAAAAAAA=\n\n"

/-- The parsed form of `rawSize5`. -/
def cpSize5 : Checkpoint :=
  ⟨"log", 5, [1, 1, 1, 0, 97, 0, 0, 0, 0, 0, 0, 0, 0, 0, 0, 0, 0, 101, 0, 0, 0, 0, 0, 0, 0, 0, 0,
    0, 0, 0, 0, 0], []⟩

/-- The checkpoint of the one-leaf log `["a"]`. -/
def rawOneLeaf : Bytes := bytesOf "log\n1\nAGEAAAAAAAAAAAAAAAAAAAAAAAAAAAAAAAAAAAAAAAA=\n\n"

/-- The parsed form of `rawOneLeaf`. -/
def cpOneLeaf : Checkpoint := ⟨"log", 1, sampleHasher.HashLeaf (bytesOf "a"), []⟩

/-- The checkpoint of a one-leaf log `["x"]`. -/
def rawOtherLeaf : Bytes := bytesOf "log\n1\nAHgAAAAAAAAAAAAAAAAAAAAAAAAAAAAAAAAAAAAAAAA=\n\n"

/-- The parsed form of `rawOtherLeaf`. -/
def cpOtherLeaf : Checkpoint := ⟨"log", 1, sampleHasher.HashLeaf (bytesOf "x"), []⟩

/-- The checkpoint of the two-leaf log `["a", "b"]`. -/
def rawTwoLeaves : Bytes := bytesOf "log\n2\nAQBhAAAAAAAAAAAAAAAAAABiAAAAAAAAAAAAAAAAAAA=\n\n"

/-- The only tile of the two-leaf log `["a", "b"]`: its two leaf hashes and their parent. -/
def tileTwoLeaves : Bytes :=
  bytesOf ("0 0061000000000000000000000000000000000000000000000000000000000000\n" ++
    "1 0062000000000000000000000000000000000000000000000000000000000000\n" ++
    "100 0100610000000000000000000000000000620000000000000000000000000000\n")

/-- The only tile of the three-leaf log `["a", "b", "c"]`, whose checkpoint is `rawSize3`:
its three leaf hashes and the parent of the first two. -/
def tileThreeLeaves : Bytes :=
  bytesOf ("0 0061000000000000000000000000000000000000000000000000000000000000\n" ++
    "1 0062000000000000000000000000000000000000000000000000000000000000\n" ++
    "2 0063000000000000000000000000000000000000000000000000000000000000\n" ++
    "100 0100610000000000000000000000000000620000000000000000000000000000\n")

/-- The storage of the three-leaf log `["a", "b", "c"]`. -/
def threeLeafLog : FetcherFunc Unit :=
  filesFetcher [("checkpoint", rawSize3), ("tile/00/0000/00/00/00.03", tileThreeLeaves)]

/-- The storage of the two-leaf log `["a", "b"]`. -/
def twoLeafLog : FetcherFunc Unit :=
  filesFetcher [("checkpoint", rawTwoLeaves), ("tile/00/0000/00/00/00.02", tileTwoLeaves)]

/-- A tile fetcher that records the request in the trace and finds no tile. -/
def missingTiles : GetTileFunc Unit :=
  fun level index _ w => (.error Error.notExist,
    ⟨w.store, w.trace ++ [Event.fetch (tileFilePath level index 0)]⟩)

/-- The checkpoint of the firmware log that holds the given leaves, under the sample hasher. -/
def logCheckpointOf (leaves : List Bytes) : api.LogCheckpoint :=
  ⟨leaves.length, merkleTreeHash sampleHasher leaves⟩

/-- The `verify` package over the sample hasher. -/
def sampleVerify : Verify :=
  ⟨sampleHasher.HashLeaf, VerifyConsistency sampleHasher,
    fun leafIndex treeSize proof root leafHash =>
      if leafIndex < 0 ∨ treeSize < 0 then .error (.other "invalid proof: negative")
      else VerifyInclusion sampleHasher leafIndex.toNat treeSize.toNat proof root leafHash⟩

/-- A context that is never done: the timer fires in every round. -/
def neverDone : Nat → Option Error × Nat := fun st => (none, st)

/-- An honest personality over the log `a, b, c` that grows while the client waits: the
first checkpoint it serves has size 2, every later one size 3 (the state counts the
checkpoints served).  It serves the RFC 6962 consistency proofs between its sizes, and the
inclusion proof of the statement `c` under the checkpoint of size 3 only: under the checkpoint
of size 2 the statement is not in the log yet. -/
def growingLog : Client Nat where
  GetCheckpoint := fun st =>
    (.ok (if st = 0 then logCheckpointOf [bytesOf "a", bytesOf "b"]
      else logCheckpointOf [bytesOf "a", bytesOf "b", bytesOf "c"]), st + 1)
  GetConsistencyProof := fun From To st =>
    (if From = 1 ∧ To = 2 then .ok ⟨[sampleHasher.HashLeaf (bytesOf "b")]⟩
      else if From = 2 ∧ To = 3 then .ok ⟨[sampleHasher.HashLeaf (bytesOf "c")]⟩
      else if From = 1 ∧ To = 3 then
        .ok ⟨[sampleHasher.HashLeaf (bytesOf "b"), sampleHasher.HashLeaf (bytesOf "c")]⟩
      else .error (.other "no such proof"), st)
  GetInclusion := fun s cp st =>
    (if s = bytesOf "c" ∧ cp.TreeSize = 3 then
        .ok ⟨2, [merkleTreeHash sampleHasher [bytesOf "a", bytesOf "b"]]⟩
      else .error (.other "leaf not found"), st)

/-- SHA-256 of the empty string, the RFC 6962 root of the empty tree (`HashEmpty`):
`e3b0c442 98fc1c14 9afbf4c8 996fb924 27ae41e4 649b934c a495991b 7852b855`. -/
def sha256Empty : Bytes :=
  [0xe3, 0xb0, 0xc4, 0x42, 0x98, 0xfc, 0x1c, 0x14, 0x9a, 0xfb, 0xf4, 0xc8, 0x99, 0x6f, 0xb9, 0x24,
   0x27, 0xae, 0x41, 0xe4, 0x64, 0x9b, 0x93, 0x4c, 0xa4, 0x95, 0x99, 0x1b, 0x78, 0x52, 0xb8, 0x55]

/-! # Theorems -/

/-! ## The log state tracker: `Update` -/

/-- A successful fetch and parse of the checkpoint costs exactly one call of the fetcher. -/
theorem fetchCheckpointAndParse_ok {σ : Type} (env : Env) (f : FetcherFunc σ) (w : World σ)
    (raw : Bytes) (c : Checkpoint)
    (hfetch : (f CheckpointPath w.store).1 = .ok raw)
    (hparse : env.unmarshalCheckpoint raw = .ok c) :
    fetchCheckpointAndParse env f w = (.ok (c, raw), (callFetcher f CheckpointPath w).2) := by
  simp [fetchCheckpointAndParse, callFetcher, hfetch, hparse]

/-- When the tracker is empty, or the fetched checkpoint is not larger than the tracked one,
`Update` takes the final assignment directly: it stores the fetched checkpoint and its bytes
and returns nil after the single fetch. -/
theorem Update_not_larger {σ : Type} (env : Env) (lst : LogStateTracker σ) (w : World σ)
    (raw : Bytes) (c : Checkpoint)
    (hfetch : (lst.Fetcher CheckpointPath w.store).1 = .ok raw)
    (hparse : env.unmarshalCheckpoint raw = .ok c)
    (hle : lst.LatestConsistent.Size = 0 ∨ c.Size ≤ lst.LatestConsistent.Size) :
    lst.Update env w =
      (none, { lst with LatestConsistentRaw := raw, LatestConsistent := c },
        (callFetcher lst.Fetcher CheckpointPath w).2) := by
  unfold LogStateTracker.Update
  rw [fetchCheckpointAndParse_ok env lst.Fetcher w raw c hfetch hparse]
  have : ¬ (lst.LatestConsistent.Size > 0 ∧ c.Size > lst.LatestConsistent.Size) := by omega
  simp only [this, if_false]

/-- Claim C1, at its failing input: a tracker that holds a checkpoint of size 5 and fetches a
well-formed checkpoint of size 3 returns nil and afterwards holds size 3: the tracked size
decreased. -/
theorem Update_adopts_smaller_checkpoint :
    (sampleTracker (filesFetcher [("checkpoint", rawSize3)]) rawSize5 cpSize5).LatestConsistent.Size = 5 ∧
    specEnv.unmarshalCheckpoint rawSize5 = .ok cpSize5 ∧
    ((sampleTracker (filesFetcher [("checkpoint", rawSize3)]) rawSize5 cpSize5).Update specEnv
        freshWorld).1 = none ∧
    ((sampleTracker (filesFetcher [("checkpoint", rawSize3)]) rawSize5 cpSize5).Update specEnv
        freshWorld).2.1.LatestConsistent.Size = 3 := by
  decide

/-- Claim C2: when a tracker of non-zero size fetches a larger checkpoint `c` and `Update`
returns nil, the proof builder was built for `c`, it produced the consistency proof `p`
between the two sizes, and the verifier accepted
`VerifyConsistencyProof(int64(old size), int64(c.Size), old root, c.Hash, p)`; that
consultation is the last event of the call, and only then is `c` stored. -/
theorem Update_larger_checkpoint_verified {σ : Type} (env : Env) (lst : LogStateTracker σ)
    (w : World σ) (raw : Bytes) (c : Checkpoint)
    (hsize : 0 < lst.LatestConsistent.Size)
    (hfetch : (lst.Fetcher CheckpointPath w.store).1 = .ok raw)
    (hparse : env.unmarshalCheckpoint raw = .ok c)
    (hlarger : lst.LatestConsistent.Size < c.Size)
    (hnil : (lst.Update env w).1 = none) :
    ∃ pb w2 p pb2 w3,
      NewProofBuilder env c lst.Hasher.HashChildren lst.Fetcher
          (callFetcher lst.Fetcher CheckpointPath w).2 = (.ok pb, w2) ∧
      pb.ConsistencyProof env lst.LatestConsistent.Size c.Size w2 = (.ok p, pb2, w3) ∧
      lst.Verifier.VerifyConsistencyProof (toInt64 lst.LatestConsistent.Size) (toInt64 c.Size)
          lst.LatestConsistent.Hash c.Hash p = .ok () ∧
      (lst.Update env w).2.2.trace = w3.trace ++
        [Event.verifyConsistency (toInt64 lst.LatestConsistent.Size) (toInt64 c.Size)
          lst.LatestConsistent.Hash c.Hash p] ∧
      (lst.Update env w).2.1.LatestConsistent = c ∧
      (lst.Update env w).2.1.LatestConsistentRaw = raw := by
  unfold LogStateTracker.Update at hnil ⊢
  rw [fetchCheckpointAndParse_ok env lst.Fetcher w raw c hfetch hparse] at hnil ⊢
  have hc : lst.LatestConsistent.Size > 0 ∧ c.Size > lst.LatestConsistent.Size := ⟨hsize, hlarger⟩
  simp only [hc, and_self, if_true] at hnil ⊢
  split at hnil
  · simp at hnil
  · rename_i pb w2 hpb
    split at hnil
    · simp at hnil
    · rename_i p pb2 w3 hcp
      split at hnil
      · simp at hnil
      · rename_i u w4 hver
        refine ⟨pb, w2, p, pb2, w3, hpb, hcp, ?_, ?_, ?_, ?_⟩
        · have := congrArg Prod.fst hver
          simpa [callVerifier] using this
        · have := congrArg Prod.snd hver
          simp only [callVerifier] at this
          simp [hcp, hver, ← this]
        · simp [hcp, hver]
        · simp [hcp, hver]

/-- Claim C2, witness: the tracker of the one-leaf log `["a"]` updates to the two-leaf log
`["a", "b"]`. -/
theorem Update_larger_checkpoint_verified_witness :
    ∃ pb w2 p pb2 w3,
      NewProofBuilder specEnv ⟨"log", 2, merkleTreeHash sampleHasher [bytesOf "a", bytesOf "b"], []⟩
          sampleHasher.HashChildren twoLeafLog
          (callFetcher twoLeafLog CheckpointPath freshWorld).2 = (.ok pb, w2) ∧
      pb.ConsistencyProof specEnv 1 2 w2 = (.ok p, pb2, w3) ∧
      VerifyConsistency sampleHasher (toInt64 1) (toInt64 2) cpOneLeaf.Hash
          (merkleTreeHash sampleHasher [bytesOf "a", bytesOf "b"]) p = .ok () ∧
      ((sampleTracker twoLeafLog rawOneLeaf cpOneLeaf).Update specEnv freshWorld).2.2.trace =
        w3.trace ++ [Event.verifyConsistency (toInt64 1) (toInt64 2) cpOneLeaf.Hash
          (merkleTreeHash sampleHasher [bytesOf "a", bytesOf "b"]) p] ∧
      ((sampleTracker twoLeafLog rawOneLeaf cpOneLeaf).Update specEnv freshWorld).2.1.LatestConsistent
        = ⟨"log", 2, merkleTreeHash sampleHasher [bytesOf "a", bytesOf "b"], []⟩ ∧
      ((sampleTracker twoLeafLog rawOneLeaf cpOneLeaf).Update specEnv freshWorld).2.1.LatestConsistentRaw
        = rawTwoLeaves :=
  Update_larger_checkpoint_verified specEnv (sampleTracker twoLeafLog rawOneLeaf cpOneLeaf)
    freshWorld rawTwoLeaves ⟨"log", 2, merkleTreeHash sampleHasher [bytesOf "a", bytesOf "b"], []⟩
    (by decide) (by decide) (by decide) (by decide) (by decide)

/-- Claim C3, counterexample: a tracker at size 5 that fetches a well-formed checkpoint of
size 3 gets no error at all, and its raw checkpoint is replaced by the fetched bytes. -/
theorem Update_regression_counterexample :
    0 < (sampleTracker (filesFetcher [("checkpoint", rawSize3)]) rawSize5 cpSize5).LatestConsistent.Size ∧
    (∃ cand, specEnv.unmarshalCheckpoint rawSize3 = .ok cand ∧ cand.Size < 5) ∧
    ((sampleTracker (filesFetcher [("checkpoint", rawSize3)]) rawSize5 cpSize5).Update specEnv
        freshWorld).1 = none ∧
    ((sampleTracker (filesFetcher [("checkpoint", rawSize3)]) rawSize5 cpSize5).Update specEnv
        freshWorld).2.1.LatestConsistentRaw ≠ rawSize5 := by
  refine ⟨by decide, ⟨_, rfl, by decide⟩, by decide, by decide⟩

/-- Claim C3, amended: for a tracker of non-zero size, when the fetched checkpoint parses and
is smaller than the tracked one, `Update` returns nil (the code has no regression error); the
checkpoint file is the only fetch and the verifier is not consulted. -/
theorem Update_regression_returns_nil {σ : Type} (env : Env) (lst : LogStateTracker σ)
    (w : World σ) (raw : Bytes) (cand : Checkpoint)
    (_hsize : 0 < lst.LatestConsistent.Size)
    (hfetch : (lst.Fetcher CheckpointPath w.store).1 = .ok raw)
    (hparse : env.unmarshalCheckpoint raw = .ok cand)
    (hsmaller : cand.Size < lst.LatestConsistent.Size) :
    (lst.Update env w).1 = none ∧
      (lst.Update env w).2.2.trace = w.trace ++ [Event.fetch CheckpointPath] := by
  rw [Update_not_larger env lst w raw cand hfetch hparse (Or.inr (Nat.le_of_lt hsmaller))]
  simp [callFetcher]

/-- Claim C3, amended, witness: the tracker at size 5 that fetches size 3. -/
theorem Update_regression_returns_nil_witness :
    ((sampleTracker (filesFetcher [("checkpoint", rawSize3)]) rawSize5 cpSize5).Update specEnv
        freshWorld).1 = none ∧
    ((sampleTracker (filesFetcher [("checkpoint", rawSize3)]) rawSize5 cpSize5).Update specEnv
        freshWorld).2.2.trace = freshWorld.trace ++ [Event.fetch CheckpointPath] :=
  Update_regression_returns_nil specEnv
    (sampleTracker (filesFetcher [("checkpoint", rawSize3)]) rawSize5 cpSize5) freshWorld rawSize3
    ⟨"log", 3, [1, 1, 0, 97, 0, 0, 0, 0, 0, 0, 0, 0, 0, 0, 0, 0, 0, 99, 0, 0, 0, 0, 0, 0, 0, 0,
      0, 0, 0, 0, 0, 0], []⟩ (by decide) (by decide) (by decide) (by decide)

/-- Claim C4, counterexample: a tracker at size 5 that fetches a well-formed checkpoint of
the same size with another root hash gets no error, and afterwards holds the fetched root. -/
theorem Update_fork_counterexample :
    0 < (sampleTracker (filesFetcher [("checkpoint", rawSize5Fork)]) rawSize5
      cpSize5).LatestConsistent.Size ∧
    (∃ cand, specEnv.unmarshalCheckpoint rawSize5Fork = .ok cand ∧ cand.Size = cpSize5.Size ∧
      cand.Hash ≠ cpSize5.Hash) ∧
    ((sampleTracker (filesFetcher [("checkpoint", rawSize5Fork)]) rawSize5 cpSize5).Update specEnv
        freshWorld).1 = none ∧
    ((sampleTracker (filesFetcher [("checkpoint", rawSize5Fork)]) rawSize5 cpSize5).Update specEnv
        freshWorld).2.1.LatestConsistent.Hash ≠ cpSize5.Hash := by
  refine ⟨by decide, ⟨_, rfl, by decide, by decide⟩, by decide, by decide⟩

/-- Claim C4, amended: for a tracker of non-zero size, when the fetched checkpoint parses with
the tracked size and another root, `Update` returns nil (the code has no fork error and
compares no roots); the checkpoint file is the only fetch and the verifier is not
consulted. -/
theorem Update_fork_returns_nil {σ : Type} (env : Env) (lst : LogStateTracker σ)
    (w : World σ) (raw : Bytes) (cand : Checkpoint)
    (_hsize : 0 < lst.LatestConsistent.Size)
    (hfetch : (lst.Fetcher CheckpointPath w.store).1 = .ok raw)
    (hparse : env.unmarshalCheckpoint raw = .ok cand)
    (hsame : cand.Size = lst.LatestConsistent.Size)
    (_hroot : cand.Hash ≠ lst.LatestConsistent.Hash) :
    (lst.Update env w).1 = none ∧
      (lst.Update env w).2.2.trace = w.trace ++ [Event.fetch CheckpointPath] := by
  rw [Update_not_larger env lst w raw cand hfetch hparse (Or.inr (Nat.le_of_eq hsame))]
  simp [callFetcher]

/-- Claim C4, amended, witness: the tracker at size 5 that fetches a fork of size 5. -/
theorem Update_fork_returns_nil_witness :
    ((sampleTracker (filesFetcher [("checkpoint", rawSize5Fork)]) rawSize5 cpSize5).Update specEnv
        freshWorld).1 = none ∧
    ((sampleTracker (filesFetcher [("checkpoint", rawSize5Fork)]) rawSize5 cpSize5).Update specEnv
        freshWorld).2.2.trace = freshWorld.trace ++ [Event.fetch CheckpointPath] :=
  Update_fork_returns_nil specEnv
    (sampleTracker (filesFetcher [("checkpoint", rawSize5Fork)]) rawSize5 cpSize5) freshWorld
    rawSize5Fork
    ⟨"log", 5, [1, 1, 1, 0, 97, 0, 0, 0, 0, 0, 0, 0, 0, 0, 0, 0, 0, 102, 0, 0, 0, 0, 0, 0, 0, 0,
      0, 0, 0, 0, 0, 0], []⟩ (by decide) (by decide) (by decide) (by decide) (by decide)

/-- Claim C5: when the tracker has a non-zero size, the fetched checkpoint is larger, the
proof builder and the consistency proof `p` are built without error and the verifier rejects
`p` with error `e`, `Update` returns the `ErrInconsistency` whose `SmallerRaw` is the tracker's
`LatestConsistentRaw`, whose `LargerRaw` is the fetched bytes, whose `Proof` is `p` and whose
`Wrapped` is `e`, which is also what `Unwrap` returns. -/
theorem Update_inconsistency_evidence {σ : Type} (env : Env) (lst : LogStateTracker σ)
    (w : World σ) (cRaw : Bytes) (c : Checkpoint) (pb pb2 : ProofBuilder σ) (w2 w3 : World σ)
    (p : List Bytes) (e : Error)
    (hsize : 0 < lst.LatestConsistent.Size)
    (hfetch : (lst.Fetcher CheckpointPath w.store).1 = .ok cRaw)
    (hparse : env.unmarshalCheckpoint cRaw = .ok c)
    (hlarger : lst.LatestConsistent.Size < c.Size)
    (hbuilder : NewProofBuilder env c lst.Hasher.HashChildren lst.Fetcher
        (callFetcher lst.Fetcher CheckpointPath w).2 = (.ok pb, w2))
    (hproof : pb.ConsistencyProof env lst.LatestConsistent.Size c.Size w2 = (.ok p, pb2, w3))
    (hreject : lst.Verifier.VerifyConsistencyProof (toInt64 lst.LatestConsistent.Size)
        (toInt64 c.Size) lst.LatestConsistent.Hash c.Hash p = .error e) :
    (lst.Update env w).1 = some (Error.inconsistency lst.LatestConsistentRaw cRaw p e) ∧
      ((lst.Update env w).1.bind Error.Unwrap) = some e := by
  unfold LogStateTracker.Update
  rw [fetchCheckpointAndParse_ok env lst.Fetcher w cRaw c hfetch hparse]
  have hc : lst.LatestConsistent.Size > 0 ∧ c.Size > lst.LatestConsistent.Size := ⟨hsize, hlarger⟩
  simp [hc, hbuilder, hproof, callVerifier, hreject, Error.Unwrap]

/-- Claim C5, witness: a tracker that holds the one-leaf log `["x"]` fetches the two-leaf
log `["a", "b"]`; the proof is the leaf hash of `"b"` and the verifier finds another root. -/
theorem Update_inconsistency_evidence_witness :
    ((sampleTracker twoLeafLog rawOtherLeaf cpOtherLeaf).Update specEnv freshWorld).1 =
      some (Error.inconsistency rawOtherLeaf rawTwoLeaves [sampleHasher.HashLeaf (bytesOf "b")]
        (Error.other "invalid proof: root mismatch")) ∧
    (((sampleTracker twoLeafLog rawOtherLeaf cpOtherLeaf).Update specEnv freshWorld).1.bind
      Error.Unwrap) = some (Error.other "invalid proof: root mismatch") := by
  obtain ⟨pb, w2, hpb⟩ : ∃ pb w2,
      NewProofBuilder specEnv ⟨"log", 2, merkleTreeHash sampleHasher [bytesOf "a", bytesOf "b"], []⟩
        sampleHasher.HashChildren twoLeafLog
        (callFetcher twoLeafLog CheckpointPath freshWorld).2 = (.ok pb, w2) := ⟨_, _, rfl⟩
  obtain ⟨pb2, w3, hproof⟩ : ∃ pb2 w3,
      pb.ConsistencyProof specEnv 1 2 w2 =
        (.ok [sampleHasher.HashLeaf (bytesOf "b")], pb2, w3) := by
    cases hpb
    exact ⟨_, _, rfl⟩
  exact Update_inconsistency_evidence specEnv (sampleTracker twoLeafLog rawOtherLeaf cpOtherLeaf)
    freshWorld rawTwoLeaves ⟨"log", 2, merkleTreeHash sampleHasher [bytesOf "a", bytesOf "b"], []⟩
    pb pb2 w2 w3 [sampleHasher.HashLeaf (bytesOf "b")] (Error.other "invalid proof: root mismatch")
    (by decide) (by decide) (by decide) (by decide) hpb hproof (by decide)

/-- Claim C6: `Update` is atomic on failure: whenever it returns an error, whatever the
cause, `LatestConsistent` and `LatestConsistentRaw` are what they were before the call. -/
theorem Update_failure_atomic {σ : Type} (env : Env) (lst : LogStateTracker σ) (w : World σ)
    (e : Error) (h : (lst.Update env w).1 = some e) :
    (lst.Update env w).2.1.LatestConsistent = lst.LatestConsistent ∧
      (lst.Update env w).2.1.LatestConsistentRaw = lst.LatestConsistentRaw := by
  unfold LogStateTracker.Update at h ⊢
  split at h
  · simp_all
  · split at h
    · split at h
      · simp_all
      · split at h
        · simp_all
        · split at h
          · simp_all
          · simp at h
    · simp at h

/-- Claim C6, witness: the verifier rejecting the two-leaf log leaves the tracker of `["x"]`
as it was. -/
theorem Update_failure_atomic_witness :
    ((sampleTracker twoLeafLog rawOtherLeaf cpOtherLeaf).Update specEnv freshWorld).2.1.LatestConsistent
      = cpOtherLeaf ∧
    ((sampleTracker twoLeafLog rawOtherLeaf cpOtherLeaf).Update specEnv freshWorld).2.1.LatestConsistentRaw
      = rawOtherLeaf :=
  Update_failure_atomic specEnv (sampleTracker twoLeafLog rawOtherLeaf cpOtherLeaf) freshWorld
    (Error.inconsistency rawOtherLeaf rawTwoLeaves [sampleHasher.HashLeaf (bytesOf "b")]
      (Error.other "invalid proof: root mismatch")) (by decide)

/-- Claim C7: a tracker of size 0 whose fetcher returns bytes `raw` that parse to `c` returns
nil and holds `raw` and `c` afterwards, whatever they are; the whole call is one fetch, of
the checkpoint path: no tile is fetched and the verifier is not consulted. -/
theorem Update_first_checkpoint_adopted {σ : Type} (env : Env) (lst : LogStateTracker σ)
    (w : World σ) (raw : Bytes) (c : Checkpoint)
    (hzero : lst.LatestConsistent.Size = 0)
    (hfetch : (lst.Fetcher CheckpointPath w.store).1 = .ok raw)
    (hparse : env.unmarshalCheckpoint raw = .ok c) :
    (lst.Update env w).1 = none ∧
      (lst.Update env w).2.1.LatestConsistentRaw = raw ∧
      (lst.Update env w).2.1.LatestConsistent = c ∧
      (lst.Update env w).2.2.trace = w.trace ++ [Event.fetch CheckpointPath] ∧
      fetchedPaths (lst.Update env w).2.2.trace = fetchedPaths w.trace ++ [CheckpointPath] ∧
      verifierCalls (lst.Update env w).2.2.trace = verifierCalls w.trace := by
  rw [Update_not_larger env lst w raw c hfetch hparse (Or.inl hzero)]
  have hpaths : ∀ (t : List Event) (q : String),
      fetchedPaths (t ++ [Event.fetch q]) = fetchedPaths t ++ [q] := by
    intro t q
    induction t with
    | nil => rfl
    | cons ev rest ih => cases ev <;> simp [fetchedPaths, ih]
  have hcalls : ∀ (t : List Event) (q : String),
      verifierCalls (t ++ [Event.fetch q]) = verifierCalls t := by
    intro t q
    induction t with
    | nil => rfl
    | cons ev rest ih => cases ev <;> simp [verifierCalls, ih]
  simp [callFetcher, hpaths, hcalls]

/-- Claim C7, witness: an empty tracker adopts the checkpoint of size 5 it fetches. -/
theorem Update_first_checkpoint_adopted_witness :
    ((sampleTracker (filesFetcher [("checkpoint", rawSize5)]) [] Checkpoint.zero).Update specEnv
        freshWorld).1 = none ∧
    ((sampleTracker (filesFetcher [("checkpoint", rawSize5)]) [] Checkpoint.zero).Update specEnv
        freshWorld).2.1.LatestConsistentRaw = rawSize5 ∧
    ((sampleTracker (filesFetcher [("checkpoint", rawSize5)]) [] Checkpoint.zero).Update specEnv
        freshWorld).2.1.LatestConsistent = cpSize5 ∧
    ((sampleTracker (filesFetcher [("checkpoint", rawSize5)]) [] Checkpoint.zero).Update specEnv
        freshWorld).2.2.trace = freshWorld.trace ++ [Event.fetch CheckpointPath] ∧
    fetchedPaths ((sampleTracker (filesFetcher [("checkpoint", rawSize5)]) [] Checkpoint.zero).Update
        specEnv freshWorld).2.2.trace = fetchedPaths freshWorld.trace ++ [CheckpointPath] ∧
    verifierCalls ((sampleTracker (filesFetcher [("checkpoint", rawSize5)]) [] Checkpoint.zero).Update
        specEnv freshWorld).2.2.trace = verifierCalls freshWorld.trace :=
  Update_first_checkpoint_adopted specEnv
    (sampleTracker (filesFetcher [("checkpoint", rawSize5)]) [] Checkpoint.zero) freshWorld
    rawSize5 cpSize5 (by decide) (by decide) (by decide)

/-- Claim C8, counterexample: a tracker that holds `rawSize5` fetches a checkpoint of the same
size and root hash under another origin line; `Update` returns nil, yet both
`LatestConsistentRaw` and `LatestConsistent` have changed. -/
theorem Update_same_root_counterexample :
    (∃ cand, specEnv.unmarshalCheckpoint rawSize5Reissued = .ok cand ∧ cand.Size = cpSize5.Size ∧
      cand.Hash = cpSize5.Hash) ∧
    specEnv.unmarshalCheckpoint rawSize5 = .ok cpSize5 ∧
    ((sampleTracker (filesFetcher [("checkpoint", rawSize5Reissued)]) rawSize5 cpSize5).Update
        specEnv freshWorld).1 = none ∧
    ((sampleTracker (filesFetcher [("checkpoint", rawSize5Reissued)]) rawSize5 cpSize5).Update
        specEnv freshWorld).2.1.LatestConsistentRaw ≠ rawSize5 ∧
    ((sampleTracker (filesFetcher [("checkpoint", rawSize5Reissued)]) rawSize5 cpSize5).Update
        specEnv freshWorld).2.1.LatestConsistent ≠ cpSize5 := by
  refine ⟨⟨_, rfl, by decide, by decide⟩, by decide, by decide, by decide, by decide⟩

/-- Claim C8, amended: when the fetched checkpoint `cand` has the tracked size and root hash,
`Update` returns nil after the single fetch and stores the fetched bytes and `cand`: the
tracked size and root hash are unchanged, and the tracker is unchanged altogether when the
fetched bytes are the stored bytes and `cand` is the stored checkpoint. -/
theorem Update_same_root_restores {σ : Type} (env : Env) (lst : LogStateTracker σ)
    (w : World σ) (raw : Bytes) (cand : Checkpoint)
    (hfetch : (lst.Fetcher CheckpointPath w.store).1 = .ok raw)
    (hparse : env.unmarshalCheckpoint raw = .ok cand)
    (hsame : cand.Size = lst.LatestConsistent.Size)
    (hroot : cand.Hash = lst.LatestConsistent.Hash) :
    (lst.Update env w).1 = none ∧
      (lst.Update env w).2.1.LatestConsistentRaw = raw ∧
      (lst.Update env w).2.1.LatestConsistent = cand ∧
      (lst.Update env w).2.1.LatestConsistent.Size = lst.LatestConsistent.Size ∧
      (lst.Update env w).2.1.LatestConsistent.Hash = lst.LatestConsistent.Hash ∧
      (lst.Update env w).2.2.trace = w.trace ++ [Event.fetch CheckpointPath] ∧
      (raw = lst.LatestConsistentRaw → cand = lst.LatestConsistent →
        (lst.Update env w).2.1 = lst) := by
  rw [Update_not_larger env lst w raw cand hfetch hparse (Or.inr (Nat.le_of_eq hsame))]
  refine ⟨rfl, rfl, rfl, hsame, hroot, by simp [callFetcher], ?_⟩
  intro h1 h2
  subst h1 h2
  rfl

/-- Claim C8, amended, witness: the tracker of `rawSize5` fetches `rawSize5` again. -/
theorem Update_same_root_restores_witness :
    ((sampleTracker (filesFetcher [("checkpoint", rawSize5)]) rawSize5 cpSize5).Update specEnv
        freshWorld).2.1 = sampleTracker (filesFetcher [("checkpoint", rawSize5)]) rawSize5 cpSize5 :=
  (Update_same_root_restores specEnv
    (sampleTracker (filesFetcher [("checkpoint", rawSize5)]) rawSize5 cpSize5) freshWorld rawSize5
    cpSize5 (by decide) (by decide) (by decide) (by decide)).2.2.2.2.2.2 rfl rfl

/-! ## The proof builder: `NewProofBuilder` -/

theorem getNodes_length {σ : Type} (wrapErr : Error → Error) (logSize : Nat) (ids : List NodeID) :
    ∀ (nc : NodeCache σ) (w : World σ) (hashes : List Bytes) (nc1 : NodeCache σ) (w1 : World σ),
      getNodes wrapErr logSize ids nc w = (.ok hashes, nc1, w1) → hashes.length = ids.length := by
  induction ids with
  | nil =>
    intro nc w hashes nc1 w1 h
    simp [getNodes] at h
    simp [← h.1]
  | cons id rest ih =>
    intro nc w hashes nc1 w1 h
    rw [getNodes] at h
    split at h
    · simp at h
    · rename_i v nc2 w2 hget
      split at h
      · simp at h
      · rename_i hs nc3 w3 hrest
        simp only [Prod.mk.injEq, Except.ok.injEq] at h
        rw [← h.1]
        simp [ih nc2 w2 hs nc3 w3 hrest]

theorem onesCountAux_succ (b : Nat) : ∀ x : Nat,
    onesCountAux (b + 1) x = onesCountAux b x + (if x.testBit b then 1 else 0) := by
  induction b with
  | zero =>
    intro x
    simp only [onesCountAux, Nat.testBit_zero]
    rcases Nat.mod_two_eq_zero_or_one x with h | h <;> simp [h]
  | succ b ih =>
    intro x
    rw [onesCountAux, ih (x / 2), onesCountAux, Nat.testBit_succ]
    omega

theorem rangeNodesFrom_length (size : Nat) : ∀ (b pos : Nat),
    (rangeNodesFrom b pos size).length = onesCountAux b size := by
  intro b
  induction b with
  | zero => intro pos; simp [rangeNodesFrom, onesCountAux]
  | succ b ih =>
    intro pos
    rw [rangeNodesFrom, onesCountAux_succ]
    by_cases hb : size.testBit b
    · simp [hb, ih]
    · simp [hb, ih]

theorem RangeNodes_length (s : Nat) : (RangeNodes s).length = onesCount64 s :=
  rangeNodesFrom_length s 64 0

theorem foldRange_fst {α : Type} (hash : HashFn) (visit : NodeID → Bytes → α → α) (size : Nat)
    (a : α) : ∀ (ids : List NodeID) (hashes : List Bytes), ids.length = hashes.length →
      (foldRange hash visit size (ids.zip hashes) a).1 = rangeRoot hash hashes := by
  intro ids
  induction ids with
  | nil =>
    intro hashes hlen
    cases hashes with
    | nil => simp [foldRange, rangeRoot]
    | cons x xs => simp at hlen
  | cons id rest ih =>
    intro hashes hlen
    cases hashes with
    | nil => simp at hlen
    | cons x xs =>
      cases rest with
      | nil =>
        cases xs with
        | nil => simp [foldRange, rangeRoot]
        | cons y ys => simp at hlen
      | cons id2 rest2 =>
        cases xs with
        | nil => simp at hlen
        | cons y ys =>
          have := ih (y :: ys) (by simpa using hlen)
          simp only [List.zip_cons_cons] at this ⊢
          simp only [foldRange, rangeRoot]
          rw [this]

/-- Claim C9: when all the compact-range nodes of `[0, cp.Size)` resolve through the node
cache, to `hashes`, `NewProofBuilder` succeeds if and only if the root folded from `hashes`
with the supplied `HashChildren` equals `cp.Hash`; when they differ it returns the
invalid-checkpoint error and no builder. -/
theorem NewProofBuilder_succeeds_iff_root {σ : Type} (env : Env) (cp : Checkpoint) (h : HashFn)
    (f : FetcherFunc σ) (w : World σ) (hashes : List Bytes) (nc1 : NodeCache σ) (w1 : World σ)
    (hresolve : FetchRangeNodes cp.Size (NewNodeCache (newTileFetcher env f)) w
      = (.ok hashes, nc1, w1)) :
    ((∃ pb, (NewProofBuilder env cp h f w).1 = .ok pb) ↔ rangeRoot h hashes = cp.Hash) ∧
    (rangeRoot h hashes ≠ cp.Hash →
      (NewProofBuilder env cp h f w).1 =
        .error (Error.invalidCheckpoint cp.Hash (rangeRoot h hashes))) := by
  have hlen : hashes.length = (RangeNodes cp.Size).length :=
    getNodes_length _ _ _ _ _ _ _ _ hresolve
  have hrange : NewRange h 0 cp.Size hashes = .ok ⟨h, 0, cp.Size, hashes⟩ := by
    simp [NewRange, hlen, RangeNodes_length]
  have hroot : ∀ a : NodeCache σ,
      (Range.GetRootHash ⟨h, 0, cp.Size, hashes⟩ NodeCache.SetEphemeralNode a).1
        = .ok (rangeRoot h hashes) := by
    intro a
    simp [Range.GetRootHash, foldRange_fst _ _ _ _ _ _ hlen.symm]
  have hnp : (NewProofBuilder env cp h f w).1 =
      if cp.Hash ≠ rangeRoot h hashes then
        .error (Error.invalidCheckpoint cp.Hash (rangeRoot h hashes))
      else
        .ok ⟨cp,
          (Range.GetRootHash ⟨h, 0, cp.Size, hashes⟩ NodeCache.SetEphemeralNode nc1).2, h⟩ := by
    unfold NewProofBuilder
    rw [hresolve]
    simp only [hrange]
    have h1 := hroot nc1
    split
    · rename_i err nc2 heq
      rw [heq] at h1
      simp at h1
    · rename_i sr nc2 heq
      rw [heq] at h1
      simp only [Except.ok.injEq] at h1
      subst h1
      split <;> simp [heq]
  constructor
  · constructor
    · rintro ⟨pb, hpb⟩
      rw [hnp] at hpb
      by_contra hne
      rw [if_pos (Ne.symm hne)] at hpb
      simp at hpb
    · intro heq
      rw [hnp, if_neg (by simp [heq])]
      exact ⟨_, rfl⟩
  · intro hne
    rw [hnp, if_pos (Ne.symm hne)]

/-- Claim C9, witness: the three-leaf log `["a", "b", "c"]`, whose compact range is the
parent of the first two leaves and the third leaf. -/
theorem NewProofBuilder_succeeds_iff_root_witness :
    ((∃ pb, (NewProofBuilder specEnv
        ⟨"log", 3, merkleTreeHash sampleHasher [bytesOf "a", bytesOf "b", bytesOf "c"], []⟩
        sampleHasher.HashChildren threeLeafLog freshWorld).1 = .ok pb) ↔
      rangeRoot sampleHasher.HashChildren
        [merkleTreeHash sampleHasher [bytesOf "a", bytesOf "b"], sampleHasher.HashLeaf (bytesOf "c")]
        = merkleTreeHash sampleHasher [bytesOf "a", bytesOf "b", bytesOf "c"]) ∧
    (rangeRoot sampleHasher.HashChildren
        [merkleTreeHash sampleHasher [bytesOf "a", bytesOf "b"], sampleHasher.HashLeaf (bytesOf "c")]
        ≠ merkleTreeHash sampleHasher [bytesOf "a", bytesOf "b", bytesOf "c"] →
      (NewProofBuilder specEnv
        ⟨"log", 3, merkleTreeHash sampleHasher [bytesOf "a", bytesOf "b", bytesOf "c"], []⟩
        sampleHasher.HashChildren threeLeafLog freshWorld).1 =
        .error (Error.invalidCheckpoint (merkleTreeHash sampleHasher [bytesOf "a", bytesOf "b", bytesOf "c"])
          (rangeRoot sampleHasher.HashChildren
            [merkleTreeHash sampleHasher [bytesOf "a", bytesOf "b"],
              sampleHasher.HashLeaf (bytesOf "c")]))) := by
  obtain ⟨nc1, w1, hresolve⟩ : ∃ nc1 w1,
      FetchRangeNodes 3 (NewNodeCache (newTileFetcher specEnv threeLeafLog)) freshWorld =
        (.ok [merkleTreeHash sampleHasher [bytesOf "a", bytesOf "b"],
          sampleHasher.HashLeaf (bytesOf "c")], nc1, w1) := ⟨_, _, rfl⟩
  exact NewProofBuilder_succeeds_iff_root specEnv
    ⟨"log", 3, merkleTreeHash sampleHasher [bytesOf "a", bytesOf "b", bytesOf "c"], []⟩
    sampleHasher.HashChildren threeLeafLog freshWorld _ nc1 w1 hresolve

/-! ## Inclusion proofs -/

theorem bitLenAux_zero (fuel : Nat) : bitLenAux fuel 0 = 0 := by
  cases fuel <;> simp [bitLenAux]

theorem bitLenAux_le (fuel : Nat) : ∀ x, bitLenAux fuel x ≤ fuel := by
  induction fuel with
  | zero => intro x; simp [bitLenAux]
  | succ f ih =>
    intro x
    rw [bitLenAux]
    split
    · omega
    · have := ih (x / 2); omega

theorem lt_two_pow_bitLenAux (fuel : Nat) : ∀ x, x < 2 ^ fuel → x < 2 ^ bitLenAux fuel x := by
  induction fuel with
  | zero => intro x hx; simpa [bitLenAux] using hx
  | succ f ih =>
    intro x hx
    rw [bitLenAux]
    split
    · rename_i h0; subst h0; simp
    · have hx2 : x / 2 < 2 ^ f := by
        rw [Nat.div_lt_iff_lt_mul (by decide)]
        rw [pow_succ] at hx; exact hx
      have := ih (x / 2) hx2
      rw [pow_succ]
      omega

theorem two_pow_bitLenAux_le (fuel : Nat) : ∀ x, 0 < x → 2 ^ (bitLenAux fuel x - 1) ≤ x := by
  induction fuel with
  | zero => intro x hx; simp [bitLenAux]; omega
  | succ f ih =>
    intro x hx
    rw [bitLenAux]
    split
    · omega
    · simp only [Nat.add_sub_cancel]
      by_cases h2 : x / 2 = 0
      · rw [h2, bitLenAux_zero]; simp; omega
      · have := ih (x / 2) (Nat.pos_of_ne_zero h2)
        by_cases hb : bitLenAux f (x / 2) = 0
        · rw [hb]; simp; omega
        · have : 2 ^ bitLenAux f (x / 2) = 2 * 2 ^ (bitLenAux f (x / 2) - 1) := by
            rw [← pow_succ']; congr 1; omega
          omega

theorem bitLenAux_pos (fuel : Nat) (x : Nat) (hx : 0 < x) (hf : 0 < fuel) : 0 < bitLenAux fuel x := by
  cases fuel with
  | zero => omega
  | succ f => rw [bitLenAux]; split <;> omega

/-- The bit length is determined by the two powers of two around the value. -/
theorem bitLenAux_eq (fuel : Nat) (x L : Nat) (hL : L ≤ fuel) (hlo : 2 ^ (L - 1) ≤ x) (hx : 0 < x)
    (hhi : x < 2 ^ L) : bitLenAux fuel x = L := by
  have h1 := lt_two_pow_bitLenAux fuel x (lt_of_lt_of_le hhi (Nat.pow_le_pow_right (by decide) hL))
  have h2 := two_pow_bitLenAux_le fuel x hx
  have hpos := bitLenAux_pos fuel x hx (by
    rcases Nat.eq_zero_or_pos fuel with h | h
    · subst h
      have : L = 0 := by omega
      subst this; simp at hhi; omega
    · exact h)
  have hLpos : 0 < L := by
    rcases Nat.eq_zero_or_pos L with h | h
    · subst h; simp at hhi; omega
    · exact h
  -- 2^(bl-1) ≤ x < 2^L  and 2^(L-1) ≤ x < 2^bl
  have a : bitLenAux fuel x - 1 < L :=
    (Nat.pow_lt_pow_iff_right (by decide : 1 < 2)).mp (lt_of_le_of_lt h2 hhi)
  have b : L - 1 < bitLenAux fuel x :=
    (Nat.pow_lt_pow_iff_right (by decide : 1 < 2)).mp (lt_of_le_of_lt hlo h1)
  omega

theorem subtreeLevel_one : subtreeLevel 1 = 0 := by decide

theorem subtreeLevel_zero : subtreeLevel 0 = 0 := by decide

theorem subtreeLevel_eq (n L : Nat) (hL64 : L ≤ 64) (hlo : 2 ^ (L - 1) < n)
    (hhi : n ≤ 2 ^ L) : subtreeLevel n = L := by
  have : 0 < 2 ^ (L - 1) := Nat.two_pow_pos _
  exact bitLenAux_eq 64 (n - 1) L hL64 (by omega) (by omega) (by omega)

theorem subtreeLevel_two_pow (L : Nat) (hL64 : L ≤ 64) : subtreeLevel (2 ^ L) = L := by
  rcases Nat.eq_zero_or_pos L with h | h
  · subst h; decide
  · refine subtreeLevel_eq _ L hL64 ?_ (le_refl _)
    exact Nat.pow_lt_pow_right (by decide) (by omega)

/-- For a subtree of at least two leaves, below `2^64`: its level `L` is positive and
`2^(L-1) < n ≤ 2^L`. -/
theorem subtreeLevel_spec (n : Nat) (h2 : 2 ≤ n) (h64 : n ≤ 2 ^ 64) :
    1 ≤ subtreeLevel n ∧ subtreeLevel n ≤ 64 ∧ 2 ^ (subtreeLevel n - 1) < n ∧
      n ≤ 2 ^ subtreeLevel n := by
  have h1 := lt_two_pow_bitLenAux 64 (n - 1) (by omega)
  have h2' := two_pow_bitLenAux_le 64 (n - 1) (by omega)
  have h3 := bitLenAux_pos 64 (n - 1) (by omega) (by decide)
  have h4 := bitLenAux_le 64 (n - 1)
  unfold subtreeLevel len64
  omega

theorem subtreeLevel_le (n L : Nat) (hn : n ≤ 2 ^ L) (hL : L ≤ 64) : subtreeLevel n ≤ L := by
  rcases Nat.lt_or_ge n 2 with h | h
  · have : n = 0 ∨ n = 1 := by omega
    rcases this with h | h <;> subst h <;> simp [subtreeLevel_one, subtreeLevel_zero]
  · have hs := subtreeLevel_spec n h (le_trans hn (Nat.pow_le_pow_right (by decide) hL))
    have : 2 ^ (subtreeLevel n - 1) < 2 ^ L := lt_of_lt_of_le hs.2.2.1 hn
    have := (Nat.pow_lt_pow_iff_right (by decide : 1 < 2)).mp this
    omega

theorem splitPoint_spec (n : Nat) (h2 : 2 ≤ n) (h64 : n ≤ 2 ^ 64) :
    splitPoint n < n ∧ n ≤ 2 * splitPoint n ∧ 2 * splitPoint n = 2 ^ subtreeLevel n := by
  have hs := subtreeLevel_spec n h2 h64
  unfold splitPoint
  have : 2 * 2 ^ (subtreeLevel n - 1) = 2 ^ subtreeLevel n := by
    rw [← pow_succ']; congr 1; omega
  omega

theorem splitPoint_pos (n : Nat) : 0 < splitPoint n := Nat.two_pow_pos _

theorem splitPoint_lt (n : Nat) (h2 : 2 ≤ n) : splitPoint n < n := by
  have := two_pow_bitLenAux_le 64 (n - 1) (by omega)
  unfold splitPoint subtreeLevel len64
  omega

theorem merkleTreeHashAux_fuel (h : LogHasher) (fuel1 : Nat) :
    ∀ (leaves : List Bytes) (fuel2 : Nat), leaves.length ≤ fuel1 → leaves.length ≤ fuel2 →
      merkleTreeHashAux h fuel1 leaves = merkleTreeHashAux h fuel2 leaves := by
  induction fuel1 with
  | zero =>
    intro leaves fuel2 h1 _
    have : leaves = [] := List.length_eq_zero.mp (by omega)
    subst this
    cases fuel2 <;> simp [merkleTreeHashAux]
  | succ f1 ih =>
    intro leaves fuel2 h1 h2
    match leaves, fuel2 with
    | [], 0 => simp [merkleTreeHashAux]
    | [], _ + 1 => simp [merkleTreeHashAux]
    | [d], 0 => simp at h2
    | [d], _ + 1 => simp [merkleTreeHashAux]
    | d :: e :: rest, 0 => simp at h2
    | d :: e :: rest, f2 + 1 =>
      simp only [merkleTreeHashAux]
      have hk := splitPoint_lt (rest.length + 2) (by omega)
      have hk0 := splitPoint_pos (rest.length + 2)
      simp only [List.length_cons] at h1 h2
      rw [ih _ f2 (by simp; omega) (by simp; omega), ih _ f2 (by simp; omega) (by simp; omega)]

theorem merkleTreeHash_nil (h : LogHasher) : merkleTreeHash h [] = h.EmptyRoot := rfl

theorem merkleTreeHash_singleton (h : LogHasher) (d : Bytes) :
    merkleTreeHash h [d] = h.HashLeaf d := rfl

/-- RFC 6962: `MTH(D[n]) = HashChildren(MTH(D[0:k]), MTH(D[k:n]))` for `n ≥ 2`. -/
theorem merkleTreeHash_split (h : LogHasher) (leaves : List Bytes) (h2 : 2 ≤ leaves.length) :
    merkleTreeHash h leaves =
      h.HashChildren (merkleTreeHash h (leaves.take (splitPoint leaves.length)))
        (merkleTreeHash h (leaves.drop (splitPoint leaves.length))) := by
  match leaves with
  | [] => simp at h2
  | [d] => simp at h2
  | d :: e :: rest =>
    have hk := splitPoint_lt (rest.length + 2) (by omega)
    have hk0 := splitPoint_pos (rest.length + 2)
    show merkleTreeHashAux h (rest.length + 1 + 1) (d :: e :: rest) = _
    simp only [merkleTreeHashAux, merkleTreeHash, List.length_cons]
    rw [merkleTreeHashAux_fuel h _ _ _ (by simp; omega) (le_refl _),
      merkleTreeHashAux_fuel h (rest.length + 1) _ _ (by simp; omega) (le_refl _)]

theorem leafRange_length (leaves : List Bytes) (start n : Nat) (hn : start + n ≤ leaves.length) :
    (leafRange leaves start n).length = n := by
  simp [leafRange]; omega

theorem leafRange_take (leaves : List Bytes) (start n k : Nat) (hk : k ≤ n) :
    (leafRange leaves start n).take k = leafRange leaves start k := by
  simp [leafRange, List.take_take, Nat.min_eq_left hk]

theorem leafRange_drop (leaves : List Bytes) (start n k : Nat) :
    (leafRange leaves start n).drop k = leafRange leaves (start + k) (n - k) := by
  simp [leafRange, List.drop_take, List.drop_drop, Nat.add_comm]

/-- Cutting at the end of the log: a range that reaches the end is the same for any length
that reaches it. -/
theorem leafRange_to_end (leaves : List Bytes) (start n n2 : Nat)
    (hn : leaves.length ≤ start + n) (hn2 : leaves.length ≤ start + n2) :
    leafRange leaves start n = leafRange leaves start n2 := by
  simp only [leafRange]
  rw [List.take_of_length_le (by simp; omega), List.take_of_length_le (by simp; omega)]

theorem leafRange_whole (leaves : List Bytes) : leafRange leaves 0 leaves.length = leaves := by
  simp [leafRange]

theorem leafRange_one (leaves : List Bytes) (i : Nat) (hi : i < leaves.length) :
    leafRange leaves i 1 = [leaves.get ⟨i, hi⟩] := by
  have hd : leaves.drop i = leaves[i] :: leaves.drop (i + 1) := List.drop_eq_getElem_cons hi
  rw [leafRange, hd]
  rfl

/-- The Merkle tree hash of a range of at least two leaves inside the log splits at the
split point. -/
theorem merkleTreeHash_leafRange_split (h : LogHasher) (leaves : List Bytes) (start n : Nat)
    (h2 : 2 ≤ n) (hn : start + n ≤ leaves.length) :
    merkleTreeHash h (leafRange leaves start n) =
      h.HashChildren (merkleTreeHash h (leafRange leaves start (splitPoint n)))
        (merkleTreeHash h (leafRange leaves (start + splitPoint n) (n - splitPoint n))) := by
  have hlen := leafRange_length leaves start n hn
  have hk := splitPoint_lt n h2
  rw [merkleTreeHash_split h _ (by omega), hlen, leafRange_take _ _ _ _ (le_of_lt hk),
    leafRange_drop _ _ _ _]

theorem subtreeLevel_splitPoint (n : Nat) (h2 : 2 ≤ n) (h64 : n ≤ 2 ^ 64) :
    subtreeLevel (splitPoint n) = subtreeLevel n - 1 := by
  have hs := subtreeLevel_spec n h2 h64
  exact subtreeLevel_two_pow _ (by omega)

theorem le_two_pow_subtreeLevel (n : Nat) (h64 : n ≤ 2 ^ 64) : n ≤ 2 ^ subtreeLevel n := by
  rcases Nat.lt_or_ge n 2 with h | h
  · have : n = 0 ∨ n = 1 := by omega
    rcases this with h | h <;> subst h
    · simp
    · exact Nat.one_le_two_pow
  · exact (subtreeLevel_spec n h h64).2.2.2

theorem LegalSubtree.left {N start n : Nat} (hl : LegalSubtree N start n) (h2 : 2 ≤ n)
    (h64 : N ≤ 2 ^ 64) : LegalSubtree N start (splitPoint n) := by
  obtain ⟨h1, hle, hdvd, _⟩ := hl
  have hsp := splitPoint_spec n h2 (by omega)
  have hlev := subtreeLevel_splitPoint n h2 (by omega)
  refine ⟨splitPoint_pos n, by omega, ?_, Or.inl ?_⟩
  · rw [hlev]
    exact Nat.dvd_trans (Nat.pow_dvd_pow 2 (Nat.sub_le _ _)) hdvd
  · rw [hlev]; rfl

theorem LegalSubtree.right {N start n : Nat} (hl : LegalSubtree N start n) (h2 : 2 ≤ n)
    (h64 : N ≤ 2 ^ 64) : LegalSubtree N (start + splitPoint n) (n - splitPoint n) := by
  obtain ⟨h1, hle, hdvd, hpe⟩ := hl
  have hsp := splitPoint_spec n h2 (by omega)
  have hs := subtreeLevel_spec n h2 (by omega)
  have hlev : subtreeLevel (n - splitPoint n) ≤ subtreeLevel n - 1 :=
    subtreeLevel_le _ _ (by unfold splitPoint at hsp ⊢; omega) (by omega)
  refine ⟨by omega, by omega, ?_, ?_⟩
  · apply Nat.dvd_add
    · exact Nat.dvd_trans (Nat.pow_dvd_pow 2 (by omega)) hdvd
    · exact Nat.pow_dvd_pow 2 hlev
  · rcases hpe with hp | he
    · left
      have : n - splitPoint n = 2 ^ (subtreeLevel n - 1) := by
        unfold splitPoint at hsp ⊢; omega
      rw [this, subtreeLevel_two_pow _ (by omega)]
    · right; omega

/-- The node of a legal subtree has the Merkle tree hash of the subtree's leaves. -/
theorem nodeHash_subtreeID (h : LogHasher) (leaves : List Bytes) (start n : Nat)
    (h64 : leaves.length ≤ 2 ^ 64) (hl : LegalSubtree leaves.length start n) :
    nodeHash h leaves (subtreeID start n) = merkleTreeHash h (leafRange leaves start n) := by
  obtain ⟨h1, hle, hdvd, hpe⟩ := hl
  have hidx : (start >>> subtreeLevel n) * 2 ^ subtreeLevel n = start := by
    rw [Nat.shiftRight_eq_div_pow]
    exact Nat.div_mul_cancel hdvd
  simp only [nodeHash, subtreeID, hidx]
  rcases hpe with hp | he
  · rw [← hp]
  · have := le_two_pow_subtreeLevel n (by omega)
    rw [leafRange_to_end leaves start _ n (by omega) (by omega)]

theorem verifyInclusionLoop_append (hash : HashFn) (A B : List Bytes) :
    ∀ (fn sn : Nat) (r : Bytes),
      verifyInclusionLoop hash (A ++ B) fn sn r =
        (verifyInclusionLoop hash A fn sn r).bind
          (fun s => verifyInclusionLoop hash B s.1 s.2.1 s.2.2) := by
  induction A with
  | nil => intro fn sn r; simp [verifyInclusionLoop]
  | cons p rest ih =>
    intro fn sn r
    simp only [List.cons_append, verifyInclusionLoop]
    split
    · simp
    · split <;> exact ih _ _ _

theorem shiftUntilOdd_two_pow_mul (t : Nat) : ∀ (fuel q sn : Nat), q % 2 = 1 → t < fuel →
    shiftUntilOdd fuel (2 ^ t * q) sn = (q, sn / 2 ^ t) := by
  induction t with
  | zero =>
    intro fuel q sn hq hf
    cases fuel with
    | zero => omega
    | succ f => simp [shiftUntilOdd, hq]
  | succ t ih =>
    intro fuel q sn hq hf
    cases fuel with
    | zero => omega
    | succ f =>
      have hpos : 0 < 2 ^ t := Nat.two_pow_pos t
      have he : 2 ^ (t + 1) * q = 2 * (2 ^ t * q) := by rw [pow_succ]; ring
      have hq0 : 0 < q := by omega
      have hne : ¬ (2 ^ (t + 1) * q % 2 = 1 ∨ 2 ^ (t + 1) * q = 0) := by
        rw [he]
        have : 0 < 2 ^ t * q := Nat.mul_pos hpos hq0
        omega
      rw [shiftUntilOdd, if_neg hne, he, Nat.mul_div_cancel_left _ (by decide : 0 < 2),
        ih f q (sn / 2) hq (by omega), Nat.div_div_eq_div_mul, pow_succ, Nat.mul_comm 2]

theorem verifyInclusionLoop_step_left (hash : HashFn) (p r : Bytes) (fn sn : Nat)
    (heven : fn % 2 = 0) (hlt : fn < sn) :
    verifyInclusionLoop hash [p] fn sn r = some (fn / 2, sn / 2, hash r p) := by
  simp only [verifyInclusionLoop]
  rw [if_neg (by omega), if_neg (by omega)]

theorem verifyInclusionLoop_step_right (hash : HashFn) (p r : Bytes) (fn sn d q : Nat)
    (hfn : fn = 2 ^ d * q) (hq : q % 2 = 1) (hd : d < 64) (hsn : sn ≠ 0)
    (hc : d = 0 ∨ fn = sn) :
    verifyInclusionLoop hash [p] fn sn r = some (q / 2, sn / 2 ^ d / 2, hash p r) := by
  have hcond : fn % 2 = 1 ∨ fn = sn := by
    rcases hc with h0 | h1
    · left; subst h0; simp at hfn; omega
    · right; exact h1
  simp only [verifyInclusionLoop]
  rw [if_neg hsn, if_pos hcond, hfn, shiftUntilOdd_two_pow_mul d 64 q sn hq hd]

theorem verifyInclusionLoop_inclusionPath (h : LogHasher) (leaves : List Bytes)
    (h64 : leaves.length ≤ 2 ^ 64) : ∀ (fuel start m n : Nat),
    LegalSubtree leaves.length start n → m < n → subtreeLevel n ≤ fuel →
    verifyInclusionLoop h.HashChildren ((inclusionPath fuel start m n).map (nodeHash h leaves))
        (start + m) (leaves.length - 1) (merkleTreeHash h (leafRange leaves (start + m) 1)) =
      some (start / 2 ^ subtreeLevel n, (leaves.length - 1) / 2 ^ subtreeLevel n,
        merkleTreeHash h (leafRange leaves start n)) := by
  intro fuel
  induction fuel with
  | zero =>
    intro start m n hl hm hf
    have hn1 : n = 1 := by
      by_contra hne
      have := subtreeLevel_spec n (by have := hl.1; omega) (by have := hl.2.1; omega)
      omega
    subst hn1
    have hm0 : m = 0 := by omega
    subst hm0
    simp [inclusionPath, verifyInclusionLoop, subtreeLevel_one]
  | succ fuel ih =>
    intro start m n hl hm hf
    rcases Nat.lt_or_ge n 2 with hn | hn
    · have hn1 : n = 1 := by have := hl.1; omega
      subst hn1
      have hm0 : m = 0 := by omega
      subst hm0
      simp [inclusionPath, verifyInclusionLoop, subtreeLevel_one]
    · have hnN : n ≤ 2 ^ 64 := by have := hl.2.1; omega
      have hsp := splitPoint_spec n hn hnN
      have hs := subtreeLevel_spec n hn hnN
      have hlk := subtreeLevel_splitPoint n hn hnN
      have hleft := hl.left hn h64
      have hright := hl.right hn h64
      have hsplit := merkleTreeHash_leafRange_split h leaves start n hn hl.2.1
      have hle := hl.2.1
      have hpe := hl.2.2.2
      obtain ⟨a, ha⟩ := hl.2.2.1
      have hk : splitPoint n = 2 ^ (subtreeLevel n - 1) := rfl
      have hL' : subtreeLevel (n - splitPoint n) ≤ subtreeLevel n - 1 :=
        subtreeLevel_le _ _ (by omega) (by omega)
      have hlt' := le_two_pow_subtreeLevel (n - splitPoint n) (by omega)
      have hperfect : n = 2 ^ subtreeLevel n →
          subtreeLevel (n - splitPoint n) = subtreeLevel n - 1 := by
        intro hp
        have h1 : n - splitPoint n = 2 ^ (subtreeLevel n - 1) := by omega
        rw [h1]
        exact subtreeLevel_two_pow (subtreeLevel n - 1) (by omega)
      rw [inclusionPath, if_neg (by omega)]
      by_cases hmk : m < splitPoint n
      · rw [if_pos hmk, List.map_append, verifyInclusionLoop_append,
          ih start m (splitPoint n) hleft hmk (by omega)]
        simp only [Option.some_bind, List.map_cons, List.map_nil, hlk]
        rw [nodeHash_subtreeID h leaves _ _ h64 hright, hsplit]
        clear hsplit hleft hright ih hl hperfect hlt' hL' hlk
        generalize splitPoint n = k at *
        generalize subtreeLevel n = L at *
        obtain ⟨P, hPdef⟩ : ∃ P, P = 2 ^ (L - 1) := ⟨_, rfl⟩
        have hP : 2 ^ L = 2 * P := by
          rw [hPdef, ← pow_succ']; congr 1; omega
        have hPpos : 0 < P := by rw [hPdef]; exact Nat.two_pow_pos _
        rw [← hPdef] at hk ⊢
        rw [hP] at ha ⊢
        subst hk
        have hfn : start / k = 2 * a := by
          rw [ha, show 2 * k * a = k * (2 * a) by ring]
          exact Nat.mul_div_cancel_left _ hPpos
        have hsn : 2 * a + 1 ≤ (leaves.length - 1) / k := by
          rw [Nat.le_div_iff_mul_le hPpos]
          have : (2 * a + 1) * k = start + k := by rw [ha]; ring
          omega
        rw [verifyInclusionLoop_step_left _ _ _ _ _ (by omega) (by omega), hfn,
          Nat.div_div_eq_div_mul, Nat.mul_comm k 2]
        have : start / (2 * k) = a := by
          rw [ha]; exact Nat.mul_div_cancel_left _ (by omega)
        rw [this]
        congr 2
        omega
      · rw [if_neg hmk, List.map_append, verifyInclusionLoop_append]
        have hidx : start + splitPoint n + (m - splitPoint n) = start + m := by omega
        have hih := ih (start + splitPoint n) (m - splitPoint n) (n - splitPoint n) hright
          (by omega) (by omega)
        rw [hidx] at hih
        rw [hih]
        simp only [Option.some_bind, List.map_cons, List.map_nil]
        rw [nodeHash_subtreeID h leaves _ _ h64 hleft, hsplit]
        clear hsplit hleft hright ih hl hih hlk
        generalize subtreeLevel (n - splitPoint n) = L' at *
        generalize splitPoint n = k at *
        generalize subtreeLevel n = L at *
        obtain ⟨d, hd⟩ : ∃ d, L - 1 = L' + d := ⟨L - 1 - L', by omega⟩
        have hP : 2 ^ L = 2 * k := by
          rw [hk, ← pow_succ']; congr 1; omega
        have hPQ : k = 2 ^ L' * 2 ^ d := by rw [hk, hd, pow_add]
        have hQpos : 0 < 2 ^ L' := Nat.two_pow_pos _
        have hDpos : 0 < 2 ^ d := Nat.two_pow_pos _
        have hsk : start + k = 2 ^ L' * (2 ^ d * (2 * a + 1)) := by
          rw [ha, hP, hPQ]; ring
        have hfn : (start + k) / 2 ^ L' = 2 ^ d * (2 * a + 1) := by
          rw [hsk]; exact Nat.mul_div_cancel_left _ hQpos
        have hfnpos : 0 < 2 ^ d * (2 * a + 1) := Nat.mul_pos hDpos (by omega)
        have hsnge : (start + k) / 2 ^ L' ≤ (leaves.length - 1) / 2 ^ L' := by
          apply Nat.div_le_div_right
          omega
        have hc2 : d = 0 ∨ (start + k) / 2 ^ L' = (leaves.length - 1) / 2 ^ L' := by
          rcases Nat.eq_zero_or_pos d with hd0 | hdpos
          · left; exact hd0
          · right
            have hedge : start + n = leaves.length := by
              rcases hpe with hp | he
              · exfalso
                have := hperfect hp
                omega
              · exact he
            have hN1 : leaves.length - 1 = (n - k - 1) + 2 ^ L' * (2 ^ d * (2 * a + 1)) := by
              rw [← hsk]; omega
            rw [hfn, hN1, Nat.add_mul_div_left _ _ hQpos, Nat.div_eq_of_lt (by omega)]
            simp
        rw [verifyInclusionLoop_step_right _ _ _ _ _ d (2 * a + 1) hfn (by omega) (by omega)
          (by omega) hc2]
        have h1 : (2 * a + 1) / 2 = a := by omega
        have h2 : start / 2 ^ L = a := by
          rw [ha]; exact Nat.mul_div_cancel_left _ (Nat.two_pow_pos _)
        have h3 : (leaves.length - 1) / 2 ^ L' / 2 ^ d / 2 = (leaves.length - 1) / 2 ^ L := by
          rw [Nat.div_div_eq_div_mul, Nat.div_div_eq_div_mul, hP, hPQ]
          congr 1
          ring
        rw [h1, h2, h3]

theorem GetNode_ok {σ : Type} (env : Env) (h : LogHasher) (f : FetcherFunc σ)
    (leaves : List Bytes) (htiled : CorrectlyTiled env h f leaves) (nc : NodeCache σ)
    (hok : CacheOK env h f leaves nc) (id : NodeID) (hav : Available nc leaves.length id)
    (w : World σ) :
    ∃ nc1 w1, nc.GetNode id leaves.length w = (.ok (nodeHash h leaves id), nc1, w1) ∧
      CacheOK env h f leaves nc1 ∧ nc1.ephemeral = nc.ephemeral := by
  unfold NodeCache.GetNode
  by_cases he : ((nc.ephemeral id).getD []).length ≠ 0
  · simp only [he, ne_eq, not_false_eq_true, if_true]
    cases hid : nc.ephemeral id with
    | none => rw [hid] at he; simp at he
    | some e =>
      refine ⟨nc, w, ?_, hok, rfl⟩
      simp [hok.ephemeral id e hid]
  · have hcomplete : (id.Index + 1) * 2 ^ id.Level ≤ leaves.length := by
      rcases hav with hc | ⟨e, he1, he2⟩
      · exact hc
      · rw [he1] at he
        simp at he
        exact absurd he he2
    simp only [he, if_false]
    obtain ⟨raw, t, hfetch, hparse, hcorrect⟩ := htiled id.Level id.Index w.store hcomplete
    cases htile : nc.tiles ((NodeCoordsToTileAddress id.Level id.Index).1,
        (NodeCoordsToTileAddress id.Level id.Index).2.1) with
    | some t0 =>
      have := hok.tiles _ _ t0 htile id.Level id.Index hcomplete rfl rfl
      simp only [this]
      exact ⟨nc, w, rfl, hok, rfl⟩
    | none =>
      have hget : nc.getTile (NodeCoordsToTileAddress id.Level id.Index).1
          (NodeCoordsToTileAddress id.Level id.Index).2.1 leaves.length w =
          (.ok t, (callFetcher f (tileFilePath (NodeCoordsToTileAddress id.Level id.Index).1
            (NodeCoordsToTileAddress id.Level id.Index).2.1 leaves.length) w).2) := by
        rw [hok.getTile]
        simp only [newTileFetcher, tileFilePath] at hfetch ⊢
        simp only [callFetcher, hfetch, hparse]
      simp only [hget]
      have := hcorrect id.Level id.Index hcomplete rfl rfl
      simp only [this]
      refine ⟨_, _, rfl, ⟨hok.getTile, ?_, hok.ephemeral⟩, rfl⟩
      intro tl ti t1 ht1
      simp only at ht1
      split at ht1
      · rename_i hkey
        simp only [Prod.mk.injEq] at hkey
        simp only [Option.some.injEq] at ht1
        rw [← ht1, hkey.1, hkey.2]
        exact hcorrect
      · exact hok.tiles tl ti t1 ht1

theorem getNodes_ok {σ : Type} (env : Env) (h : LogHasher) (f : FetcherFunc σ)
    (leaves : List Bytes) (htiled : CorrectlyTiled env h f leaves) (wrapErr : Error → Error)
    (ids : List NodeID) : ∀ (nc : NodeCache σ), CacheOK env h f leaves nc →
    (∀ id ∈ ids, Available nc leaves.length id) → ∀ (w : World σ),
    ∃ nc1 w1, getNodes wrapErr leaves.length ids nc w =
        (.ok (ids.map (nodeHash h leaves)), nc1, w1) ∧
      CacheOK env h f leaves nc1 ∧ nc1.ephemeral = nc.ephemeral := by
  induction ids with
  | nil =>
    intro nc hok _ w
    exact ⟨nc, w, rfl, hok, rfl⟩
  | cons id rest ih =>
    intro nc hok hav w
    obtain ⟨nc1, w1, hget, hok1, heph1⟩ :=
      GetNode_ok env h f leaves htiled nc hok id (hav id (List.mem_cons_self _ _)) w
    have hav1 : ∀ id ∈ rest, Available nc1 leaves.length id := by
      intro j hj
      have := hav j (List.mem_cons_of_mem _ hj)
      simpa [Available, heph1] using this
    obtain ⟨nc2, w2, hrest, hok2, heph2⟩ := ih nc1 hok1 hav1 w1
    refine ⟨nc2, w2, ?_, hok2, by rw [heph2, heph1]⟩
    simp only [getNodes, hget, hrest, List.map_cons]

theorem testBit_iff_div_odd (N b : Nat) : N.testBit b = true ↔ N / 2 ^ b % 2 = 1 := by
  rw [Nat.testBit_to_div_mod]; simp

theorem div_two_pow_succ (N b : Nat) : N / 2 ^ (b + 1) = N / 2 ^ b / 2 := by
  rw [Nat.div_div_eq_div_mul, pow_succ]

theorem mod_two_pow_succ_of_testBit (N b : Nat) (hb : N.testBit b = true) :
    N % 2 ^ (b + 1) = 2 ^ b + N % 2 ^ b := by
  rw [Nat.mod_pow_succ, (testBit_iff_div_odd N b).mp hb]; omega

theorem mod_two_pow_succ_of_not_testBit (N b : Nat) (hb : ¬ N.testBit b = true) :
    N % 2 ^ (b + 1) = N % 2 ^ b := by
  have : N / 2 ^ b % 2 = 0 := by
    have := (testBit_iff_div_odd N b).not.mp hb
    omega
  rw [Nat.mod_pow_succ, this]; omega

/-- The start of the subtree that holds the low `b` bits of `N`: `N` without those bits. -/
theorem pos_succ_of_testBit (N b : Nat) (hb : N.testBit b = true) :
    N / 2 ^ (b + 1) * 2 ^ (b + 1) + 2 ^ b = N / 2 ^ b * 2 ^ b := by
  have h1 := (testBit_iff_div_odd N b).mp hb
  have h2 := div_two_pow_succ N b
  have h3 : N / 2 ^ b = 2 * (N / 2 ^ (b + 1)) + 1 := by omega
  rw [h3, pow_succ]; ring

theorem pos_succ_of_not_testBit (N b : Nat) (hb : ¬ N.testBit b = true) :
    N / 2 ^ (b + 1) * 2 ^ (b + 1) = N / 2 ^ b * 2 ^ b := by
  have h1 := (testBit_iff_div_odd N b).not.mp hb
  have h2 := div_two_pow_succ N b
  have h3 : N / 2 ^ b = 2 * (N / 2 ^ (b + 1)) := by omega
  rw [h3, pow_succ]; ring

theorem pos_shiftRight (N b : Nat) :
    (N / 2 ^ (b + 1) * 2 ^ (b + 1)) >>> b = 2 * (N / 2 ^ (b + 1)) := by
  rw [Nat.shiftRight_eq_div_pow, pow_succ,
    show N / (2 ^ b * 2) * (2 ^ b * 2) = 2 ^ b * (2 * (N / (2 ^ b * 2))) by ring]
  exact Nat.mul_div_cancel_left _ (Nat.two_pow_pos _)

/-- Every node of the compact range is a complete node of the log. -/
theorem rangeNodesFrom_complete (N : Nat) : ∀ (b pos : Nat), pos = N / 2 ^ b * 2 ^ b →
    ∀ id ∈ rangeNodesFrom b pos N, (id.Index + 1) * 2 ^ id.Level ≤ N := by
  intro b
  induction b with
  | zero => intro pos _ id hid; simp [rangeNodesFrom] at hid
  | succ b ih =>
    intro pos hpos id hid
    rw [rangeNodesFrom] at hid
    by_cases hb : N.testBit b = true
    · rw [if_pos hb] at hid
      rcases List.mem_cons.mp hid with h0 | hrest
      · subst h0
        simp only
        rw [hpos, pos_shiftRight]
        have h1 := (testBit_iff_div_odd N b).mp hb
        have h2 := div_two_pow_succ N b
        have h3 : 2 * (N / 2 ^ (b + 1)) + 1 = N / 2 ^ b := by omega
        rw [h3]
        exact Nat.div_mul_le_self N (2 ^ b)
      · exact ih (pos + 2 ^ b) (by rw [hpos]; exact pos_succ_of_testBit N b hb) id hrest
    · rw [if_neg hb] at hid
      exact ih pos (by rw [hpos]; exact pos_succ_of_not_testBit N b hb) id hid

theorem RangeNodes_complete (N : Nat) (hN : N < 2 ^ 64) :
    ∀ id ∈ RangeNodes N, (id.Index + 1) * 2 ^ id.Level ≤ N :=
  rangeNodesFrom_complete N 64 0 (by rw [Nat.div_eq_of_lt hN]; simp)

theorem rangeNodesFrom_eq_nil (N : Nat) : ∀ (b pos : Nat), N % 2 ^ b = 0 →
    rangeNodesFrom b pos N = [] := by
  intro b
  induction b with
  | zero => intro pos _; rfl
  | succ b ih =>
    intro pos h0
    rw [rangeNodesFrom]
    by_cases hb : N.testBit b = true
    · have := mod_two_pow_succ_of_testBit N b hb
      have := Nat.two_pow_pos b
      omega
    · rw [if_neg hb]
      exact ih pos (by rw [← mod_two_pow_succ_of_not_testBit N b hb]; exact h0)

theorem rangeNodesFrom_ne_nil (N : Nat) : ∀ (b pos : Nat), N % 2 ^ b ≠ 0 →
    rangeNodesFrom b pos N ≠ [] := by
  intro b
  induction b with
  | zero => intro pos h0; simp [Nat.mod_one] at h0
  | succ b ih =>
    intro pos h0
    rw [rangeNodesFrom]
    by_cases hb : N.testBit b = true
    · rw [if_pos hb]; simp
    · rw [if_neg hb]
      exact ih pos (by rw [← mod_two_pow_succ_of_not_testBit N b hb]; exact h0)

theorem foldRange_cons_of_ne_nil {α : Type} (hash : HashFn) (visit : NodeID → Bytes → α → α)
    (size : Nat) (x : NodeID × Bytes) (l : List (NodeID × Bytes)) (hl : l ≠ []) (a : α) :
    foldRange hash visit size (x :: l) a =
      (hash x.2 (foldRange hash visit size l a).1,
        if (x.1.Index * 2 ^ x.1.Level) >>> (x.1.Level + 1) * 2 ^ (x.1.Level + 1)
            + 2 ^ (x.1.Level + 1) > size then
          visit ⟨x.1.Level + 1, (x.1.Index * 2 ^ x.1.Level) >>> (x.1.Level + 1)⟩
            (hash x.2 (foldRange hash visit size l a).1) (foldRange hash visit size l a).2
        else (foldRange hash visit size l a).2) := by
  cases l with
  | nil => exact absurd rfl hl
  | cons y rest => obtain ⟨id, hx⟩ := x; rfl

theorem foldRange_rangeNodes {σ : Type} (h : LogHasher) (leaves : List Bytes)
    (nc : NodeCache σ) : ∀ (b pos : Nat), b ≤ 64 →
    pos = leaves.length / 2 ^ b * 2 ^ b →
    (leaves.length % 2 ^ b ≠ 0 →
      (foldRange h.HashChildren NodeCache.SetEphemeralNode leaves.length
        ((rangeNodesFrom b pos leaves.length).zip
          ((rangeNodesFrom b pos leaves.length).map (nodeHash h leaves))) nc).1
        = merkleTreeHash h (leafRange leaves pos (leaves.length % 2 ^ b))) ∧
    (foldRange h.HashChildren NodeCache.SetEphemeralNode leaves.length
        ((rangeNodesFrom b pos leaves.length).zip
          ((rangeNodesFrom b pos leaves.length).map (nodeHash h leaves))) nc).2.tiles = nc.tiles ∧
    (foldRange h.HashChildren NodeCache.SetEphemeralNode leaves.length
        ((rangeNodesFrom b pos leaves.length).zip
          ((rangeNodesFrom b pos leaves.length).map (nodeHash h leaves))) nc).2.getTile
        = nc.getTile ∧
    (∀ id e, (foldRange h.HashChildren NodeCache.SetEphemeralNode leaves.length
        ((rangeNodesFrom b pos leaves.length).zip
          ((rangeNodesFrom b pos leaves.length).map (nodeHash h leaves))) nc).2.ephemeral id
        = some e → nc.ephemeral id = some e ∨ e = nodeHash h leaves id) ∧
    (∀ b1, b1 < b → leaves.length.testBit b1 = true → leaves.length % 2 ^ b1 ≠ 0 →
      (foldRange h.HashChildren NodeCache.SetEphemeralNode leaves.length
        ((rangeNodesFrom b pos leaves.length).zip
          ((rangeNodesFrom b pos leaves.length).map (nodeHash h leaves))) nc).2.ephemeral
          ⟨b1 + 1, leaves.length / 2 ^ (b1 + 1)⟩
        = some (nodeHash h leaves ⟨b1 + 1, leaves.length / 2 ^ (b1 + 1)⟩)) := by
  intro b
  induction b with
  | zero =>
    intro pos _ _
    refine ⟨fun h0 => absurd (Nat.mod_one _) h0, rfl, rfl, fun id e he => Or.inl he, ?_⟩
    intro b1 hb1; omega
  | succ b ih =>
    intro pos hb64 hpos
    by_cases hb : leaves.length.testBit b = true
    · -- the bit is set: a perfect subtree of `2^b` leaves starts at `pos`
      obtain ⟨ih1, ih2, ih3, ih4, ih5⟩ := ih (pos + 2 ^ b) (by omega)
        (by rw [hpos]; exact pos_succ_of_testBit _ b hb)
      have hmod := mod_two_pow_succ_of_testBit _ b hb
      have hidx : (pos >>> b) * 2 ^ b = pos := by
        rw [hpos, pos_shiftRight, pow_succ]; ring
      have hhead : nodeHash h leaves ⟨b, pos >>> b⟩ =
          merkleTreeHash h (leafRange leaves pos (2 ^ b)) := by
        simp only [nodeHash, hidx]
      have hposN : pos + leaves.length % 2 ^ (b + 1) = leaves.length := by
        rw [hpos]; exact Nat.div_add_mod' _ _
      rw [rangeNodesFrom, if_pos hb]
      simp only [List.map_cons, List.zip_cons_cons]
      by_cases hlow : leaves.length % 2 ^ b = 0
      · -- nothing below: the subtree is the whole rest of the log
        have hnil := rangeNodesFrom_eq_nil leaves.length b (pos + 2 ^ b) hlow
        rw [hnil] at ih5 ⊢
        simp only [List.map_nil, List.zip_nil_right, foldRange] at ih5
        refine ⟨fun _ => ?_, rfl, rfl, fun id e he => Or.inl he, ?_⟩
        · show nodeHash h leaves ⟨b, pos >>> b⟩ = _
          rw [hhead, hmod, hlow, Nat.add_zero]
        · intro b1 hb1 hbit hne
          rcases Nat.lt_or_ge b1 b with hlt | hge
          · exact ih5 b1 hlt hbit hne
          · have : b1 = b := by omega
            subst this
            exact absurd hlow hne
      · -- an ephemeral node joins the perfect subtree and the rest of the log
        have hne := rangeNodesFrom_ne_nil leaves.length b (pos + 2 ^ b) hlow
        have hzne : (rangeNodesFrom b (pos + 2 ^ b) leaves.length).zip
            ((rangeNodesFrom b (pos + 2 ^ b) leaves.length).map (nodeHash h leaves)) ≠ [] := by
          obtain ⟨y, ys, hy⟩ := List.exists_cons_of_ne_nil hne
          rw [hy]; simp
        rw [foldRange_cons_of_ne_nil _ _ _ _ _ hzne]
        simp only
        have hidx2 : (pos >>> b * 2 ^ b) >>> (b + 1) = leaves.length / 2 ^ (b + 1) := by
          rw [hidx, hpos, Nat.shiftRight_eq_div_pow]
          exact Nat.mul_div_cancel _ (Nat.two_pow_pos _)
        have hcond : leaves.length / 2 ^ (b + 1) * 2 ^ (b + 1) + 2 ^ (b + 1) > leaves.length :=
          Nat.lt_div_mul_add (Nat.two_pow_pos _)
        rw [hidx2, if_pos hcond, ih1 hlow, hhead]
        have hlowlt : leaves.length % 2 ^ b < 2 ^ b := Nat.mod_lt _ (Nat.two_pow_pos _)
        have hlev : subtreeLevel (leaves.length % 2 ^ (b + 1)) = b + 1 := by
          apply subtreeLevel_eq _ _ hb64
          · simp only [Nat.add_sub_cancel]; omega
          · rw [hmod, pow_succ]; omega
        have hsplitPoint : splitPoint (leaves.length % 2 ^ (b + 1)) = 2 ^ b := by
          unfold splitPoint; rw [hlev]; rfl
        have hroot : h.HashChildren (merkleTreeHash h (leafRange leaves pos (2 ^ b)))
            (merkleTreeHash h (leafRange leaves (pos + 2 ^ b) (leaves.length % 2 ^ b)))
            = merkleTreeHash h (leafRange leaves pos (leaves.length % 2 ^ (b + 1))) := by
          have hpos2 := Nat.two_pow_pos b
          rw [merkleTreeHash_leafRange_split h leaves pos (leaves.length % 2 ^ (b + 1)) (by omega)
            (by omega), hsplitPoint]
          congr 3
          omega
        have hnew : nodeHash h leaves ⟨b + 1, leaves.length / 2 ^ (b + 1)⟩
            = merkleTreeHash h (leafRange leaves pos (leaves.length % 2 ^ (b + 1))) := by
          simp only [nodeHash, ← hpos]
          exact congrArg _ (leafRange_to_end leaves pos _ _ (by omega) (by omega))
        rw [hroot]
        refine ⟨fun _ => rfl, ih2, ih3, ?_, ?_⟩
        · intro id e he
          simp only [NodeCache.SetEphemeralNode] at he
          split at he
          · rename_i hid
            right
            simp only [Option.some.injEq] at he
            rw [← he, hid, hnew]
          · exact ih4 id e he
        · intro b1 hb1 hbit hne1
          simp only [NodeCache.SetEphemeralNode]
          rcases Nat.lt_or_ge b1 b with hlt | hge
          · rw [if_neg (by simp; omega)]
            exact ih5 b1 hlt hbit hne1
          · have : b1 = b := by omega
            subst this
            rw [if_pos rfl, hnew]
    · -- the bit is clear: same subtree, one level down
      obtain ⟨ih1, ih2, ih3, ih4, ih5⟩ := ih pos (by omega)
        (by rw [hpos]; exact pos_succ_of_not_testBit _ b hb)
      rw [rangeNodesFrom, if_neg hb, mod_two_pow_succ_of_not_testBit _ b hb]
      refine ⟨ih1, ih2, ih3, ih4, ?_⟩
      intro b1 hb1 hbit hne1
      rcases Nat.lt_or_ge b1 b with hlt | hge
      · exact ih5 b1 hlt hbit hne1
      · have : b1 = b := by omega
        subst this
        exact absurd hbit hb

theorem CacheOK_new {σ : Type} (env : Env) (h : LogHasher) (f : FetcherFunc σ)
    (leaves : List Bytes) : CacheOK env h f leaves (NewNodeCache (newTileFetcher env f)) :=
  ⟨rfl, fun _ _ _ ht => by simp [NewNodeCache] at ht, fun _ _ he => by simp [NewNodeCache] at he⟩

/-- Over a correctly tiled, non-empty log, `NewProofBuilder` succeeds for the checkpoint of
the log, and the builder's cache holds the ephemeral nodes. -/
theorem NewProofBuilder_ok {σ : Type} (env : Env) (h : LogHasher) (f : FetcherFunc σ)
    (leaves : List Bytes) (cp : Checkpoint) (w : World σ)
    (hpos : 0 < leaves.length) (hN : leaves.length < 2 ^ 64)
    (hsize : cp.Size = leaves.length) (hroot : cp.Hash = merkleTreeHash h leaves)
    (htiled : CorrectlyTiled env h f leaves) :
    ∃ pb w1, NewProofBuilder env cp h.HashChildren f w = (.ok pb, w1) ∧ pb.cp = cp ∧
      CacheOK env h f leaves pb.nodeCache ∧ FrontierCached h leaves pb.nodeCache := by
  obtain ⟨nc1, w1, hget, hok1, _⟩ := getNodes_ok env h f leaves htiled (fun err => err)
    (RangeNodes leaves.length) (NewNodeCache (newTileFetcher env f))
    (CacheOK_new env h f leaves)
    (fun id hid => Or.inl (RangeNodes_complete leaves.length hN id hid)) w
  obtain ⟨f1, f2, f3, f4, f5⟩ := foldRange_rangeNodes h leaves nc1 64 0 (le_refl _)
    (by rw [Nat.div_eq_of_lt hN]; simp)
  have hmod : leaves.length % 2 ^ 64 = leaves.length := Nat.mod_eq_of_lt hN
  rw [hmod, leafRange_whole] at f1
  have f1' := f1 (by omega)
  refine ⟨⟨cp, (foldRange h.HashChildren NodeCache.SetEphemeralNode leaves.length
    ((RangeNodes leaves.length).zip ((RangeNodes leaves.length).map (nodeHash h leaves))) nc1).2,
    h.HashChildren⟩, w1, ?_, rfl, ⟨?_, ?_, ?_⟩, ?_⟩
  · unfold NewProofBuilder FetchRangeNodes
    rw [hsize, hget]
    have hrange : NewRange h.HashChildren 0 leaves.length
        ((RangeNodes leaves.length).map (nodeHash h leaves))
        = .ok ⟨h.HashChildren, 0, leaves.length, (RangeNodes leaves.length).map (nodeHash h leaves)⟩ := by
      simp [NewRange, RangeNodes_length]
    simp only [hrange, Range.GetRootHash, ne_eq, not_true_eq_false, if_false]
    rw [show RangeNodes leaves.length = rangeNodesFrom 64 0 leaves.length from rfl, f1', hroot]
    simp
  · exact f3.trans hok1.getTile
  · intro tl ti t ht
    rw [show RangeNodes leaves.length = rangeNodesFrom 64 0 leaves.length from rfl, f2] at ht
    exact hok1.tiles tl ti t ht
  · intro id e he
    rcases f4 id e he with h1 | h2
    · exact hok1.ephemeral id e h1
    · exact h2
  · intro b hb hbit hne
    exact f5 b hb hbit hne

theorem inclusionPath_legal (N : Nat) (h64 : N ≤ 2 ^ 64) : ∀ (fuel start m n : Nat),
    LegalSubtree N start n → ∀ id ∈ inclusionPath fuel start m n,
      ∃ s1 n1, LegalSubtree N s1 n1 ∧ id = subtreeID s1 n1 := by
  intro fuel
  induction fuel with
  | zero => intro start m n _ id hid; simp [inclusionPath] at hid
  | succ fuel ih =>
    intro start m n hl id hid
    rw [inclusionPath] at hid
    split at hid
    · simp at hid
    · rename_i hn
      split at hid
      · rcases List.mem_append.mp hid with h1 | h2
        · exact ih _ _ _ (hl.left (by omega) h64) id h1
        · simp only [List.mem_singleton] at h2
          exact ⟨_, _, hl.right (by omega) h64, h2⟩
      · rcases List.mem_append.mp hid with h1 | h2
        · exact ih _ _ _ (hl.right (by omega) h64) id h1
        · simp only [List.mem_singleton] at h2
          exact ⟨_, _, hl.left (by omega) h64, h2⟩

/-- The node of a legal subtree can be resolved: it is complete when the subtree is perfect
and it is one of the cached ephemeral nodes otherwise. -/
theorem LegalSubtree.available {σ : Type} (h : LogHasher) (leaves : List Bytes)
    (nc : NodeCache σ) (h64 : leaves.length ≤ 2 ^ 64)
    (hne : ∀ l r, h.HashChildren l r ≠ []) (hfront : FrontierCached h leaves nc)
    (start n : Nat) (hl : LegalSubtree leaves.length start n) :
    Available nc leaves.length (subtreeID start n) := by
  have hl' := hl
  obtain ⟨h1, hle, ⟨a, ha⟩, hpe⟩ := hl
  have hLpos := Nat.two_pow_pos (subtreeLevel n)
  have hidx : start >>> subtreeLevel n = a := by
    rw [Nat.shiftRight_eq_div_pow, ha]
    exact Nat.mul_div_cancel_left _ hLpos
  by_cases hp : n = 2 ^ subtreeLevel n
  · left
    simp only [subtreeID, hidx]
    have : (a + 1) * 2 ^ subtreeLevel n = 2 ^ subtreeLevel n * a + 2 ^ subtreeLevel n := by ring
    omega
  · right
    have hedge : start + n = leaves.length := by
      rcases hpe with h | h
      · exact absurd h hp
      · exact h
    have hn2 : 2 ≤ n := by
      by_contra hlt
      have : n = 1 := by omega
      subst this
      exact hp (by simp [subtreeLevel_one])
    have hs := subtreeLevel_spec n hn2 (by omega)
    have hhash := nodeHash_subtreeID h leaves start n h64 hl'
    rw [merkleTreeHash_leafRange_split h leaves start n hn2 hle] at hhash
    refine ⟨nodeHash h leaves (subtreeID start n), ?_, by rw [hhash]; exact hne _ _⟩
    -- the node is the ephemeral node of bit `L - 1`
    obtain ⟨b, hb⟩ : ∃ b, subtreeLevel n = b + 1 := ⟨subtreeLevel n - 1, by omega⟩
    have hlo : 2 ^ b < n := by
      have := hs.2.2.1
      rw [hb] at this
      simpa using this
    have hhi : n < 2 ^ (b + 1) := by
      have := hs.2.2.2
      rw [hb] at this hp
      omega
    have hb64 : b + 1 ≤ 64 := by omega
    rw [hb] at ha hidx
    have hdiv : leaves.length / 2 ^ (b + 1) = a := by
      rw [← hedge, ha, Nat.mul_add_div (Nat.two_pow_pos _), Nat.div_eq_of_lt hhi]
      simp
    have hid : subtreeID start n = ⟨b + 1, leaves.length / 2 ^ (b + 1)⟩ := by
      show (⟨subtreeLevel n, start >>> subtreeLevel n⟩ : NodeID) = _
      rw [hb, hidx, hdiv]
    rw [hid]
    clear hs hhash hid hl' hidx hp hpe hLpos
    have hbpos := Nat.two_pow_pos b
    have hN : leaves.length = 2 ^ b * (2 * a + 1) + (n - 2 ^ b) := by
      rw [← hedge, ha, pow_succ]
      have : 2 ^ b * 2 * a + n = 2 ^ b * (2 * a + 1) + (n - 2 ^ b) := by
        have : 2 ^ b * (2 * a + 1) = 2 ^ b * 2 * a + 2 ^ b := by ring
        omega
      exact this
    have hlt : n - 2 ^ b < 2 ^ b := by rw [pow_succ] at hhi; omega
    apply hfront b (by omega)
    · rw [testBit_iff_div_odd, hN, Nat.mul_add_div hbpos, Nat.div_eq_of_lt hlt]
      omega
    · rw [hN, Nat.mul_add_mod, Nat.mod_eq_of_lt hlt]
      omega

theorem toInt64_of_lt (n : Nat) (hn : n < 2 ^ 63) : toInt64 n = (n : Int) := by
  unfold toInt64
  have : n % 2 ^ 64 = n := Nat.mod_eq_of_lt (by omega)
  rw [this, if_pos hn]

/-- Over a correctly tiled log, a builder whose cache is sound and holds the ephemeral nodes
returns for every leaf the hashes of the nodes of its RFC 6962 audit path, and stays so. -/
theorem InclusionProof_ok {σ : Type} (env : Env) (h : LogHasher) (f : FetcherFunc σ)
    (leaves : List Bytes) (pb : ProofBuilder σ) (hN : leaves.length < 2 ^ 63)
    (hsize : pb.cp.Size = leaves.length) (htiled : CorrectlyTiled env h f leaves)
    (hne : ∀ l r, h.HashChildren l r ≠ []) (hok : CacheOK env h f leaves pb.nodeCache)
    (hfront : FrontierCached h leaves pb.nodeCache) (i : Nat) (hi : i < leaves.length)
    (w : World σ) :
    ∃ pb2 w2, pb.InclusionProof i w =
        (.ok ((inclusionPath 64 0 i leaves.length).map (nodeHash h leaves)), pb2, w2) ∧
      pb2.cp = pb.cp ∧ CacheOK env h f leaves pb2.nodeCache ∧
      FrontierCached h leaves pb2.nodeCache := by
  have h64 : leaves.length ≤ 2 ^ 64 := by omega
  have hlegal : LegalSubtree leaves.length 0 leaves.length :=
    ⟨by omega, by omega, Nat.dvd_zero _, Or.inr (by omega)⟩
  have hav : ∀ id ∈ inclusionPath 64 0 i leaves.length,
      Available pb.nodeCache leaves.length id := by
    intro id hid
    obtain ⟨s1, n1, hl1, rfl⟩ := inclusionPath_legal leaves.length h64 64 0 i leaves.length hlegal id hid
    exact hl1.available h leaves pb.nodeCache h64 hne hfront s1 n1
  obtain ⟨nc1, w1, hget, hok1, heph1⟩ := getNodes_ok env h f leaves htiled
    (fun err => Error.wrap "failed to get node" err) (inclusionPath 64 0 i leaves.length)
    pb.nodeCache hok hav w
  have hcalc : CalcInclusionProofNodeAddresses (toInt64 pb.cp.Size) (toInt64 i)
      (toInt64 pb.cp.Size) =
      .ok ((inclusionPath 64 0 i leaves.length).map (fun id => ⟨id, false⟩)) := by
    rw [hsize, toInt64_of_lt _ hN, toInt64_of_lt i (by omega)]
    unfold CalcInclusionProofNodeAddresses
    rw [if_neg (by omega)]
    simp
  refine ⟨{ pb with nodeCache := nc1 }, w1, ?_, rfl, hok1, ?_⟩
  · unfold ProofBuilder.InclusionProof
    rw [hcalc]
    simp only [List.map_map, hsize]
    have : ((fun n : NodeFetch => n.ID) ∘ fun id => (⟨id, false⟩ : NodeFetch)) = id := by
      funext x; rfl
    rw [this, List.map_id, hget]
  · intro b hb hbit hne1
    show nc1.ephemeral _ = _
    rw [heph1]
    exact hfront b hb hbit hne1

/-- The inclusion verifier accepts the hashes of the audit path of a leaf against the Merkle
tree hash of the log. -/
theorem VerifyInclusion_inclusionPath (h : LogHasher) (leaves : List Bytes)
    (h64 : leaves.length ≤ 2 ^ 64) (i : Nat) (hi : i < leaves.length) :
    VerifyInclusion h i leaves.length
      ((inclusionPath 64 0 i leaves.length).map (nodeHash h leaves))
      (merkleTreeHash h leaves) (h.HashLeaf (leaves.get ⟨i, hi⟩)) = .ok () := by
  have hlegal : LegalSubtree leaves.length 0 leaves.length :=
    ⟨by omega, by omega, Nat.dvd_zero _, Or.inr (by omega)⟩
  have hlev : subtreeLevel leaves.length ≤ 64 := bitLenAux_le 64 _
  have hloop := verifyInclusionLoop_inclusionPath h leaves h64 64 0 i leaves.length hlegal hi hlev
  rw [Nat.zero_add, leafRange_one leaves i hi, merkleTreeHash_singleton, leafRange_whole,
    Nat.zero_div] at hloop
  have hsn : (leaves.length - 1) / 2 ^ subtreeLevel leaves.length = 0 := by
    apply Nat.div_eq_of_lt
    have := le_two_pow_subtreeLevel leaves.length h64
    omega
  unfold VerifyInclusion
  rw [if_neg (by omega), hloop]
  simp [hsn]

/-- Claim C10: for every correctly tiled log (of a size that fits `int64`, hashed with a
hasher whose interior hashes are not empty) with its checkpoint, `NewProofBuilder` succeeds
and, for every leaf index `i` below the size, `InclusionProof(i)` returns a hash list that the
RFC 6962 inclusion verifier accepts for `(i, N, cp root, HashLeaf(leaf_i))`; for the two-leaf
log the proof for index 0 is `[HashLeaf(b)]` and for index 1 is `[HashLeaf(a)]`. -/
theorem InclusionProof_accepted {σ : Type} (env : Env) (h : LogHasher) (f : FetcherFunc σ)
    (leaves : List Bytes) (cp : Checkpoint) (w : World σ)
    (hN : leaves.length < 2 ^ 63) (hne : ∀ l r, h.HashChildren l r ≠ [])
    (hsize : cp.Size = leaves.length) (hroot : cp.Hash = merkleTreeHash h leaves)
    (htiled : CorrectlyTiled env h f leaves) (i : Nat) (hi : i < leaves.length) :
    ∃ pb w1, NewProofBuilder env cp h.HashChildren f w = (.ok pb, w1) ∧
      ∀ w2 : World σ, ∃ proof pb2 w3, pb.InclusionProof i w2 = (.ok proof, pb2, w3) ∧
        VerifyInclusion h i leaves.length proof cp.Hash (h.HashLeaf (leaves.get ⟨i, hi⟩))
          = .ok () ∧
        (∀ a b, leaves = [a, b] →
          (i = 0 → proof = [h.HashLeaf b]) ∧ (i = 1 → proof = [h.HashLeaf a])) := by
  obtain ⟨pb, w1, hpb, hcp, hok, hfront⟩ := NewProofBuilder_ok env h f leaves cp w
    (by omega) (by omega) hsize hroot htiled
  refine ⟨pb, w1, hpb, ?_⟩
  intro w2
  obtain ⟨pb2, w3, hproof, _, _, _⟩ := InclusionProof_ok env h f leaves pb hN
    (by rw [hcp, hsize]) htiled hne hok hfront i hi w2
  refine ⟨_, pb2, w3, hproof, ?_, ?_⟩
  · rw [hroot]
    exact VerifyInclusion_inclusionPath h leaves (by omega) i hi
  · intro a b hab
    subst hab
    constructor
    · intro h0
      subst h0
      have hlen : [a, b].length = 2 := rfl
      have : inclusionPath 64 0 0 2 = [⟨0, 1⟩] := by decide
      rw [hlen, this]
      simp [nodeHash, leafRange, merkleTreeHash, merkleTreeHashAux]
    · intro h1
      subst h1
      have hlen : [a, b].length = 2 := rfl
      have : inclusionPath 64 0 1 2 = [⟨0, 0⟩] := by decide
      rw [hlen, this]
      simp [nodeHash, leafRange, merkleTreeHash, merkleTreeHashAux]

theorem sampleHasher_nonempty : ∀ l r, sampleHasher.HashChildren l r ≠ [] := by
  intro l r
  simp [sampleHasher, pad32]

theorem twoLeafLog_tile_correct :
    ∀ t, Tile.UnmarshalText tileTwoLeaves = .ok t →
      TileCorrect sampleHasher [bytesOf "a", bytesOf "b"] 0 0 t := by
  intro t ht level index hc _ _
  have hlevel : level ≤ 1 := by
    by_contra hlt
    have : 2 ^ 2 ≤ 2 ^ level := Nat.pow_le_pow_right (by decide) (by omega)
    have : 1 * 2 ^ level ≤ (index + 1) * 2 ^ level := Nat.mul_le_mul_right _ (by omega)
    simp at hc
    omega
  have ht' : t = ⟨[(0, sampleHasher.HashLeaf (bytesOf "a")), (1, sampleHasher.HashLeaf (bytesOf "b")),
      (256, merkleTreeHash sampleHasher [bytesOf "a", bytesOf "b"])]⟩ := by
    have : Tile.UnmarshalText tileTwoLeaves = .ok ⟨[(0, sampleHasher.HashLeaf (bytesOf "a")),
      (1, sampleHasher.HashLeaf (bytesOf "b")),
      (256, merkleTreeHash sampleHasher [bytesOf "a", bytesOf "b"])]⟩ := by decide
    rw [this] at ht
    exact (Except.ok.inj ht).symm
  subst ht'
  interval_cases level
  · have hindex : index ≤ 1 := by simp at hc; omega
    interval_cases index <;> decide
  · have hindex : index = 0 := by simp at hc; omega
    subst hindex
    decide

theorem twoLeafLog_correctlyTiled :
    CorrectlyTiled specEnv sampleHasher twoLeafLog [bytesOf "a", bytesOf "b"] := by
  intro level index s hc
  have hlevel : level ≤ 1 := by
    by_contra hlt
    have : 2 ^ 2 ≤ 2 ^ level := Nat.pow_le_pow_right (by decide) (by omega)
    have : 1 * 2 ^ level ≤ (index + 1) * 2 ^ level := Nat.mul_le_mul_right _ (by omega)
    simp at hc
    omega
  have hcoords : (NodeCoordsToTileAddress level index).1 = 0 ∧
      (NodeCoordsToTileAddress level index).2.1 = 0 := by
    interval_cases level
    · have hindex : index ≤ 1 := by simp at hc; omega
      interval_cases index <;> decide
    · have hindex : index = 0 := by simp at hc; omega
      subst hindex
      decide
  rw [hcoords.1, hcoords.2]
  have ht : Tile.UnmarshalText tileTwoLeaves = .ok ⟨[(0, sampleHasher.HashLeaf (bytesOf "a")),
      (1, sampleHasher.HashLeaf (bytesOf "b")),
      (256, merkleTreeHash sampleHasher [bytesOf "a", bytesOf "b"])]⟩ := by decide
  cases s
  exact ⟨tileTwoLeaves, _, rfl, ht, twoLeafLog_tile_correct _ ht⟩

/-- Claim C10, witness: the two-leaf log `["a", "b"]` and its leaf 0. -/
theorem InclusionProof_accepted_witness :
    ∃ pb w1, NewProofBuilder specEnv
        ⟨"log", 2, merkleTreeHash sampleHasher [bytesOf "a", bytesOf "b"], []⟩
        sampleHasher.HashChildren twoLeafLog freshWorld = (.ok pb, w1) ∧
      ∀ w2 : World Unit, ∃ proof pb2 w3, pb.InclusionProof 0 w2 = (.ok proof, pb2, w3) ∧
        VerifyInclusion sampleHasher 0 2 proof (merkleTreeHash sampleHasher [bytesOf "a", bytesOf "b"])
          (sampleHasher.HashLeaf (bytesOf "a")) = .ok () ∧
        (∀ a b, [bytesOf "a", bytesOf "b"] = [a, b] →
          ((0 : Nat) = 0 → proof = [sampleHasher.HashLeaf b]) ∧
          ((0 : Nat) = 1 → proof = [sampleHasher.HashLeaf a])) :=
  InclusionProof_accepted specEnv sampleHasher twoLeafLog [bytesOf "a", bytesOf "b"]
    ⟨"log", 2, merkleTreeHash sampleHasher [bytesOf "a", bytesOf "b"], []⟩ freshWorld
    (by decide) sampleHasher_nonempty rfl rfl twoLeafLog_correctlyTiled 0 (by decide)

/-! ## Consistency proofs, construction and the node cache -/

/-- When the tree read has the size of the second snapshot, the node list is the RFC 6962
list, no node marked for rehashing. -/
theorem consistencyNodes_no_rehash (fuel : Nat) : ∀ (start m n : Nat) (b : Bool),
    consistencyNodes fuel start m n b false
      = (consistencySubproof fuel start m n b).map (fun id => ⟨id, false⟩) := by
  induction fuel with
  | zero => intro start m n b; rfl
  | succ f ih =>
    intro start m n b
    rw [consistencyNodes, consistencySubproof]
    by_cases hmn : m = n
    · rw [if_pos hmn, if_pos hmn]
      cases b <;> rfl
    · rw [if_neg hmn, if_neg hmn]
      by_cases hk : m ≤ splitPoint n
      · rw [if_pos hk, if_pos hk, ih, List.map_append]
        simp [borderNodes]
      · rw [if_neg hk, if_neg hk, ih, List.map_append]
        rfl

/-- The node lists of the model for consistency proofs in a tree of the size of the second
snapshot: the lists of RFC 6962, the node over the leaves `[4, 7)` being `(2, 1)`. -/
theorem CalcConsistencyProofNodeAddresses_samples :
    CalcConsistencyProofNodeAddresses 1 2 2 = .ok [⟨⟨0, 1⟩, false⟩] ∧
    CalcConsistencyProofNodeAddresses 1 4 4 = .ok [⟨⟨0, 1⟩, false⟩, ⟨⟨1, 1⟩, false⟩] ∧
    CalcConsistencyProofNodeAddresses 1 6 6
      = .ok [⟨⟨0, 1⟩, false⟩, ⟨⟨1, 1⟩, false⟩, ⟨⟨1, 2⟩, false⟩] ∧
    CalcConsistencyProofNodeAddresses 2 3 3 = .ok [⟨⟨0, 2⟩, false⟩] ∧
    CalcConsistencyProofNodeAddresses 2 8 8 = .ok [⟨⟨1, 1⟩, false⟩, ⟨⟨2, 1⟩, false⟩] ∧
    CalcConsistencyProofNodeAddresses 3 7 7
      = .ok [⟨⟨0, 2⟩, false⟩, ⟨⟨0, 3⟩, false⟩, ⟨⟨1, 0⟩, false⟩, ⟨⟨2, 1⟩, false⟩] ∧
    CalcConsistencyProofNodeAddresses 4 7 7 = .ok [⟨⟨2, 1⟩, false⟩] ∧
    CalcConsistencyProofNodeAddresses 5 7 7
      = .ok [⟨⟨0, 4⟩, false⟩, ⟨⟨0, 5⟩, false⟩, ⟨⟨0, 6⟩, false⟩, ⟨⟨2, 0⟩, false⟩] ∧
    CalcConsistencyProofNodeAddresses 6 7 7
      = .ok [⟨⟨1, 2⟩, false⟩, ⟨⟨0, 6⟩, false⟩, ⟨⟨2, 0⟩, false⟩] ∧
    CalcConsistencyProofNodeAddresses 7 8 8
      = .ok [⟨⟨0, 6⟩, false⟩, ⟨⟨0, 7⟩, false⟩, ⟨⟨1, 2⟩, false⟩, ⟨⟨2, 0⟩, false⟩] := by
  refine ⟨?_, ?_, ?_, ?_, ?_, ?_, ?_, ?_, ?_, ?_⟩ <;> decide

/-- The node lists of the model for a second snapshot below the size of the tree read: a
node that is complete in the snapshot stays as it is; the node over the leaves `[4, 7)` is
replaced by the nodes `(0, 6)` and `(1, 2)`, marked for rehashing. -/
theorem CalcConsistencyProofNodeAddresses_rehash_samples :
    CalcConsistencyProofNodeAddresses 2 4 7 = .ok [⟨⟨1, 1⟩, false⟩] ∧
    CalcConsistencyProofNodeAddresses 3 5 7
      = .ok [⟨⟨0, 2⟩, false⟩, ⟨⟨0, 3⟩, false⟩, ⟨⟨1, 0⟩, false⟩, ⟨⟨0, 4⟩, false⟩] ∧
    CalcConsistencyProofNodeAddresses 3 6 7
      = .ok [⟨⟨0, 2⟩, false⟩, ⟨⟨0, 3⟩, false⟩, ⟨⟨1, 0⟩, false⟩, ⟨⟨1, 2⟩, false⟩] ∧
    CalcConsistencyProofNodeAddresses 4 6 8 = .ok [⟨⟨1, 2⟩, false⟩] ∧
    CalcConsistencyProofNodeAddresses 6 7 8
      = .ok [⟨⟨1, 2⟩, false⟩, ⟨⟨0, 6⟩, false⟩, ⟨⟨2, 0⟩, false⟩] ∧
    CalcConsistencyProofNodeAddresses 1 7 8
      = .ok [⟨⟨0, 1⟩, false⟩, ⟨⟨1, 1⟩, false⟩, ⟨⟨0, 6⟩, true⟩, ⟨⟨1, 2⟩, true⟩] ∧
    CalcConsistencyProofNodeAddresses 3 7 8
      = .ok [⟨⟨0, 2⟩, false⟩, ⟨⟨0, 3⟩, false⟩, ⟨⟨1, 0⟩, false⟩, ⟨⟨0, 6⟩, true⟩,
          ⟨⟨1, 2⟩, true⟩] := by
  refine ⟨?_, ?_, ?_, ?_, ?_, ?_, ?_⟩ <;> decide

/-- The inputs the model refuses, and equal snapshots. -/
theorem CalcConsistencyProofNodeAddresses_refused :
    CalcConsistencyProofNodeAddresses 0 2 2
      = .error (.other "invalid parameter for consistency proof") ∧
    CalcConsistencyProofNodeAddresses 0 0 2
      = .error (.other "invalid parameter for consistency proof") ∧
    CalcConsistencyProofNodeAddresses (-1) (-1) 2
      = .error (.other "invalid parameter for consistency proof") ∧
    CalcConsistencyProofNodeAddresses 9 8 9
      = .error (.other "invalid parameter for consistency proof") ∧
    CalcConsistencyProofNodeAddresses 2 8 7
      = .error (.other "invalid parameter for consistency proof") ∧
    CalcConsistencyProofNodeAddresses 1 1 1 = .ok [] ∧
    CalcConsistencyProofNodeAddresses 3 3 7 = .ok [] := by
  refine ⟨?_, ?_, ?_, ?_, ?_, ?_, ?_⟩ <;> decide

/-- Claim C11, as the spec words it, fails for `smaller == 0`: a builder for the two-leaf log,
asked for the proof `(0, 2)`, returns an error and no proof, because the node-address
calculation refuses a size below 1. -/
theorem ConsistencyProof_from_zero_counterexample :
    (ProofBuilder.ConsistencyProof specEnv
      (⟨⟨"log", 2, merkleTreeHash sampleHasher [bytesOf "a", bytesOf "b"], []⟩,
        NewNodeCache (newTileFetcher specEnv twoLeafLog), sampleHasher.HashChildren⟩ :
        ProofBuilder Unit) 0 2 freshWorld).1
      = .error (.wrap "failed to calculate consistency proof node list"
          (.other "invalid parameter for consistency proof")) ∧
    (ProofBuilder.ConsistencyProof specEnv
      (⟨⟨"log", 2, merkleTreeHash sampleHasher [bytesOf "a", bytesOf "b"], []⟩,
        NewNodeCache (newTileFetcher specEnv twoLeafLog), sampleHasher.HashChildren⟩ :
        ProofBuilder Unit) 0 2 freshWorld).1 ≠ .ok [] := by
  decide

/-- Claim C11, amended.  For a builder of a checkpoint of size `N` (a size that fits `int64`)
and sizes `smaller ≤ larger ≤ N`: whenever `smaller == larger` and `smaller ≥ 1`,
`ConsistencyProof(smaller, larger)` returns the empty proof and no error; whenever
`smaller == 0`, it returns the error of a failed node-list calculation.  In both cases no
node is resolved: the builder and the world are unchanged. -/
theorem ConsistencyProof_special_cases {σ : Type} (pb : ProofBuilder σ)
    (smaller larger : Nat) (w : World σ)
    (hN : pb.cp.Size < 2 ^ 63) (_hle : smaller ≤ larger) (hlarger : larger ≤ pb.cp.Size) :
    (smaller = larger → 1 ≤ smaller →
      pb.ConsistencyProof specEnv smaller larger w = (.ok [], pb, w)) ∧
    (smaller = 0 →
      pb.ConsistencyProof specEnv smaller larger w
        = (.error (.wrap "failed to calculate consistency proof node list"
            (.other "invalid parameter for consistency proof")), pb, w)) := by
  have hcalc : specEnv.CalcConsistencyProofNodeAddresses = CalcConsistencyProofNodeAddresses :=
    rfl
  refine ⟨?_, ?_⟩
  · intro heq hpos
    unfold ProofBuilder.ConsistencyProof
    rw [hcalc, toInt64_of_lt smaller (by omega), toInt64_of_lt larger (by omega),
      toInt64_of_lt _ hN]
    have hnodes : CalcConsistencyProofNodeAddresses (smaller : Int) (larger : Int)
        (pb.cp.Size : Int) = .ok [] := by
      unfold CalcConsistencyProofNodeAddresses
      rw [if_neg (by omega), if_pos (by omega)]
    rw [hnodes]
    rfl
  · intro hzero
    unfold ProofBuilder.ConsistencyProof
    rw [hcalc, toInt64_of_lt smaller (by omega), toInt64_of_lt larger (by omega),
      toInt64_of_lt _ hN]
    have hnodes : CalcConsistencyProofNodeAddresses (smaller : Int) (larger : Int)
        (pb.cp.Size : Int) = .error (.other "invalid parameter for consistency proof") := by
      unfold CalcConsistencyProofNodeAddresses
      rw [if_pos (by omega)]
    rw [hnodes]

/-- Claim C11, amended, witness: a builder for the two-leaf log, asked for the proofs `(2, 2)`
and `(0, 2)`. -/
theorem ConsistencyProof_special_cases_witness :
    ProofBuilder.ConsistencyProof specEnv
      (⟨⟨"log", 2, merkleTreeHash sampleHasher [bytesOf "a", bytesOf "b"], []⟩,
        NewNodeCache (newTileFetcher specEnv twoLeafLog), sampleHasher.HashChildren⟩ :
        ProofBuilder Unit) 2 2 freshWorld =
      (.ok [], ⟨⟨"log", 2, merkleTreeHash sampleHasher [bytesOf "a", bytesOf "b"], []⟩,
        NewNodeCache (newTileFetcher specEnv twoLeafLog), sampleHasher.HashChildren⟩,
        freshWorld) :=
  (ConsistencyProof_special_cases _ 2 2 freshWorld (by decide) (by decide) (by decide)).1
    rfl (by decide)

/-- Claim C12: `NewLogStateTracker` with a non-empty `checkpointRaw` that parses to `cp`
returns no error and the tracker that holds `checkpointRaw` and `cp`, in the world it was
called in (no fetch, no consultation of the verifier); with an empty `checkpointRaw` it
returns the tracker, the error and the world of one `Update` call on a tracker of size 0. -/
theorem NewLogStateTracker_spec {σ : Type} (env : Env) (f : FetcherFunc σ) (h : LogHasher)
    (checkpointRaw : Bytes) (cp : Checkpoint) (w : World σ)
    (hne : checkpointRaw ≠ [])
    (hparse : env.unmarshalCheckpoint checkpointRaw = .ok cp) :
    NewLogStateTracker env f h checkpointRaw w =
        (⟨h, logverifierNew h, f, checkpointRaw, cp⟩, none, w) ∧
      (NewLogStateTracker env f h checkpointRaw w).2.2.trace = w.trace ∧
      (∃ t0 : LogStateTracker σ, t0.LatestConsistent.Size = 0 ∧ t0.LatestConsistentRaw = [] ∧
        t0.Fetcher = f ∧ t0.Hasher = h ∧
        NewLogStateTracker env f h [] w =
          ((t0.Update env w).2.1, (t0.Update env w).1, (t0.Update env w).2.2)) := by
  have hlen : checkpointRaw.length > 0 := List.length_pos.mpr hne
  have h1 : NewLogStateTracker env f h checkpointRaw w =
      (⟨h, logverifierNew h, f, checkpointRaw, cp⟩, none, w) := by
    unfold NewLogStateTracker
    rw [if_pos hlen, hparse]
  refine ⟨h1, by rw [h1], ⟨h, logverifierNew h, f, [], Checkpoint.zero⟩, rfl, rfl, rfl, rfl, ?_⟩
  unfold NewLogStateTracker
  rw [if_neg (by simp)]

/-- Claim C12, witness: a tracker pinned to the checkpoint of size 5. -/
theorem NewLogStateTracker_spec_witness :
    NewLogStateTracker specEnv twoLeafLog sampleHasher rawSize5 freshWorld =
        (⟨sampleHasher, logverifierNew sampleHasher, twoLeafLog, rawSize5, cpSize5⟩, none,
          freshWorld) ∧
      (NewLogStateTracker specEnv twoLeafLog sampleHasher rawSize5 freshWorld).2.2.trace
        = freshWorld.trace ∧
      (∃ t0 : LogStateTracker Unit, t0.LatestConsistent.Size = 0 ∧ t0.LatestConsistentRaw = [] ∧
        t0.Fetcher = twoLeafLog ∧ t0.Hasher = sampleHasher ∧
        NewLogStateTracker specEnv twoLeafLog sampleHasher [] freshWorld =
          ((t0.Update specEnv freshWorld).2.1, (t0.Update specEnv freshWorld).1,
            (t0.Update specEnv freshWorld).2.2)) :=
  NewLogStateTracker_spec specEnv twoLeafLog sampleHasher rawSize5 cpSize5 freshWorld
    (by decide) (by decide)

/-- Claim C13, counterexample: after `SetEphemeralNode(id, h)` with the empty hash,
`GetNode(id, s)` does not return `h`: it asks for the node's tile and fails. -/
theorem GetNode_empty_ephemeral_counterexample :
    ((NodeCache.SetEphemeralNode ⟨0, 0⟩ [] (NewNodeCache missingTiles)).GetNode ⟨0, 0⟩ 1
        freshWorld).1 = .error (Error.wrap "failed to fetch tile" Error.notExist) ∧
    ((NodeCache.SetEphemeralNode ⟨0, 0⟩ [] (NewNodeCache missingTiles)).GetNode ⟨0, 0⟩ 1
        freshWorld).2.2.trace = [Event.fetch "tile/00/0000/00/00/00"] := by
  decide

/-- Claim C13, amended: for every cache, node, log size and world, after
`SetEphemeralNode(id, h)` with a non-empty `h`, `GetNode(id, s)` returns `h` without error,
leaving the cache and the world as they were (the tile fetcher is not called, whatever tiles
are cached); after a later `SetEphemeralNode(id, h')` with a non-empty `h'` it returns `h'`. -/
theorem GetNode_after_SetEphemeralNode {σ : Type} (nc : NodeCache σ) (id : NodeID)
    (h h' : Bytes) (s : Nat) (w : World σ) (hne : h ≠ []) (hne' : h' ≠ []) :
    (NodeCache.SetEphemeralNode id h nc).GetNode id s w =
        (.ok h, NodeCache.SetEphemeralNode id h nc, w) ∧
      (NodeCache.SetEphemeralNode id h' (NodeCache.SetEphemeralNode id h nc)).GetNode id s w =
        (.ok h', NodeCache.SetEphemeralNode id h' (NodeCache.SetEphemeralNode id h nc), w) := by
  have key : ∀ (c : NodeCache σ) (x : Bytes), x ≠ [] →
      (NodeCache.SetEphemeralNode id x c).GetNode id s w =
        (.ok x, NodeCache.SetEphemeralNode id x c, w) := by
    intro c x hx
    have hlen : x.length ≠ 0 := fun h0 => hx (List.length_eq_zero.mp h0)
    simp [NodeCache.GetNode, NodeCache.SetEphemeralNode, hlen]
  exact ⟨key nc h hne, key _ h' hne'⟩

/-- Claim C13, amended, witness: two hashes set in turn over a cache that finds no tile. -/
theorem GetNode_after_SetEphemeralNode_witness :
    (NodeCache.SetEphemeralNode ⟨3, 0⟩ [1] (NewNodeCache missingTiles)).GetNode ⟨3, 0⟩ 5
        freshWorld =
        (.ok [1], NodeCache.SetEphemeralNode ⟨3, 0⟩ [1] (NewNodeCache missingTiles), freshWorld) ∧
      (NodeCache.SetEphemeralNode ⟨3, 0⟩ [2]
        (NodeCache.SetEphemeralNode ⟨3, 0⟩ [1] (NewNodeCache missingTiles))).GetNode ⟨3, 0⟩ 5
        freshWorld =
        (.ok [2], NodeCache.SetEphemeralNode ⟨3, 0⟩ [2]
          (NodeCache.SetEphemeralNode ⟨3, 0⟩ [1] (NewNodeCache missingTiles)), freshWorld) :=
  GetNode_after_SetEphemeralNode (NewNodeCache missingTiles) ⟨3, 0⟩ [1] [2] 5 freshWorld
    (by decide) (by decide)

/-! ## Path layout -/

theorem hexLen_le (fuel : Nat) : ∀ v w, 0 < w → v < 16 ^ w → hexLen fuel v ≤ w := by
  induction fuel with
  | zero => intro v w hw _; simp [hexLen]; omega
  | succ f ih =>
    intro v w hw hv
    rw [hexLen]
    split
    · omega
    · rename_i h16
      cases w with
      | zero => omega
      | succ w =>
        rcases Nat.eq_zero_or_pos w with h0 | hpos
        · subst h0; simp at hv; omega
        · have : v / 16 < 16 ^ w := by
            rw [Nat.div_lt_iff_lt_mul (by decide)]
            rw [pow_succ] at hv; exact hv
          have := ih (v / 16) w hpos this
          omega

/-- A value that fits `width` hexadecimal digits is printed in exactly `width` digits. -/
theorem hexPad_eq_hexFixed (width v : Nat) (hw : 0 < width) (hv : v < 16 ^ width) :
    hexPad width v = hexFixed width v := by
  unfold hexPad hexFixed
  rw [Nat.max_eq_left (hexLen_le 16 v width hw hv)]

theorem hexDigits_length (width : Nat) : ∀ v, (hexDigits width v).length = width := by
  induction width with
  | zero => intro v; rfl
  | succ w ih => intro v; simp [hexDigits, ih]

/-- Every digit is one of the sixteen lowercase hexadecimal digits. -/
theorem hexDigit_lowercase (d : Nat) (hd : d < 16) : hexDigit d ∈ "0123456789abcdef".toList := by
  interval_cases d <;> decide

theorem hexDigits_lowercase (width : Nat) : ∀ v, ∀ c ∈ hexDigits width v,
    c ∈ "0123456789abcdef".toList := by
  induction width with
  | zero => intro v c hc; simp [hexDigits] at hc
  | succ w ih =>
    intro v c hc
    rw [hexDigits] at hc
    rcases List.mem_append.mp hc with h | h
    · exact ih _ c h
    · simp only [List.mem_singleton] at h
      rw [h]
      exact hexDigit_lowercase _ (Nat.mod_lt _ (by decide))

/-- Two more digits: the digits of the value without its last octet, then the two digits of
that octet (big-endian). -/
theorem hexDigits_add_two (width v : Nat) :
    hexDigits (width + 2) v = hexDigits width (v / 256) ++ hexDigits 2 (v % 256) := by
  simp only [hexDigits, List.nil_append, List.append_assoc, List.singleton_append]
  have h1 : v / 16 / 16 = v / 256 := by omega
  have h2 : v % 256 / 16 % 16 = v / 16 % 16 := by omega
  have h3 : v % 256 % 16 = v % 16 := by omega
  rw [h1, h2, h3]

theorem hexDigits_mod (width : Nat) : ∀ v, hexDigits width (v % 16 ^ width) = hexDigits width v := by
  induction width with
  | zero => intro v; rfl
  | succ w ih =>
    intro v
    simp only [hexDigits]
    have h1 : v % 16 ^ (w + 1) / 16 = (v / 16) % 16 ^ w := by
      rw [pow_succ, Nat.mul_comm, Nat.mod_mul_right_div_self]
    have h2 : v % 16 ^ (w + 1) % 16 = v % 16 := by
      rw [pow_succ, Nat.mul_comm]
      exact Nat.mod_mul_right_mod v 16 (16 ^ w)
    rw [h1, h2, ih]

theorem String_mk_ne_empty (l : List Char) (hl : l ≠ []) : String.mk l ≠ "" := by
  intro h
  exact hl (congrArg String.data h)

theorem hexFixed_ne_empty (width v : Nat) (hw : 0 < width) : hexFixed width v ≠ "" := by
  apply String_mk_ne_empty
  intro h
  have := congrArg List.length h
  rw [hexDigits_length] at this
  simp at this
  omega

theorem hexFixed_data (width v : Nat) : (hexFixed width v).data = hexDigits width v := rfl

/-- `TestTilePath`: the table of the test holds of the model. -/
theorem TestTilePath_table :
    TilePath "/root/path" 0 0 0 = ("/root/path/tile/00/0000/00/00", "00") ∧
    TilePath "/root/path" 0 0 1 = ("/root/path/tile/00/0000/00/00", "00.01") ∧
    TilePath "/root/path" 0x10 0 0 = ("/root/path/tile/10/0000/00/00", "00") ∧
    TilePath "/root/path" 0x10 0x455667 0x78 = ("/root/path/tile/10/0000/45/56", "67.78") ∧
    TilePath "/root/path" 0x10 0x123456789a 0x7 = ("/root/path/tile/10/1234/56/78", "9a.07") ∧
    TilePath "/a/different/root/path" 0x15 0x455667 0
      = ("/a/different/root/path/tile/15/0000/45/56", "67") := by
  decide

/-- `TestSeqPath`: the table of the test holds of the model. -/
theorem TestSeqPath_table :
    SeqPath "/root/path" 0 = ("/root/path/seq/00/00/00/00", "00") ∧
    SeqPath "/root/path" 0x85 = ("/root/path/seq/00/00/00/00", "85") ∧
    SeqPath "/a/different/root/path" 0x86 = ("/a/different/root/path/seq/00/00/00/00", "86") ∧
    SeqPath "/a/different/root/path" 0xffeeddccbb
      = ("/a/different/root/path/seq/ff/ee/dd/cc", "bb") := by
  decide

/-- `TestSeqFromPath`: the table of the test holds of the model (a wanted error comes with
sequence number 0). -/
theorem TestSeqFromPath_table :
    SeqFromPath "/bananas" "/bananas/seq/00/00/00/00/00" = (0, none) ∧
    SeqFromPath "/bananas" "/bananas/seq/00/00/00/00/10" = (0x10, none) ∧
    SeqFromPath "/lemons" "/lemons/seq/12/34/56/78/90" = (0x1234567890, none) ∧
    ((SeqFromPath "/lemons" "/apples/seq/12/34/56/78/90").1 = 0 ∧
      (SeqFromPath "/lemons" "/apples/seq/12/34/56/78/90").2 ≠ none) ∧
    ((SeqFromPath "/lemons" "/lemons/12/34/56/78/90").1 = 0 ∧
      (SeqFromPath "/lemons" "/lemons/12/34/56/78/90").2 ≠ none) ∧
    ((SeqFromPath "/lemons" "/lemons/12/4/56/78/90").1 = 0 ∧
      (SeqFromPath "/lemons" "/lemons/12/4/56/78/90").2 ≠ none) := by
  decide

/-- `TestLeafPath`: the table of the test holds of the model. -/
theorem TestLeafPath_table :
    LeafPath "/root/path" [0x11, 0x22, 0x33, 0x44, 0x55, 0x66, 0x77]
      = some ("/root/path/leaves/11/22/33", "44556677") ∧
    LeafPath "/root/path" [0x88, 0x99, 0xaa, 0xbb, 0xcc, 0xdd]
      = some ("/root/path/leaves/88/99/aa", "bbccdd") ∧
    LeafPath "/a/different/root/path" [0x12, 0x34, 0x56, 0x78, 0x9a]
      = some ("/a/different/root/path/leaves/12/34/56", "789a") := by
  decide

/-- The join of a root with five non-empty components. -/
theorem filepathJoin_six (root a b c d e : String) (ha : a ≠ "") (hb : b ≠ "") (hc : c ≠ "")
    (hd : d ≠ "") (he : e ≠ "") :
    filepathJoin [root, a, b, c, d, e] =
      if root = "" then a ++ "/" ++ b ++ "/" ++ c ++ "/" ++ d ++ "/" ++ e
      else root ++ "/" ++ a ++ "/" ++ b ++ "/" ++ c ++ "/" ++ d ++ "/" ++ e := by
  by_cases hr : root = ""
  · simp [filepathJoin, List.filter, ha, hb, hc, hd, he, hr, String.intercalate,
      String.intercalate.go]
  · simp [filepathJoin, List.filter, ha, hb, hc, hd, he, hr, String.intercalate,
      String.intercalate.go]

theorem filepathJoin_five (root a b c d : String) (ha : a ≠ "") (hb : b ≠ "") (hc : c ≠ "")
    (hd : d ≠ "") :
    filepathJoin [root, a, b, c, d] =
      if root = "" then a ++ "/" ++ b ++ "/" ++ c ++ "/" ++ d
      else root ++ "/" ++ a ++ "/" ++ b ++ "/" ++ c ++ "/" ++ d := by
  by_cases hr : root = ""
  · simp [filepathJoin, List.filter, ha, hb, hc, hd, hr, String.intercalate,
      String.intercalate.go]
  · simp [filepathJoin, List.filter, ha, hb, hc, hd, hr, String.intercalate,
      String.intercalate.go]

theorem filepathJoin_two (root a : String) (ha : a ≠ "") :
    filepathJoin [root, a] = if root = "" then a else root ++ "/" ++ a := by
  by_cases hr : root = ""
  · simp [filepathJoin, List.filter, ha, hr, String.intercalate, String.intercalate.go]
  · simp [filepathJoin, List.filter, ha, hr, String.intercalate, String.intercalate.go]

theorem hexDigits_ten (v : Nat) :
    hexDigits 10 v = hexDigits 2 (v / 2 ^ 32 % 256) ++ hexDigits 2 (v / 2 ^ 24 % 256) ++
      hexDigits 2 (v / 2 ^ 16 % 256) ++ hexDigits 2 (v / 2 ^ 8 % 256) ++ hexDigits 2 (v % 256) := by
  have e1 := hexDigits_add_two 8 v
  have e2 := hexDigits_add_two 6 (v / 256)
  have e3 := hexDigits_add_two 4 (v / 256 / 256)
  have e4 := hexDigits_add_two 2 (v / 256 / 256 / 256)
  have e5 := hexDigits_mod 2 (v / 256 / 256 / 256 / 256)
  have a1 : v / 256 / 256 / 256 / 256 % 16 ^ 2 = v / 2 ^ 32 % 256 := by norm_num; omega
  have a2 : v / 256 / 256 / 256 % 256 = v / 2 ^ 24 % 256 := by norm_num; omega
  have a3 : v / 256 / 256 % 256 = v / 2 ^ 16 % 256 := by norm_num; omega
  have a4 : v / 256 % 256 = v / 2 ^ 8 % 256 := by norm_num
  rw [a1] at e5
  rw [a2] at e4
  rw [a3] at e3
  rw [a4] at e2
  show hexDigits (8 + 2) v = _
  rw [e1]
  show hexDigits (6 + 2) (v / 256) ++ _ = _
  rw [e2]
  show hexDigits (4 + 2) (v / 256 / 256) ++ _ ++ _ = _
  rw [e3]
  show hexDigits (2 + 2) (v / 256 / 256 / 256) ++ _ ++ _ ++ _ = _
  rw [e4, ← e5]

theorem hexDigits_four (v : Nat) :
    hexDigits 4 v = hexDigits 2 (v / 2 ^ 8 % 256) ++ hexDigits 2 (v % 256) := by
  have e1 := hexDigits_add_two 2 v
  have e2 := hexDigits_mod 2 (v / 256)
  have a1 : v / 256 % 16 ^ 2 = v / 2 ^ 8 % 256 := by norm_num
  rw [a1] at e2
  show hexDigits (2 + 2) v = _
  rw [e1, ← e2]

theorem String_append_mk (a b : List Char) : String.mk a ++ String.mk b = String.mk (a ++ b) := rfl

/-- Claim C16.  For every root and every sequence number below `2^40`, `SeqPath` returns the
directory `root/seq/b4/b3/b2/b1` and the file name `b0`, where `b4..b0` are the five octets of
the sequence number, most significant first (`seq = b4·2^32 + b3·2^24 + b2·2^16 + b1·2^8 + b0`,
and the five names in a row are the ten-digit hexadecimal numeral of `seq`), each written as
exactly two lowercase hexadecimal digits. -/
theorem SeqPath_format (root : String) (seq : Nat) (hseq : seq < 2 ^ 40) :
    SeqPath root seq =
      (underRoot root ("seq/" ++ hexFixed 2 (seq / 2 ^ 32 % 256) ++ "/" ++
        hexFixed 2 (seq / 2 ^ 24 % 256) ++ "/" ++ hexFixed 2 (seq / 2 ^ 16 % 256) ++ "/" ++
        hexFixed 2 (seq / 2 ^ 8 % 256)), hexFixed 2 (seq % 256)) ∧
    seq = (seq / 2 ^ 32 % 256) * 2 ^ 32 + (seq / 2 ^ 24 % 256) * 2 ^ 24 +
      (seq / 2 ^ 16 % 256) * 2 ^ 16 + (seq / 2 ^ 8 % 256) * 2 ^ 8 + seq % 256 ∧
    hexFixed 2 (seq / 2 ^ 32 % 256) ++ hexFixed 2 (seq / 2 ^ 24 % 256) ++
      hexFixed 2 (seq / 2 ^ 16 % 256) ++ hexFixed 2 (seq / 2 ^ 8 % 256) ++ hexFixed 2 (seq % 256)
      = hexFixed 10 seq ∧
    ∀ b, (hexFixed 2 b).length = 2 ∧ ∀ c ∈ (hexFixed 2 b).toList, c ∈ "0123456789abcdef".toList := by
  refine ⟨?_, ?_, ?_, ?_⟩
  · have h4 : seq >>> 32 = seq / 2 ^ 32 % 256 := by
      rw [Nat.shiftRight_eq_div_pow]; norm_num at hseq ⊢; omega
    have h3 : seq >>> 24 = seq / 2 ^ 24 := Nat.shiftRight_eq_div_pow _ _
    have h2 : seq >>> 16 = seq / 2 ^ 16 := Nat.shiftRight_eq_div_pow _ _
    have h1 : seq >>> 8 = seq / 2 ^ 8 := Nat.shiftRight_eq_div_pow _ _
    have hb : ∀ x, hexPad 2 (x % 256) = hexFixed 2 (x % 256) := fun x =>
      hexPad_eq_hexFixed 2 _ (by decide) (by have := Nat.mod_lt x (show 0 < 256 by decide); omega)
    unfold SeqPath
    rw [h4, h3, h2, h1, hb, hb, hb, hb, hb]
    rw [filepathJoin_six root "seq" _ _ _ _ (by decide) (hexFixed_ne_empty 2 _ (by decide))
      (hexFixed_ne_empty 2 _ (by decide)) (hexFixed_ne_empty 2 _ (by decide))
      (hexFixed_ne_empty 2 _ (by decide))]
    unfold underRoot
    have hs : ("seq/" : String) = "seq" ++ "/" := by decide
    rw [hs]
    by_cases hr : root = ""
    · simp only [hr, if_true]
    · simp only [hr, if_false, String.append_assoc]
  · norm_num at hseq ⊢; omega
  · simp only [hexFixed, String_append_mk]
    rw [hexDigits_ten]
  · intro b
    refine ⟨?_, ?_⟩
    · show (hexDigits 2 b).length = 2
      exact hexDigits_length 2 b
    · exact hexDigits_lowercase 2 b

theorem SeqPath_format_witness :
    0xffeeddccbb < 2 ^ 40 ∧ SeqPath "/a/different/root/path" 0xffeeddccbb =
      (underRoot "/a/different/root/path" ("seq/" ++ hexFixed 2 (0xffeeddccbb / 2 ^ 32 % 256) ++
        "/" ++ hexFixed 2 (0xffeeddccbb / 2 ^ 24 % 256) ++ "/" ++
        hexFixed 2 (0xffeeddccbb / 2 ^ 16 % 256) ++ "/" ++
        hexFixed 2 (0xffeeddccbb / 2 ^ 8 % 256)), hexFixed 2 (0xffeeddccbb % 256)) :=
  ⟨by decide, (SeqPath_format "/a/different/root/path" 0xffeeddccbb (by decide)).1⟩

/-- The path of a tile whose level, index and size fit their fields. -/
theorem TilePath_fixed (root : String) (level index tileSize : Nat) (hlevel : level < 2 ^ 8)
    (hindex : index < 2 ^ 40) (hsize : tileSize < 2 ^ 8) :
    TilePath root level index tileSize =
      (underRoot root ("tile/" ++ hexFixed 2 level ++ "/" ++ hexFixed 4 (index / 2 ^ 24) ++ "/" ++
        hexFixed 2 (index / 2 ^ 16 % 256) ++ "/" ++ hexFixed 2 (index / 2 ^ 8 % 256)),
       hexFixed 2 (index % 256) ++ (if tileSize = 0 then "" else "." ++ hexFixed 2 tileSize)) := by
  have h3 : index >>> 24 = index / 2 ^ 24 := Nat.shiftRight_eq_div_pow _ _
  have h2 : index >>> 16 = index / 2 ^ 16 := Nat.shiftRight_eq_div_pow _ _
  have h1 : index >>> 8 = index / 2 ^ 8 := Nat.shiftRight_eq_div_pow _ _
  have hb : ∀ x, x < 256 → hexPad 2 x = hexFixed 2 x := fun x hx =>
    hexPad_eq_hexFixed 2 _ (by decide) (by norm_num; omega)
  have h4 : hexPad 4 (index / 2 ^ 24) = hexFixed 4 (index / 2 ^ 24) :=
    hexPad_eq_hexFixed 4 _ (by decide) (by norm_num at hindex ⊢; omega)
  unfold TilePath
  simp only []
  rw [h3, h2, h1, h4, hb level (by norm_num at hlevel; omega),
    hb (index / 2 ^ 16 % 256) (Nat.mod_lt _ (by decide)),
    hb (index / 2 ^ 8 % 256) (Nat.mod_lt _ (by decide)),
    hb (index % 256) (Nat.mod_lt _ (by decide)),
    hb tileSize (by norm_num at hsize; omega)]
  rw [filepathJoin_six root "tile" _ _ _ _ (by decide) (hexFixed_ne_empty 2 _ (by decide))
    (hexFixed_ne_empty 4 _ (by decide)) (hexFixed_ne_empty 2 _ (by decide))
    (hexFixed_ne_empty 2 _ (by decide))]
  unfold underRoot
  have hs : ("tile/" : String) = "tile" ++ "/" := by decide
  rw [hs]
  have hsuffix : (if tileSize > 0 then "." ++ hexFixed 2 tileSize else "")
      = (if tileSize = 0 then "" else "." ++ hexFixed 2 tileSize) := by
    by_cases h0 : tileSize = 0
    · simp [h0]
    · have : tileSize > 0 := Nat.pos_of_ne_zero h0
      simp [h0, this]
  rw [hsuffix]
  by_cases hr : root = ""
  · simp only [hr, if_true]
  · simp only [hr, if_false, String.append_assoc]

/-- Claim C15.  For every root, tile level below `2^8`, tile index below `2^40` and tile size
below `2^8`, `TilePath` returns the directory `root/tile/LL/IIII/II/II` and a file name `II`,
where `LL` is the level in two lowercase hexadecimal digits and the four index names in a row
are the ten-digit lowercase hexadecimal numeral of the index, split 4/2/2/2 with the most
significant digits first; the file name carries the suffix `.PP`, the tile size in two
lowercase hexadecimal digits, exactly when the tile size is not zero. -/
theorem TilePath_format (root : String) (level index tileSize : Nat) (hlevel : level < 2 ^ 8)
    (hindex : index < 2 ^ 40) (hsize : tileSize < 2 ^ 8) :
    TilePath root level index tileSize =
      (underRoot root ("tile/" ++ hexFixed 2 level ++ "/" ++ hexFixed 4 (index / 2 ^ 24) ++ "/" ++
        hexFixed 2 (index / 2 ^ 16 % 256) ++ "/" ++ hexFixed 2 (index / 2 ^ 8 % 256)),
       hexFixed 2 (index % 256) ++ (if tileSize = 0 then "" else "." ++ hexFixed 2 tileSize)) ∧
    hexFixed 4 (index / 2 ^ 24) ++ hexFixed 2 (index / 2 ^ 16 % 256) ++
      hexFixed 2 (index / 2 ^ 8 % 256) ++ hexFixed 2 (index % 256) = hexFixed 10 index ∧
    ∀ width v, (hexFixed width v).length = width ∧
      ∀ c ∈ (hexFixed width v).toList, c ∈ "0123456789abcdef".toList := by
  refine ⟨TilePath_fixed root level index tileSize hlevel hindex hsize, ?_, ?_⟩
  · simp only [hexFixed, String_append_mk]
    rw [hexDigits_ten, hexDigits_four]
    have a1 : index / 2 ^ 24 / 2 ^ 8 % 256 = index / 2 ^ 32 % 256 := by norm_num; omega
    rw [a1]
  · intro width v
    refine ⟨?_, ?_⟩
    · show (hexDigits width v).length = width
      exact hexDigits_length width v
    · exact hexDigits_lowercase width v

theorem TilePath_format_witness :
    0x10 < 2 ^ 8 ∧ 0x123456789a < 2 ^ 40 ∧ 0x7 < 2 ^ 8 ∧
    TilePath "/root/path" 0x10 0x123456789a 0x7 =
      (underRoot "/root/path" ("tile/" ++ hexFixed 2 0x10 ++ "/" ++
        hexFixed 4 (0x123456789a / 2 ^ 24) ++ "/" ++ hexFixed 2 (0x123456789a / 2 ^ 16 % 256) ++
        "/" ++ hexFixed 2 (0x123456789a / 2 ^ 8 % 256)),
       hexFixed 2 (0x123456789a % 256) ++ (if 0x7 = 0 then "" else "." ++ hexFixed 2 0x7)) :=
  ⟨by decide, by decide, by decide,
    (TilePath_format "/root/path" 0x10 0x123456789a 0x7 (by decide) (by decide) (by decide)).1⟩

theorem hexValue_hexDigit (d : Nat) (hd : d < 16) : hexValue (hexDigit d).toNat = some d := by
  interval_cases d <;> decide

theorem hexByte_hexDigits (b : Nat) :
    hexByte (hexDigit (b / 16 % 16)) (hexDigit (b % 16)) = some (b / 16 % 16 * 16 + b % 16) := by
  unfold hexByte
  rw [hexValue_hexDigit _ (Nat.mod_lt _ (by decide)), hexValue_hexDigit _ (Nat.mod_lt _ (by decide))]

/-- The sequence directory of `root`, a slash and five groups of two digits parse to the
number the five octets write. -/
theorem SeqFromPath_groups (root : String) (a b c d e : Nat) :
    SeqFromPath root (String.mk ((filepathJoin [root, "seq"]).data ++ ['/'] ++
      (hexDigits 2 a ++ '/' :: (hexDigits 2 b ++ '/' :: (hexDigits 2 c ++
        '/' :: (hexDigits 2 d ++ '/' :: hexDigits 2 e))))))
      = ((a / 16 % 16 * 16 + a % 16) * 2 ^ 32 + (b / 16 % 16 * 16 + b % 16) * 2 ^ 24 +
          (c / 16 % 16 * 16 + c % 16) * 2 ^ 16 + (d / 16 % 16 * 16 + d % 16) * 2 ^ 8 +
          (e / 16 % 16 * 16 + e % 16), none) := by
  unfold SeqFromPath
  have hpre : ((filepathJoin [root, "seq"]).toList ++ ['/']).isPrefixOf
      (String.mk ((filepathJoin [root, "seq"]).data ++ ['/'] ++
      (hexDigits 2 a ++ '/' :: (hexDigits 2 b ++ '/' :: (hexDigits 2 c ++
        '/' :: (hexDigits 2 d ++ '/' :: hexDigits 2 e)))))).toList = true :=
    List.isPrefixOf_iff_prefix.mpr (List.prefix_append _ _)
  rw [if_pos hpre]
  have hdrop : (String.mk ((filepathJoin [root, "seq"]).data ++ ['/'] ++
      (hexDigits 2 a ++ '/' :: (hexDigits 2 b ++ '/' :: (hexDigits 2 c ++
        '/' :: (hexDigits 2 d ++ '/' :: hexDigits 2 e)))))).toList.drop
        ((filepathJoin [root, "seq"]).toList.length + 1)
      = (hexDigits 2 a ++ '/' :: (hexDigits 2 b ++ '/' :: (hexDigits 2 c ++
        '/' :: (hexDigits 2 d ++ '/' :: hexDigits 2 e)))) := by
    apply List.drop_left'
    simp [String.toList]
  rw [hdrop]
  simp only [hexDigits, List.nil_append, List.cons_append, List.singleton_append, and_self,
    if_true, hexByte_hexDigits]

/-- Claim C14.  For every root and every sequence number below `2^40`, with
`(dir, file) = SeqPath root seq`, `SeqFromPath root (dir + "/" + file)` returns `seq` and no
error. -/
theorem SeqFromPath_SeqPath (root : String) (seq : Nat) (hseq : seq < 2 ^ 40) :
    SeqFromPath root ((SeqPath root seq).1 ++ "/" ++ (SeqPath root seq).2) = (seq, none) := by
  have h4 : seq >>> 32 = seq / 2 ^ 32 % 256 := by
    rw [Nat.shiftRight_eq_div_pow]; norm_num at hseq ⊢; omega
  have h3 : seq >>> 24 = seq / 2 ^ 24 := Nat.shiftRight_eq_div_pow _ _
  have h2 : seq >>> 16 = seq / 2 ^ 16 := Nat.shiftRight_eq_div_pow _ _
  have h1 : seq >>> 8 = seq / 2 ^ 8 := Nat.shiftRight_eq_div_pow _ _
  have hb : ∀ x, hexPad 2 (x % 256) = hexFixed 2 (x % 256) := fun x =>
    hexPad_eq_hexFixed 2 _ (by decide) (by have := Nat.mod_lt x (show 0 < 256 by decide); omega)
  have hpath : (SeqPath root seq).1 ++ "/" ++ (SeqPath root seq).2 =
      String.mk ((filepathJoin [root, "seq"]).data ++ ['/'] ++
        (hexDigits 2 (seq / 2 ^ 32 % 256) ++ '/' :: (hexDigits 2 (seq / 2 ^ 24 % 256) ++
          '/' :: (hexDigits 2 (seq / 2 ^ 16 % 256) ++ '/' :: (hexDigits 2 (seq / 2 ^ 8 % 256) ++
          '/' :: hexDigits 2 (seq % 256)))))) := by
    unfold SeqPath
    simp only []
    rw [h4, h3, h2, h1, hb, hb, hb, hb, hb]
    rw [filepathJoin_six root "seq" _ _ _ _ (by decide) (hexFixed_ne_empty 2 _ (by decide))
      (hexFixed_ne_empty 2 _ (by decide)) (hexFixed_ne_empty 2 _ (by decide))
      (hexFixed_ne_empty 2 _ (by decide)), filepathJoin_two root "seq" (by decide)]
    apply String.ext
    by_cases hr : root = ""
    · simp [hr, hexFixed, String.data_append]
    · simp [hr, hexFixed, String.data_append]
  rw [hpath, SeqFromPath_groups]
  congr 1
  norm_num at hseq ⊢
  omega

theorem SeqFromPath_SeqPath_witness :
    0x1234567890 < 2 ^ 40 ∧
    SeqFromPath "/lemons" ((SeqPath "/lemons" 0x1234567890).1 ++ "/" ++
      (SeqPath "/lemons" 0x1234567890).2) = (0x1234567890, none) :=
  ⟨by decide, SeqFromPath_SeqPath "/lemons" 0x1234567890 (by decide)⟩

/-- Claim C17.  For every root and path that does not lie under the directory `root/seq`
(a different root, or the `seq` component missing), `SeqFromPath` returns an error together
with sequence number 0. -/
theorem SeqFromPath_outside (root p : String) (hout : ¬ UnderSeqDir root p) :
    (SeqFromPath root p).1 = 0 ∧ (SeqFromPath root p).2 ≠ none := by
  unfold SeqFromPath
  split
  · rename_i hpre
    exfalso
    apply hout
    obtain ⟨t, ht⟩ := List.isPrefixOf_iff_prefix.mp hpre
    refine ⟨String.mk t, ?_⟩
    have hj : underRoot root "seq" = filepathJoin [root, "seq"] := by
      rw [filepathJoin_two root "seq" (by decide)]; rfl
    rw [hj]
    apply String.ext
    simp only [String.data_append]
    exact ht.symm
  · exact ⟨rfl, by simp⟩

theorem SeqFromPath_outside_witness :
    ¬ UnderSeqDir "/lemons" "/apples/seq/12/34/56/78/90" ∧
    (SeqFromPath "/lemons" "/apples/seq/12/34/56/78/90").1 = 0 ∧
    (SeqFromPath "/lemons" "/apples/seq/12/34/56/78/90").2 ≠ none :=
  have hout : ¬ UnderSeqDir "/lemons" "/apples/seq/12/34/56/78/90" := by
    rintro ⟨rest, h⟩
    have h2 := congrArg String.data h
    have h3 : underRoot "/lemons" "seq" = "/lemons/seq" := by decide
    rw [h3] at h2
    simp [String.data_append] at h2
  ⟨hout, SeqFromPath_outside "/lemons" "/apples/seq/12/34/56/78/90" hout⟩

/-- Claim C18.  For every root and every leaf hash `h` of at least four octets, `LeafPath`
returns the directory `root/leaves/h0/h1/h2` and, as file name, the lowercase hexadecimal of
the remaining octets `h[3..]`, where `h0`, `h1`, `h2` are the first three octets, each in two
lowercase hexadecimal digits; the three directory names and the file name in a row are exactly
the lowercase hexadecimal of `h`. -/
theorem LeafPath_format (root : String) (h0 h1 h2 h3 : Nat) (rest : Bytes)
    (hbytes : ∀ b ∈ h0 :: h1 :: h2 :: h3 :: rest, b < 256) :
    LeafPath root (h0 :: h1 :: h2 :: h3 :: rest) =
      some (underRoot root ("leaves/" ++ hexFixed 2 h0 ++ "/" ++ hexFixed 2 h1 ++ "/" ++
        hexFixed 2 h2), hexOfBytes (h3 :: rest)) ∧
    hexFixed 2 h0 ++ hexFixed 2 h1 ++ hexFixed 2 h2 ++ hexOfBytes (h3 :: rest)
      = hexOfBytes (h0 :: h1 :: h2 :: h3 :: rest) ∧
    (∀ b : Bytes, (hexOfBytes b).length = 2 * b.length ∧
      ∀ c ∈ (hexOfBytes b).toList, c ∈ "0123456789abcdef".toList) ∧
    ∀ b, (hexFixed 2 b).length = 2 ∧ ∀ c ∈ (hexFixed 2 b).toList, c ∈ "0123456789abcdef".toList := by
  refine ⟨?_, ?_, ?_, ?_⟩
  · have hb : ∀ x, x < 256 → hexPad 2 x = hexFixed 2 x := fun x hx =>
      hexPad_eq_hexFixed 2 _ (by decide) (by norm_num; omega)
    unfold LeafPath
    simp only []
    rw [hb h0 (hbytes h0 (by simp)), hb h1 (hbytes h1 (by simp)), hb h2 (hbytes h2 (by simp))]
    rw [filepathJoin_five root "leaves" _ _ _ (by decide) (hexFixed_ne_empty 2 _ (by decide))
      (hexFixed_ne_empty 2 _ (by decide)) (hexFixed_ne_empty 2 _ (by decide))]
    unfold underRoot
    have hs : ("leaves/" : String) = "leaves" ++ "/" := by decide
    rw [hs]
    by_cases hr : root = ""
    · simp only [hr, if_true]
    · simp only [hr, if_false, String.append_assoc]
  · simp [hexOfBytes, hexFixed, hexDigits, String_append_mk]
  · intro b
    refine ⟨?_, ?_⟩
    · show (b.flatMap (fun x => [hexDigit (x / 16 % 16), hexDigit (x % 16)])).length = _
      induction b with
      | nil => rfl
      | cons x xs ih => simp only [List.flatMap_cons, List.length_append, ih, List.length_cons,
          List.length_nil]; omega
    · intro c hc
      have hc2 : c ∈ b.flatMap (fun x => [hexDigit (x / 16 % 16), hexDigit (x % 16)]) := hc
      rw [List.mem_flatMap] at hc2
      obtain ⟨x, _, hx⟩ := hc2
      simp only [List.mem_cons, List.mem_singleton, List.not_mem_nil, or_false] at hx
      rcases hx with hx | hx
      · rw [hx]; exact hexDigit_lowercase _ (Nat.mod_lt _ (by decide))
      · rw [hx]; exact hexDigit_lowercase _ (Nat.mod_lt _ (by decide))
  · intro b
    refine ⟨?_, ?_⟩
    · show (hexDigits 2 b).length = 2
      exact hexDigits_length 2 b
    · exact hexDigits_lowercase 2 b

theorem LeafPath_format_witness :
    (∀ b ∈ [0x11, 0x22, 0x33, 0x44, 0x55, 0x66, 0x77], b < 256) ∧
    LeafPath "/root/path" [0x11, 0x22, 0x33, 0x44, 0x55, 0x66, 0x77] =
      some (underRoot "/root/path" ("leaves/" ++ hexFixed 2 0x11 ++ "/" ++ hexFixed 2 0x22 ++ "/" ++
        hexFixed 2 0x33), hexOfBytes [0x44, 0x55, 0x66, 0x77]) :=
  ⟨by decide, (LeafPath_format "/root/path" 0x11 0x22 0x33 0x44 [0x55, 0x66, 0x77] (by decide)).1⟩

/-- Claim C19, as the spec words it, fails: for level 0, index 1 and log size 300 the tile
fetcher asks for `tile/00/0000/00/00/01.2c`, with the four index names of the tile layout,
not for `tile/00/0000/00/01.2c`; the same holds under a root. -/
theorem partial_tile_path_counterexample :
    (newTileFetcher specEnv (filesFetcher []) 0 1 300 freshWorld).2.trace
      = [Event.fetch "tile/00/0000/00/00/01.2c"] ∧
    (newTileFetcher specEnv (filesFetcher []) 0 1 300 freshWorld).2.trace
      ≠ [Event.fetch (underRoot "" "tile/00/0000/00/01.2c")] ∧
    filepathJoin [(TilePath "/root/path" 0 1 (PartialTileSize 0 1 300)).1,
        (TilePath "/root/path" 0 1 (PartialTileSize 0 1 300)).2]
      = "/root/path/tile/00/0000/00/00/01.2c" ∧
    filepathJoin [(TilePath "/root/path" 0 1 (PartialTileSize 0 1 300)).1,
        (TilePath "/root/path" 0 1 (PartialTileSize 0 1 300)).2]
      ≠ underRoot "/root/path" "tile/00/0000/00/01.2c" := by
  decide

/-- Claim C19, amended.  For a log of size 300 (tile height 8), tile (level 0, index 0) is
complete (256 leaves, partial size 0) and tile (level 0, index 1) is partial with size 44;
the path of that partial tile is `root/tile/00/0000/00/00/01.2c` for every root, and the
tile fetcher, whose root is empty, requests it at `tile/00/0000/00/00/01.2c`. -/
theorem partial_tile_size_300 :
    PartialTileSize 0 0 300 = 0 ∧ 2 ^ tileHeight ≤ 300 ∧ PartialTileSize 0 1 300 = 44 ∧
    (∀ root : String, TilePath root 0 1 (PartialTileSize 0 1 300)
      = (underRoot root "tile/00/0000/00/00", "01.2c")) ∧
    ∀ (σ : Type) (env : Env) (f : FetcherFunc σ) (w : World σ),
      (newTileFetcher env f 0 1 300 w).2.trace
        = w.trace ++ [Event.fetch "tile/00/0000/00/00/01.2c"] := by
  refine ⟨by decide, by decide, by decide, ?_, ?_⟩
  · intro root
    have h44 : PartialTileSize 0 1 300 = 44 := by decide
    rw [h44, TilePath_fixed root 0 1 44 (by decide) (by decide) (by decide)]
    have e1 : "tile/" ++ hexFixed 2 0 ++ "/" ++ hexFixed 4 (1 / 2 ^ 24) ++ "/" ++
        hexFixed 2 (1 / 2 ^ 16 % 256) ++ "/" ++ hexFixed 2 (1 / 2 ^ 8 % 256)
        = "tile/00/0000/00/00" := by decide
    have e2 : hexFixed 2 (1 % 256) ++ (if 44 = 0 then "" else "." ++ hexFixed 2 44) = "01.2c" := by
      decide
    rw [e1, e2]
  · intro σ env f w
    have hp : filepathJoin [(TilePath "" 0 1 (PartialTileSize 0 1 300)).1,
        (TilePath "" 0 1 (PartialTileSize 0 1 300)).2] = "tile/00/0000/00/00/01.2c" := by decide
    unfold newTileFetcher
    simp only [hp, callFetcher]
    cases hf : (f "tile/00/0000/00/00/01.2c" w.store).1 with
    | error err =>
      by_cases he : err.is Error.notExist <;> simp [he]
    | ok t =>
      cases hu : env.unmarshalTile t <;> simp [hu]

/-! ## Firmware transparency client: `AwaitInclusion` -/

/-- A result does not depend on the fuel: a run that returns with some fuel returns the same
with one more round of fuel. -/
theorem AwaitInclusion_fuel_succ {σ : Type} (ctx : σ → Option Error × σ) (c : Client σ)
    (v : Verify) (fuel : Nat) : ∀ (cp : api.LogCheckpoint) (s : Bytes) (st : σ)
    (r : AwaitResult × σ), AwaitInclusion ctx c v fuel cp s st = some r →
      AwaitInclusion ctx c v (fuel + 1) cp s st = some r := by
  induction fuel with
  | zero => intro cp s st r h; simp [AwaitInclusion] at h
  | succ n ih =>
    intro cp s st r h
    rw [AwaitInclusion] at h ⊢
    revert h
    rcases ctx st with ⟨_ | err, st1⟩
    · simp only []
      rcases c.GetCheckpoint st1 with ⟨err | newCP, st2⟩
      · exact fun h => h
      · simp only []
        by_cases hle : newCP.TreeSize ≤ cp.TreeSize
        · rw [if_pos hle, if_pos hle]; exact ih _ _ _ _
        · rw [if_neg hle, if_neg hle]
          by_cases hpos : cp.TreeSize > 0
          · rw [if_pos hpos, if_pos hpos]
            rcases c.GetConsistencyProof cp.TreeSize newCP.TreeSize st2 with
              ⟨err | consistency, st3⟩
            · exact ih _ _ _ _
            · simp only []
              cases v.VerifyConsistencyProof (toInt64 cp.TreeSize)
                  (toInt64 newCP.TreeSize) cp.RootHash newCP.RootHash consistency.Proof with
              | error err => exact fun h => h
              | ok u =>
                simp only [awaitInclusionProof]
                rcases c.GetInclusion s newCP st3 with ⟨err | ip, st4⟩
                · exact ih _ _ _ _
                · exact fun h => h
          · rw [if_neg hpos, if_neg hpos]
            simp only [awaitInclusionProof]
            rcases c.GetInclusion s newCP st2 with ⟨err | ip, st4⟩
            · exact ih _ _ _ _
            · exact fun h => h
    · exact fun h => h

theorem AwaitInclusion_fuel_mono {σ : Type} (ctx : σ → Option Error × σ) (c : Client σ)
    (v : Verify) (cp : api.LogCheckpoint) (s : Bytes) (st : σ) (r : AwaitResult × σ)
    (fuel : Nat) (h : AwaitInclusion ctx c v fuel cp s st = some r) :
    ∀ more, AwaitInclusion ctx c v (fuel + more) cp s st = some r := by
  intro more
  induction more with
  | zero => exact h
  | succ m ih => exact AwaitInclusion_fuel_succ ctx c v (fuel + m) cp s st r ih

/-- Claim C20 fails on this run.  The caller holds the checkpoint of the log `a`; the
personality first serves the checkpoint of size 2, under which the inclusion proof of the
statement `c` cannot be fetched, and then the checkpoint of size 3.  `AwaitInclusion` returns
after two rounds (with any fuel from 2 on) the checkpoint of size 3 and a `nil` error,
together with the consistency proof it verified in the second round, between the sizes 2 and
3; the verifier rejects that proof between the caller's checkpoint and the returned one,
although the two are consistent (the proof between the sizes 1 and 3 verifies). -/
theorem AwaitInclusion_stale_consistency_proof :
    (∀ more, AwaitInclusion neverDone growingLog sampleVerify (2 + more)
        (logCheckpointOf [bytesOf "a"]) (bytesOf "c") 0 =
      some ((logCheckpointOf [bytesOf "a", bytesOf "b", bytesOf "c"],
        ⟨[sampleHasher.HashLeaf (bytesOf "c")]⟩,
        ⟨2, [merkleTreeHash sampleHasher [bytesOf "a", bytesOf "b"]]⟩, none), 2)) ∧
    (logCheckpointOf [bytesOf "a"]).TreeSize = 1 ∧
    sampleVerify.VerifyConsistencyProof 1 3 (logCheckpointOf [bytesOf "a"]).RootHash
        (logCheckpointOf [bytesOf "a", bytesOf "b", bytesOf "c"]).RootHash
        [sampleHasher.HashLeaf (bytesOf "c")] ≠ .ok () ∧
    sampleVerify.VerifyConsistencyProof 2 3 (logCheckpointOf [bytesOf "a", bytesOf "b"]).RootHash
        (logCheckpointOf [bytesOf "a", bytesOf "b", bytesOf "c"]).RootHash
        [sampleHasher.HashLeaf (bytesOf "c")] = .ok () ∧
    sampleVerify.VerifyConsistencyProof 1 3 (logCheckpointOf [bytesOf "a"]).RootHash
        (logCheckpointOf [bytesOf "a", bytesOf "b", bytesOf "c"]).RootHash
        [sampleHasher.HashLeaf (bytesOf "b"), sampleHasher.HashLeaf (bytesOf "c")] = .ok () := by
  refine ⟨?_, by decide, by decide, by decide, by decide⟩
  exact AwaitInclusion_fuel_mono neverDone growingLog sampleVerify _ _ _ _ 2 (by decide)

/-! ## The tracker's representation invariant -/

/-- A checkpoint returned by `fetchCheckpointAndParse` is what its raw bytes unmarshal to. -/
theorem fetchCheckpointAndParse_parses {σ : Type} (env : Env) (f : FetcherFunc σ) (w w1 : World σ)
    (c : Checkpoint) (cRaw : Bytes)
    (h : fetchCheckpointAndParse env f w = (.ok (c, cRaw), w1)) :
    env.unmarshalCheckpoint cRaw = .ok c := by
  unfold fetchCheckpointAndParse at h
  split at h
  · simp at h
  · rename_i raw w2 _
    split at h
    · simp at h
    · rename_i cp hcp
      simp only [Prod.mk.injEq, Except.ok.injEq] at h
      obtain ⟨⟨h1, h2⟩, _⟩ := h
      rw [← h1, ← h2]
      exact hcp

/-- One `Update` call, failing or not, keeps the invariant. -/
theorem Update_keeps_representation {σ : Type} (env : Env) (lst : LogStateTracker σ)
    (w : World σ)
    (hrep : env.unmarshalCheckpoint lst.LatestConsistentRaw = .ok lst.LatestConsistent) :
    env.unmarshalCheckpoint (lst.Update env w).2.1.LatestConsistentRaw
      = .ok (lst.Update env w).2.1.LatestConsistent := by
  unfold LogStateTracker.Update
  split
  · exact hrep
  · rename_i c cRaw w1 hfetch
    have hc := fetchCheckpointAndParse_parses env lst.Fetcher w w1 c cRaw hfetch
    split
    · split
      · exact hrep
      · split
        · exact hrep
        · split
          · exact hrep
          · exact hc
    · exact hc

/-- Claim C21.  After `NewLogStateTracker` returns without error, and after any subsequent
sequence of `Update` calls, successful or failing, `LatestConsistent` is the checkpoint that
`LatestConsistentRaw` unmarshals to. -/
theorem tracker_representation_invariant {σ : Type} (env : Env) (f : FetcherFunc σ)
    (h : LogHasher) (checkpointRaw : Bytes) (w : World σ) (ws : List (World σ))
    (hnil : (NewLogStateTracker env f h checkpointRaw w).2.1 = none) :
    env.unmarshalCheckpoint
        (updateCalls env ws (NewLogStateTracker env f h checkpointRaw w).1).LatestConsistentRaw
      = .ok (updateCalls env ws (NewLogStateTracker env f h checkpointRaw w).1).LatestConsistent := by
  have hnew : env.unmarshalCheckpoint (NewLogStateTracker env f h checkpointRaw w).1.LatestConsistentRaw
      = .ok (NewLogStateTracker env f h checkpointRaw w).1.LatestConsistent := by
    unfold NewLogStateTracker at hnil ⊢
    split
    · rename_i hlen
      rw [if_pos hlen] at hnil
      split
      · rename_i err herr
        rw [herr] at hnil
        simp at hnil
      · rename_i cp hcp
        exact hcp
    · rename_i hlen
      rw [if_neg hlen] at hnil
      simp only [] at hnil ⊢
      unfold LogStateTracker.Update at hnil ⊢
      split
      · rename_i err w1 hfetch
        rw [hfetch] at hnil
        simp at hnil
      · rename_i c cRaw w1 hfetch
        have hc := fetchCheckpointAndParse_parses env f w w1 c cRaw hfetch
        have : ¬ ((Checkpoint.zero).Size > 0 ∧ c.Size > (Checkpoint.zero).Size) := by
          intro hh
          exact absurd hh.1 (by decide)
        simp only [this, if_false]
        exact hc
  generalize NewLogStateTracker env f h checkpointRaw w = r at hnew
  revert hnew
  generalize r.1 = lst
  induction ws generalizing lst with
  | nil => exact fun hnew => hnew
  | cons w0 rest ih =>
    intro hnew
    exact ih _ (Update_keeps_representation env lst w0 hnew)

theorem tracker_representation_invariant_witness :
    (NewLogStateTracker specEnv twoLeafLog sampleHasher rawSize5 freshWorld).2.1 = none ∧
    specEnv.unmarshalCheckpoint
        (updateCalls specEnv [freshWorld, freshWorld]
          (NewLogStateTracker specEnv twoLeafLog sampleHasher rawSize5 freshWorld).1).LatestConsistentRaw
      = .ok (updateCalls specEnv [freshWorld, freshWorld]
          (NewLogStateTracker specEnv twoLeafLog sampleHasher rawSize5 freshWorld).1).LatestConsistent :=
  ⟨by decide, tracker_representation_invariant specEnv twoLeafLog sampleHasher rawSize5
    freshWorld [freshWorld, freshWorld] (by decide)⟩

/-! ## Tile memoization -/

/-- A node that is not ephemeral and whose tile is cached is answered from the cached tile:
the cache and the world are unchanged, whatever the log size and the tile-fetch function. -/
theorem GetNode_cached {σ : Type} (n : NodeCache σ) (id : NodeID) (logSize : Nat) (w : World σ)
    (t : Tile) (heph : (n.ephemeral id).getD [] = []) (htile : n.tiles (tileKeyOf id) = some t) :
    n.GetNode id logSize w = (nodeFromTile t id, n, w) := by
  unfold NodeCache.GetNode
  unfold tileKeyOf at htile
  simp only [heph, List.length_nil, ne_eq, not_true_eq_false, if_false, htile, nodeFromTile]
  split <;> rfl

/-- A node that is not ephemeral and whose tile is not cached: the tile-fetch function is
called; a tile it returns is cached under the key, a failure leaves the cache as it was. -/
theorem GetNode_uncached {σ : Type} (n : NodeCache σ) (id : NodeID) (logSize : Nat)
    (w : World σ) (heph : (n.ephemeral id).getD [] = [])
    (htile : n.tiles (tileKeyOf id) = none) :
    (∀ tile w1, n.getTile (tileKeyOf id).1 (tileKeyOf id).2 logSize w = (.ok tile, w1) →
      n.GetNode id logSize w = (nodeFromTile tile id,
        { n with tiles := fun k => if k = tileKeyOf id then some tile else n.tiles k }, w1)) ∧
    (∀ err w1, n.getTile (tileKeyOf id).1 (tileKeyOf id).2 logSize w = (.error err, w1) →
      n.GetNode id logSize w = (.error (.wrap "failed to fetch tile" err), n, w1)) := by
  unfold tileKeyOf at htile
  refine ⟨?_, ?_⟩
  · intro tile w1 hget
    unfold tileKeyOf at hget
    unfold NodeCache.GetNode
    simp only [heph, List.length_nil, ne_eq, not_true_eq_false, if_false, htile, hget,
      nodeFromTile, tileKeyOf]
    split <;> rfl
  · intro err w1 hget
    unfold tileKeyOf at hget
    unfold NodeCache.GetNode
    simp only [heph, List.length_nil, ne_eq, not_true_eq_false, if_false, htile, hget]

/-- `GetNode` with an ephemeral entry of non-zero length returns it and changes nothing. -/
theorem GetNode_ephemeral {σ : Type} (n : NodeCache σ) (id : NodeID) (logSize : Nat)
    (w : World σ) (heph : (n.ephemeral id).getD [] ≠ []) :
    n.GetNode id logSize w = (.ok ((n.ephemeral id).getD []), n, w) := by
  unfold NodeCache.GetNode
  have hlen : ((n.ephemeral id).getD []).length ≠ 0 := fun h0 => heph (List.length_eq_zero.mp h0)
  simp only [hlen, ne_eq, not_false_eq_true, if_true]

/-- `GetNode` never drops or replaces a cached tile, and keeps the tile-fetch function. -/
theorem GetNode_keeps_tiles {σ : Type} (n : NodeCache σ) (id : NodeID) (logSize : Nat)
    (w : World σ) :
    (n.GetNode id logSize w).2.1.getTile = n.getTile ∧
    ∀ k t, n.tiles k = some t → (n.GetNode id logSize w).2.1.tiles k = some t := by
  by_cases heph : (n.ephemeral id).getD [] = []
  · cases htile : n.tiles (tileKeyOf id) with
    | some t0 =>
      rw [GetNode_cached n id logSize w t0 heph htile]
      exact ⟨rfl, fun k t h => h⟩
    | none =>
      rcases hget : n.getTile (tileKeyOf id).1 (tileKeyOf id).2 logSize w with ⟨err | tile, w1⟩
      · rw [(GetNode_uncached n id logSize w heph htile).2 err w1 hget]
        exact ⟨rfl, fun k t h => h⟩
      · rw [(GetNode_uncached n id logSize w heph htile).1 tile w1 hget]
        refine ⟨rfl, fun k t h => ?_⟩
        show (if k = tileKeyOf id then some tile else n.tiles k) = some t
        have hk : k ≠ tileKeyOf id := by
          intro hk
          rw [hk, htile] at h
          exact absurd h (by simp)
        rw [if_neg hk]
        exact h
  · rw [GetNode_ephemeral n id logSize w heph]
    exact ⟨rfl, fun k t h => h⟩

/-- One `GetNode` call over a recording tile-fetch function keeps the invariant: the tiles
returned so far are pairwise distinct and all cached. -/
theorem GetNode_recorded_step {σ : Type} (g : GetTileFunc σ) (n : NodeCache (σ × TileLog))
    (id : NodeID) (logSize : Nat) (w : World (σ × TileLog))
    (hget : n.getTile = recordTiles g)
    (hnodup : (tilesReturned w.store.2).Nodup)
    (hcached : ∀ k ∈ tilesReturned w.store.2, n.tiles k ≠ none) :
    (n.GetNode id logSize w).2.1.getTile = recordTiles g ∧
    (tilesReturned (n.GetNode id logSize w).2.2.store.2).Nodup ∧
    ∀ k ∈ tilesReturned (n.GetNode id logSize w).2.2.store.2,
      (n.GetNode id logSize w).2.1.tiles k ≠ none := by
  by_cases heph : (n.ephemeral id).getD [] = []
  · cases htile : n.tiles (tileKeyOf id) with
    | some t0 =>
      rw [GetNode_cached n id logSize w t0 heph htile]
      exact ⟨hget, hnodup, hcached⟩
    | none =>
      have hnew : tileKeyOf id ∉ tilesReturned w.store.2 := fun hmem =>
        hcached _ hmem htile
      rcases hres : g (tileKeyOf id).1 (tileKeyOf id).2 logSize ⟨w.store.1, w.trace⟩ with
        ⟨err | tile, w1⟩
      · have hcall : n.getTile (tileKeyOf id).1 (tileKeyOf id).2 logSize w =
            (.error err, ⟨(w1.store, w.store.2 ++ [(tileKeyOf id, false)]), w1.trace⟩) := by
          rw [hget]
          simp only [recordTiles, hres]
        rw [(GetNode_uncached n id logSize w heph htile).2 err _ hcall]
        have hlog : tilesReturned (w.store.2 ++ [(tileKeyOf id, false)])
            = tilesReturned w.store.2 := by
          simp [tilesReturned, List.filter_append]
        refine ⟨hget, ?_, ?_⟩
        · show (tilesReturned (w.store.2 ++ [(tileKeyOf id, false)])).Nodup
          rw [hlog]; exact hnodup
        · intro k hk
          have hk2 : k ∈ tilesReturned (w.store.2 ++ [(tileKeyOf id, false)]) := hk
          rw [hlog] at hk2
          exact hcached k hk2
      · have hcall : n.getTile (tileKeyOf id).1 (tileKeyOf id).2 logSize w =
            (.ok tile, ⟨(w1.store, w.store.2 ++ [(tileKeyOf id, true)]), w1.trace⟩) := by
          rw [hget]
          simp only [recordTiles, hres]
        rw [(GetNode_uncached n id logSize w heph htile).1 tile _ hcall]
        have hlog : tilesReturned (w.store.2 ++ [(tileKeyOf id, true)])
            = tilesReturned w.store.2 ++ [tileKeyOf id] := by
          simp [tilesReturned, List.filter_append]
        refine ⟨hget, ?_, ?_⟩
        · show (tilesReturned (w.store.2 ++ [(tileKeyOf id, true)])).Nodup
          rw [hlog]
          exact List.Nodup.append hnodup (List.nodup_singleton _)
            (by
              intro a ha hb
              rw [List.mem_singleton] at hb
              rw [hb] at ha
              exact hnew ha)
        · intro k hk
          have hk2 : k ∈ tilesReturned (w.store.2 ++ [(tileKeyOf id, true)]) := hk
          rw [hlog, List.mem_append, List.mem_singleton] at hk2
          show (if k = tileKeyOf id then some tile else n.tiles k) ≠ none
          by_cases hkk : k = tileKeyOf id
          · rw [if_pos hkk]; simp
          · rw [if_neg hkk]
            rcases hk2 with hk2 | hk2
            · exact hcached k hk2
            · exact absurd hk2 hkk
  · rw [GetNode_ephemeral n id logSize w heph]
    exact ⟨hget, hnodup, hcached⟩

theorem getNodeCalls_recorded {σ : Type} (g : GetTileFunc σ) (calls : List (NodeID × Nat)) :
    ∀ (n : NodeCache (σ × TileLog)) (w : World (σ × TileLog)),
    n.getTile = recordTiles g → (tilesReturned w.store.2).Nodup →
    (∀ k ∈ tilesReturned w.store.2, n.tiles k ≠ none) →
    (tilesReturned (getNodeCalls calls n w).2.store.2).Nodup ∧
    ∀ k ∈ tilesReturned (getNodeCalls calls n w).2.store.2,
      (getNodeCalls calls n w).1.tiles k ≠ none := by
  induction calls with
  | nil => intro n w _ hnodup hcached; exact ⟨hnodup, hcached⟩
  | cons c rest ih =>
    intro n w hget hnodup hcached
    obtain ⟨id, logSize⟩ := c
    have hstep := GetNode_recorded_step g n id logSize w hget hnodup hcached
    exact ih _ _ hstep.1 hstep.2.1 hstep.2.2

/-- Claim C22.  Over any sequence of `GetNode` calls on one cache, each tile is returned by
the tile-fetch function at most once: the keys of the tiles returned are pairwise distinct,
and each of them is cached at the end.  Call by call: a non-ephemeral node whose tile is
cached is answered from the cached tile without the tile-fetch function (the cache and the
world are unchanged, whatever the log size passed); a tile that the tile-fetch function
returns is cached under its key; a failed fetch leaves the cache as it was; and no call
drops or replaces a cached tile. -/
theorem GetNode_tile_memoization {σ : Type} (g : GetTileFunc σ) (calls : List (NodeID × Nat))
    (n : NodeCache (σ × TileLog)) (w : World (σ × TileLog))
    (hget : n.getTile = recordTiles g) (hlog : w.store.2 = []) :
    (tilesReturned (getNodeCalls calls n w).2.store.2).Nodup ∧
    (∀ k ∈ tilesReturned (getNodeCalls calls n w).2.store.2,
      (getNodeCalls calls n w).1.tiles k ≠ none) ∧
    (∀ (τ : Type) (c : NodeCache τ) (id : NodeID) (logSize : Nat) (v : World τ),
      (∀ t, (c.ephemeral id).getD [] = [] → c.tiles (tileKeyOf id) = some t →
        c.GetNode id logSize v = (nodeFromTile t id, c, v)) ∧
      (∀ tile v1, (c.ephemeral id).getD [] = [] → c.tiles (tileKeyOf id) = none →
        c.getTile (tileKeyOf id).1 (tileKeyOf id).2 logSize v = (.ok tile, v1) →
        (c.GetNode id logSize v).2.1.tiles (tileKeyOf id) = some tile ∧
        (c.GetNode id logSize v).2.2 = v1) ∧
      (∀ err v1, (c.ephemeral id).getD [] = [] → c.tiles (tileKeyOf id) = none →
        c.getTile (tileKeyOf id).1 (tileKeyOf id).2 logSize v = (.error err, v1) →
        c.GetNode id logSize v = (.error (.wrap "failed to fetch tile" err), c, v1)) ∧
      (∀ k t, c.tiles k = some t → (c.GetNode id logSize v).2.1.tiles k = some t)) := by
  have hmain := getNodeCalls_recorded g calls n w hget (by rw [hlog]; exact List.nodup_nil)
    (by rw [hlog]; intro k hk; simp [tilesReturned] at hk)
  refine ⟨hmain.1, hmain.2, ?_⟩
  intro τ c id logSize v
  refine ⟨?_, ?_, ?_, ?_⟩
  · intro t heph htile
    exact GetNode_cached c id logSize v t heph htile
  · intro tile v1 heph htile hcall
    rw [(GetNode_uncached c id logSize v heph htile).1 tile v1 hcall]
    exact ⟨by simp, rfl⟩
  · intro err v1 heph htile hcall
    exact (GetNode_uncached c id logSize v heph htile).2 err v1 hcall
  · exact (GetNode_keeps_tiles c id logSize v).2

theorem GetNode_tile_memoization_witness :
    (NewNodeCache (recordTiles (newTileFetcher specEnv twoLeafLog))).getTile
      = recordTiles (newTileFetcher specEnv twoLeafLog) ∧
    tilesReturned (getNodeCalls [(⟨0, 0⟩, 2), (⟨0, 1⟩, 2), (⟨1, 0⟩, 2), (⟨0, 0⟩, 300)]
      (NewNodeCache (recordTiles (newTileFetcher specEnv twoLeafLog)))
      ⟨((), []), []⟩).2.store.2 = [(0, 0)] ∧
    (tilesReturned (getNodeCalls [(⟨0, 0⟩, 2), (⟨0, 1⟩, 2), (⟨1, 0⟩, 2), (⟨0, 0⟩, 300)]
      (NewNodeCache (recordTiles (newTileFetcher specEnv twoLeafLog)))
      ⟨((), []), []⟩).2.store.2).Nodup :=
  ⟨rfl, by decide,
    (GetNode_tile_memoization (newTileFetcher specEnv twoLeafLog)
      [(⟨0, 0⟩, 2), (⟨0, 1⟩, 2), (⟨1, 0⟩, 2), (⟨0, 0⟩, 300)]
      (NewNodeCache (recordTiles (newTileFetcher specEnv twoLeafLog))) ⟨((), []), []⟩ rfl rfl).1⟩

/-! ## The empty tree -/

/-- For a checkpoint of size 0, `NewProofBuilder` resolves no node (the world is unchanged: no
tile is fetched), folds the empty range to the empty slice and compares: it succeeds exactly
when the root hash of the checkpoint is empty. -/
theorem NewProofBuilder_size_zero {σ : Type} (env : Env) (cp : Checkpoint) (h : HashFn)
    (f : FetcherFunc σ) (w : World σ) (hsize : cp.Size = 0) :
    NewProofBuilder env cp h f w =
      (if cp.Hash ≠ [] then .error (.invalidCheckpoint cp.Hash [])
        else .ok ⟨cp, NewNodeCache (newTileFetcher env f), h⟩, w) := by
  unfold NewProofBuilder
  rw [hsize]
  have h1 : FetchRangeNodes 0 (NewNodeCache (newTileFetcher env f)) w =
      (.ok [], NewNodeCache (newTileFetcher env f), w) := rfl
  rw [h1]
  have h2 : NewRange h 0 0 [] = .ok ⟨h, 0, 0, []⟩ := rfl
  simp only [h2]
  have h3 : (⟨h, 0, 0, []⟩ : Range).GetRootHash NodeCache.SetEphemeralNode
      (NewNodeCache (newTileFetcher env f)) = (.ok [], NewNodeCache (newTileFetcher env f)) := by
    have hr : RangeNodes 0 = [] := rfl
    simp [Range.GetRootHash, hr, foldRange]
  simp only [h3]
  by_cases hh : cp.Hash = []
  · simp [hh]
  · simp [hh]

/-- Claim C23, as the spec words it, fails: for the checkpoint of size 0 whose root hash is
SHA-256 of the empty string, `NewProofBuilder` returns the invalid-checkpoint error: the root
it reconstructs for the size-0 tree is the empty slice. -/
theorem NewProofBuilder_empty_tree_counterexample :
    NewProofBuilder specEnv ⟨"log", 0, sha256Empty, []⟩ sampleHasher.HashChildren twoLeafLog
        freshWorld
      = (.error (.invalidCheckpoint sha256Empty []), freshWorld) := by
  rw [NewProofBuilder_size_zero specEnv ⟨"log", 0, sha256Empty, []⟩ sampleHasher.HashChildren
    twoLeafLog freshWorld rfl]
  rfl

/-- Claim C23, amended.  For a checkpoint of size 0, `NewProofBuilder` fetches no tile (the
world after the call is the world before it) and succeeds exactly when the root hash of the
checkpoint is the empty slice, which is the root its self-integrity check reconstructs for
the size-0 tree; for any other root hash it fails with the invalid-checkpoint error. -/
theorem NewProofBuilder_empty_tree {σ : Type} (env : Env) (cp : Checkpoint) (h : HashFn)
    (f : FetcherFunc σ) (w : World σ) (hsize : cp.Size = 0) :
    (NewProofBuilder env cp h f w).2 = w ∧
    (cp.Hash = [] →
      (NewProofBuilder env cp h f w).1 = .ok ⟨cp, NewNodeCache (newTileFetcher env f), h⟩) ∧
    (cp.Hash ≠ [] →
      (NewProofBuilder env cp h f w).1 = .error (.invalidCheckpoint cp.Hash [])) ∧
    ((∃ pb, (NewProofBuilder env cp h f w).1 = .ok pb) ↔ cp.Hash = []) := by
  rw [NewProofBuilder_size_zero env cp h f w hsize]
  refine ⟨rfl, ?_, ?_, ?_⟩
  · intro hh; simp [hh]
  · intro hh; simp [hh]
  · by_cases hh : cp.Hash = []
    · simp [hh]
    · simp [hh]

theorem NewProofBuilder_empty_tree_witness :
    (NewProofBuilder specEnv ⟨"log", 0, [], []⟩ sampleHasher.HashChildren twoLeafLog
        freshWorld).2 = freshWorld ∧
    (NewProofBuilder specEnv ⟨"log", 0, [], []⟩ sampleHasher.HashChildren twoLeafLog
        freshWorld).1
      = .ok ⟨⟨"log", 0, [], []⟩, NewNodeCache (newTileFetcher specEnv twoLeafLog),
          sampleHasher.HashChildren⟩ :=
  ⟨(NewProofBuilder_empty_tree specEnv ⟨"log", 0, [], []⟩ sampleHasher.HashChildren twoLeafLog
      freshWorld rfl).1,
    (NewProofBuilder_empty_tree specEnv ⟨"log", 0, [], []⟩ sampleHasher.HashChildren twoLeafLog
      freshWorld rfl).2.1 rfl⟩

/-! ## No retry of a missing tile -/

/-- Claim C24, as the spec words it, fails: the tile (0, 0) of a log of size 256 is not
partial, its fetch fails with NotFound, and `GetNode` returns the error after one invocation
of the fetcher, not two. -/
theorem GetNode_no_retry_counterexample :
    PartialTileSize 0 0 256 = 0 ∧
    ((NewNodeCache (newTileFetcher specEnv (filesFetcher []))).GetNode ⟨0, 0⟩ 256 freshWorld).1
      = .error (.wrap "failed to fetch tile" Error.notExist) ∧
    ((NewNodeCache (newTileFetcher specEnv (filesFetcher []))).GetNode ⟨0, 0⟩ 256
      freshWorld).2.2.trace = [Event.fetch "tile/00/0000/00/00/00"] ∧
    (fetchedPaths ((NewNodeCache (newTileFetcher specEnv (filesFetcher []))).GetNode ⟨0, 0⟩ 256
      freshWorld).2.2.trace).length ≠ 2 := by
  decide

/-- Claim C24, amended.  When `GetNode` needs a tile that is not cached and the fetch of that
tile fails, with NotFound or any other error and at a partial size or not, the error is
returned to the caller at once, wrapped as a failed tile fetch: the fetcher is invoked
exactly once for that `GetNode` call, on the tile's path for the log size passed, and the
cache is left as it was. -/
theorem GetNode_fetch_failure_not_retried {σ : Type} (env : Env) (f : FetcherFunc σ)
    (n : NodeCache σ) (id : NodeID) (logSize : Nat) (w : World σ) (err : Error)
    (hget : n.getTile = newTileFetcher env f)
    (heph : (n.ephemeral id).getD [] = [])
    (htile : n.tiles (tileKeyOf id) = none)
    (hfail : (f (tileFilePath (tileKeyOf id).1 (tileKeyOf id).2 logSize) w.store).1
      = .error err) :
    (n.GetNode id logSize w).1 = .error (.wrap "failed to fetch tile"
        (if err.is Error.notExist then err else .wrap "failed to read tile" err)) ∧
    (n.GetNode id logSize w).2.1 = n ∧
    (n.GetNode id logSize w).2.2.trace
      = w.trace ++ [Event.fetch (tileFilePath (tileKeyOf id).1 (tileKeyOf id).2 logSize)] ∧
    fetchedPaths (n.GetNode id logSize w).2.2.trace
      = fetchedPaths w.trace ++ [tileFilePath (tileKeyOf id).1 (tileKeyOf id).2 logSize] := by
  have hpaths : ∀ (t : List Event) (q : String),
      fetchedPaths (t ++ [Event.fetch q]) = fetchedPaths t ++ [q] := by
    intro t q
    induction t with
    | nil => rfl
    | cons ev rest ih => cases ev <;> simp [fetchedPaths, ih]
  have hcall : n.getTile (tileKeyOf id).1 (tileKeyOf id).2 logSize w =
      (.error (if err.is Error.notExist then err else .wrap "failed to read tile" err),
        ⟨(f (tileFilePath (tileKeyOf id).1 (tileKeyOf id).2 logSize) w.store).2,
          w.trace ++ [Event.fetch (tileFilePath (tileKeyOf id).1 (tileKeyOf id).2 logSize)]⟩) := by
    rw [hget]
    unfold newTileFetcher
    unfold tileFilePath at hfail ⊢
    simp only [callFetcher, hfail]
    by_cases he : err.is Error.notExist <;> simp [he]
  rw [(GetNode_uncached n id logSize w heph htile).2 _ _ hcall]
  exact ⟨rfl, rfl, rfl, hpaths _ _⟩

theorem GetNode_fetch_failure_not_retried_witness :
    ((NewNodeCache (newTileFetcher specEnv (filesFetcher []))).GetNode ⟨0, 0⟩ 256 freshWorld).1
      = .error (.wrap "failed to fetch tile" Error.notExist) ∧
    ((NewNodeCache (newTileFetcher specEnv (filesFetcher []))).GetNode ⟨0, 0⟩ 256
      freshWorld).2.2.trace = freshWorld.trace ++ [Event.fetch "tile/00/0000/00/00/00"] :=
  have h := GetNode_fetch_failure_not_retried specEnv (filesFetcher [])
    (NewNodeCache (newTileFetcher specEnv (filesFetcher []))) ⟨0, 0⟩ 256 freshWorld
    Error.notExist rfl rfl rfl (by decide)
  ⟨h.1, h.2.2.1⟩

/-! ## `LookupIndex` -/

set_option maxRecDepth 100000 in
/-- On octets, the digits `ParseUint` accepts in base 16 are the hexadecimal digits. -/
theorem digitOf_hex : ∀ c < 256, (match digitOf c with
    | some d => if d < 16 then some d else none
    | none => none) = hexDigitValue c := by
  decide

theorem hexNumeralFrom_ge : ∀ (s : Bytes) (n v : Nat), hexNumeralFrom s n = some v → n ≤ v := by
  intro s
  induction s with
  | nil => intro n v h; simp [hexNumeralFrom] at h; omega
  | cons c rest ih =>
    intro n v h
    rw [hexNumeralFrom] at h
    cases hd : hexDigitValue c with
    | none => rw [hd] at h; simp at h
    | some d =>
      rw [hd] at h
      have := ih _ _ h
      omega

/-- The loop of `ParseUint` in base 16 against the unbounded numeral: the value when it fits
64 bits, an error when it does not or when an octet is not a hexadecimal digit. -/
theorem parseUintLoop_spec : ∀ (s : Bytes) (n : Nat), (∀ b ∈ s, b < 256) → n < 2 ^ 64 →
    (∀ v, hexNumeralFrom s n = some v → v < 2 ^ 64 → parseUintLoop 16 s n = (v, none)) ∧
    (∀ v, hexNumeralFrom s n = some v → 2 ^ 64 ≤ v → (parseUintLoop 16 s n).2 ≠ none) ∧
    (hexNumeralFrom s n = none → (parseUintLoop 16 s n).2 ≠ none) := by
  intro s
  induction s with
  | nil =>
    intro n _ hn
    refine ⟨?_, ?_, ?_⟩
    · intro v h _; simp [hexNumeralFrom] at h; simp [parseUintLoop, h]
    · intro v h hv; simp [hexNumeralFrom] at h; omega
    · intro h; simp [hexNumeralFrom] at h
  | cons c rest ih =>
    intro n hs hn
    have hc : c < 256 := hs c (by simp)
    have hrest : ∀ b ∈ rest, b < 256 := fun b hb => hs b (by simp [hb])
    have hdig := digitOf_hex c hc
    rw [hexNumeralFrom, parseUintLoop]
    cases hd : digitOf c with
    | none =>
      rw [hd] at hdig
      simp only [] at hdig
      rw [← hdig]
      simp
    | some d =>
      rw [hd] at hdig
      simp only [] at hdig
      by_cases hd16 : d < 16
      · rw [if_pos hd16] at hdig
        rw [← hdig]
        simp only []
        have hnb : ¬ d ≥ 16 := by omega
        rw [if_neg hnb]
        by_cases hcut : n ≥ (2 ^ 64 - 1) / 16 + 1
        · rw [if_pos hcut]
          have hbig : 2 ^ 64 ≤ n * 16 + d := by norm_num at hcut ⊢; omega
          refine ⟨?_, ?_, ?_⟩
          · intro v h hv
            have := hexNumeralFrom_ge _ _ _ h
            omega
          · intro v _ _; simp
          · intro _; simp
        · rw [if_neg hcut]
          have hsmall : n * 16 + d < 2 ^ 64 := by norm_num at hcut ⊢; omega
          have e1 : n * 16 % 2 ^ 64 = n * 16 := Nat.mod_eq_of_lt (by omega)
          have e2 : (n * 16 + d) % 2 ^ 64 = n * 16 + d := Nat.mod_eq_of_lt hsmall
          rw [e1, e2]
          have hno : ¬ (n * 16 + d < n * 16 ∨ n * 16 + d > 2 ^ 64 - 1) := by omega
          rw [if_neg hno]
          exact ih (n * 16 + d) hrest hsmall
      · rw [if_neg hd16] at hdig
        rw [← hdig]
        simp only []
        have hnb : d ≥ 16 := by omega
        rw [if_pos hnb]
        simp

/-- Claim C25.  For a leaf hash on which `LeafPath` is defined, `LookupIndex` calls the
fetcher exactly once, on the path `LeafPath("", lh)`.  When the fetch fails it returns an
error.  When the fetch returns contents (octets), it returns the value of the whole contents
read as a base-16 numeral, without error, if the contents are a non-empty string of
hexadecimal digits whose value is below `2^64`, and an error otherwise: when the contents are
empty, hold an octet that is not a hexadecimal digit, or exceed 64 bits. -/
theorem LookupIndex_spec {σ : Type} (f : FetcherFunc σ) (lh : Bytes) (w : World σ)
    (dir file : String) (hpath : LeafPath "" lh = some (dir, file)) :
    ∃ r, LookupIndex f lh w = some r ∧
      r.2.trace = w.trace ++ [Event.fetch (filepathJoin [dir, file])] ∧
      r.2.store = (f (filepathJoin [dir, file]) w.store).2 ∧
      (∀ err, (f (filepathJoin [dir, file]) w.store).1 = .error err → r.1.2 ≠ none) ∧
      (∀ sRaw, (f (filepathJoin [dir, file]) w.store).1 = .ok sRaw → (∀ b ∈ sRaw, b < 256) →
        (∀ v, hexNumeral sRaw = some v → v < 2 ^ 64 → r.1 = (v, none)) ∧
        (∀ v, hexNumeral sRaw = some v → 2 ^ 64 ≤ v → r.1.2 ≠ none) ∧
        (hexNumeral sRaw = none → r.1.2 ≠ none)) := by
  unfold LookupIndex
  rw [hpath]
  simp only [callFetcher]
  cases hf : (f (filepathJoin [dir, file]) w.store).1 with
  | error err =>
    by_cases he : err.is Error.notExist
    · simp [he]
    · simp [he]
  | ok sRaw =>
    refine ⟨_, rfl, rfl, rfl, ?_, ?_⟩
    · intro err h; simp at h
    · intro s hs hbytes
      simp only [Except.ok.injEq] at hs
      subst hs
      unfold hexNumeral ParseUint
      by_cases hempty : sRaw = []
      · simp [hempty]
      · simp only [hempty, if_false]
        exact parseUintLoop_spec sRaw 0 hbytes (by norm_num)

theorem LookupIndex_spec_witness :
    LeafPath "" [0x11, 0x22, 0x33, 0x44] = some ("leaves/11/22/33", "44") ∧
    hexNumeral (bytesOf "10") = some 16 ∧
    hexNumeral (bytesOf "") = none ∧
    hexNumeral (bytesOf "10\n") = none ∧
    hexNumeral (bytesOf "10000000000000000") = some (2 ^ 64) ∧
    LookupIndex (filesFetcher [("leaves/11/22/33/44", bytesOf "10")]) [0x11, 0x22, 0x33, 0x44]
      freshWorld = some ((16, none), ⟨(), [Event.fetch "leaves/11/22/33/44"]⟩) ∧
    ∃ r, LookupIndex (filesFetcher [("leaves/11/22/33/44", bytesOf "10")])
        [0x11, 0x22, 0x33, 0x44] freshWorld = some r ∧
      r.2.trace = freshWorld.trace ++ [Event.fetch (filepathJoin ["leaves/11/22/33", "44"])] :=
  ⟨by decide, by decide, by decide, by decide, by decide, rfl,
    (LookupIndex_spec (filesFetcher [("leaves/11/22/33/44", bytesOf "10")])
      [0x11, 0x22, 0x33, 0x44] freshWorld "leaves/11/22/33" "44" (by decide)).imp
      (fun _ h => ⟨h.1, h.2.1⟩)⟩

end Serverless
